import Mathlib

/-!
# Verification of the `postcss-dedup` engine

Shallow embedding of `packages/postcss-dedup/index.mjs`: a two-pass
deduplicator over a CSS syntax tree (PostCSS AST), followed by a
fixed-point cleanup of empty at-rule containers.

The AST is embedded as a tree of rules, at-rules (whose body is optional:
`none` models a bodiless statement such as `@import`), and declarations.
The PostCSS `walk` iteration is embedded as a pure pre-order traversal
that threads the mutable seen-state; PostCSS continues walking into the
subtree of a node that the callback just removed (the removed node's
`parent` becomes `undefined`, but its descendants keep their parent
links), so the embedding also walks removed subtrees, with the ancestor
chain cut at the removed node exactly as `getAtRuleContext` would observe
it through the severed parent link.
-/

namespace Dedup

/-- A PostCSS AST node: a style rule (`selector`, child nodes), an at-rule
(`name`, `params`, optional body), or a declaration (`prop`, `value`,
`important`). The document root is a plain `List Node`. -/
inductive Node where
  | rule (selector : String) (nodes : List Node)
  | atrule (name params : String) (nodes : Option (List Node))
  | decl (prop value : String) (important : Bool)
deriving Repr

mutual
/-- Decidable structural equality on nodes (nested inductive, so the
`DecidableEq` instance is built by hand). -/
def nodeDecEq : (a b : Node) → Decidable (a = b)
  | .decl p v i, .decl p' v' i' =>
      if h : p = p' ∧ v = v' ∧ i = i' then
        isTrue (by rw [h.1, h.2.1, h.2.2])
      else
        isFalse (by intro hc; injection hc with h1 h2 h3; exact h ⟨h1, h2, h3⟩)
  | .rule s b, .rule s' b' =>
      match String.decEq s s', listDecEq b b' with
      | isTrue h1, isTrue h2 => isTrue (by rw [h1, h2])
      | isFalse h1, _ => isFalse (by intro hc; injection hc with a1 a2; exact h1 a1)
      | _, isFalse h2 => isFalse (by intro hc; injection hc with a1 a2; exact h2 a2)
  | .atrule n p none, .atrule n' p' none =>
      if h : n = n' ∧ p = p' then isTrue (by rw [h.1, h.2])
      else isFalse (by intro hc; injection hc with h1 h2 h3; exact h ⟨h1, h2⟩)
  | .atrule n p (some b), .atrule n' p' (some b') =>
      match String.decEq n n', String.decEq p p', listDecEq b b' with
      | isTrue h1, isTrue h2, isTrue h3 => isTrue (by rw [h1, h2, h3])
      | isFalse h1, _, _ => isFalse (by intro hc; injection hc with a1 a2 a3; exact h1 a1)
      | _, isFalse h2, _ => isFalse (by intro hc; injection hc with a1 a2 a3; exact h2 a2)
      | _, _, isFalse h3 => isFalse (by
          intro hc; injection hc with a1 a2 a3; exact h3 (Option.some.inj a3))
  | .decl _ _ _, .rule _ _ => isFalse (fun h => Node.noConfusion h)
  | .decl _ _ _, .atrule _ _ _ => isFalse (fun h => Node.noConfusion h)
  | .rule _ _, .decl _ _ _ => isFalse (fun h => Node.noConfusion h)
  | .rule _ _, .atrule _ _ _ => isFalse (fun h => Node.noConfusion h)
  | .atrule _ _ _, .decl _ _ _ => isFalse (fun h => Node.noConfusion h)
  | .atrule _ _ _, .rule _ _ => isFalse (fun h => Node.noConfusion h)
  | .atrule _ _ none, .atrule _ _ (some _) =>
      isFalse (by intro hc; injection hc with h1 h2 h3; exact Option.noConfusion h3)
  | .atrule _ _ (some _), .atrule _ _ none =>
      isFalse (by intro hc; injection hc with h1 h2 h3; exact Option.noConfusion h3)
def listDecEq : (a b : List Node) → Decidable (a = b)
  | [], [] => isTrue rfl
  | a :: r, a' :: r' =>
      match nodeDecEq a a', listDecEq r r' with
      | isTrue h1, isTrue h2 => isTrue (by rw [h1, h2])
      | isFalse h1, _ => isFalse (by intro hc; injection hc with a1 a2; exact h1 a1)
      | _, isFalse h2 => isFalse (by intro hc; injection hc with a1 a2; exact h2 a2)
  | [], _ :: _ => isFalse (fun h => List.noConfusion h)
  | _ :: _, [] => isFalse (fun h => List.noConfusion h)
end

instance : DecidableEq Node := nodeDecEq

/-- `child.type === "decl"` -/
def isDecl : Node → Bool
  | .decl _ _ _ => true
  | _ => false

/-- `serializeDecl`: `` `${decl.prop}:${decl.value}${decl.important ? "!important" : ""}` `` -/
def serializeDecl (prop value : String) (important : Bool) : String :=
  prop ++ ":" ++ value ++ (if important then "!important" else "")

/-- The serialized forms of the direct-child declarations of a node, in
document order (non-declaration children are skipped, as in the loop of
`serializeDeclarations`). -/
def declSerials : List Node → List String
  | [] => []
  | .decl p v i :: r => serializeDecl p v i :: declSerials r
  | .rule _ _ :: r => declSerials r
  | .atrule _ _ _ :: r => declSerials r

/-- `serializeDeclarations`: serialize the direct-child declarations,
sort them (JS `Array.prototype.sort` on strings = lexicographic), and
join with `";"`. -/
def serializeDeclarations (nodes : List Node) : String :=
  String.intercalate ";" (List.insertionSort (fun a b : String => a ≤ b) (declSerials nodes))

/-- `getAtRuleContext`, resolved against the chain of at-rule ancestors
(outermost first) that the traversal carries: each ancestor contributes
`` `${name}:${params}` `` and the parts are joined with `"|"`. -/
def ctxString (ctx : List (String × String)) : String :=
  String.intercalate "|" (ctx.map (fun e => e.1 ++ ":" ++ e.2))

/-- `hash`: SHA-256 is used in the source purely as a memory optimization
for the seen-set and is semantically a no-op over the raw key (an
injective digest), so it is embedded as the identity. -/
def hashStr (s : String) : String := s

/-- Pass-1 fingerprint of a rule: `` `rule|${context}|${selector}|${decls}` `` -/
def fingerprintRule (ctx : List (String × String)) (selector : String)
    (body : List Node) : String :=
  "rule|" ++ ctxString ctx ++ "|" ++ selector ++ "|" ++ serializeDeclarations body

/-- Pass-1 fingerprint of a declaration-only at-rule:
`` `atrule|${context}|${name}:${params}|${decls}` `` -/
def fingerprintAtRule (ctx : List (String × String)) (name params : String)
    (body : List Node) : String :=
  "atrule|" ++ ctxString ctx ++ "|" ++ name ++ ":" ++ params ++ "|" ++ serializeDeclarations body

/-- Pass-1 eligibility of an at-rule:
`node.nodes !== undefined && node.nodes.length > 0 && node.nodes.every(c => c.type === "decl")`. -/
def declOnlyEligible : Option (List Node) → Bool
  | none => false
  | some b => !b.isEmpty && b.all isDecl

/-- Pass 1 (`Once`, whole-rule dedup): pre-order walk; an eligible node
whose hashed fingerprint is in the seen set is removed, otherwise the
fingerprint is added.  A removed node's subtree is still walked (PostCSS
`walk` recurses into the child after the callback), with the ancestor
chain cut at the removed node.  Returns the surviving nodes and the
final seen set. -/
def pass1Walk (ctx : List (String × String)) (seen : List String) :
    List Node → (List Node × List String)
  | [] => ([], seen)
  | .decl p v i :: rest =>
      let r := pass1Walk ctx seen rest
      (.decl p v i :: r.1, r.2)
  | .rule sel body :: rest =>
      let key := hashStr (fingerprintRule ctx sel body)
      if key ∈ seen then
        let d := pass1Walk [] seen body
        pass1Walk ctx d.2 rest
      else
        let b := pass1Walk ctx (key :: seen) body
        let r := pass1Walk ctx b.2 rest
        (.rule sel b.1 :: r.1, r.2)
  | .atrule name params none :: rest =>
      let r := pass1Walk ctx seen rest
      (.atrule name params none :: r.1, r.2)
  | .atrule name params (some body) :: rest =>
      if declOnlyEligible (some body) then
        let key := hashStr (fingerprintAtRule ctx name params body)
        if key ∈ seen then
          let d := pass1Walk [(name, params)] seen body
          pass1Walk ctx d.2 rest
        else
          let b := pass1Walk (ctx ++ [(name, params)]) (key :: seen) body
          let r := pass1Walk ctx b.2 rest
          (.atrule name params (some b.1) :: r.1, r.2)
      else
        let b := pass1Walk (ctx ++ [(name, params)]) seen body
        let r := pass1Walk ctx b.2 rest
        (.atrule name params (some b.1) :: r.1, r.2)
termination_by ns => sizeOf ns
decreasing_by all_goals (simp_wf; try omega)

/-- Pass-2 group key: `` `${context}|${node.selector}` ``. -/
def gkey (ctx : List (String × String)) (selector : String) : String :=
  ctxString ctx ++ "|" ++ selector

/-- The declaration filter of `deduplicateDeclarations` applied to one
rule's child list: a declaration whose `(group key, serialized form)`
pair is already in the seen set is dropped, otherwise it is kept and the
pair is added; non-declaration children are kept untouched.  (The source
collects duplicates in `toRemove` and removes them afterwards, which has
the same effect on the child list.) -/
def dedupDecls (gk : String) (seen : List (String × String)) :
    List Node → (List Node × List (String × String))
  | [] => ([], seen)
  | .decl p v i :: rest =>
      let s := serializeDecl p v i
      if (gk, s) ∈ seen then dedupDecls gk seen rest
      else
        let r := dedupDecls gk ((gk, s) :: seen) rest
        (.decl p v i :: r.1, r.2)
  | .rule sel body :: rest =>
      let r := dedupDecls gk seen rest
      (.rule sel body :: r.1, r.2)
  | .atrule n p b :: rest =>
      let r := dedupDecls gk seen rest
      (.atrule n p b :: r.1, r.2)

/-- Size bound on the declaration filter, needed to justify that Pass 2
may recurse into a rule's post-removal child list. -/
def dedupDecls_sizeOf_le : ∀ (gk : String) (seen : List (String × String)) (ns : List Node),
    sizeOf (dedupDecls gk seen ns).1 ≤ sizeOf ns
  | gk, seen, [] => by simp [dedupDecls]
  | gk, seen, .decl p v i :: rest => by
      simp only [dedupDecls]
      split
      · have := dedupDecls_sizeOf_le gk seen rest
        simp only [List.cons.sizeOf_spec]; omega
      · have := dedupDecls_sizeOf_le gk ((gk, serializeDecl p v i) :: seen) rest
        simp only [List.cons.sizeOf_spec]; omega
  | gk, seen, .rule sel body :: rest => by
      have := dedupDecls_sizeOf_le gk seen rest
      simp only [dedupDecls, List.cons.sizeOf_spec]; omega
  | gk, seen, .atrule n p b :: rest => by
      have := dedupDecls_sizeOf_le gk seen rest
      simp only [dedupDecls, List.cons.sizeOf_spec]; omega

/-- Pass 2 (`deduplicateDeclarations`): pre-order walk; every rule has
its direct-child declarations filtered against the seen set of its
`context|selector` group, and is removed entirely when no declaration
children remain (`hasDecls`).  As in Pass 1, the subtree of a removed
rule is still walked with the ancestor chain cut. -/
def pass2Walk (ctx : List (String × String)) (seen : List (String × String)) :
    List Node → (List Node × List (String × String))
  | [] => ([], seen)
  | .rule sel body :: rest =>
      let gk := gkey ctx sel
      let d := dedupDecls gk seen body
      if d.1.any isDecl then
        let b := pass2Walk ctx d.2 d.1
        let r := pass2Walk ctx b.2 rest
        (.rule sel b.1 :: r.1, r.2)
      else
        let dd := pass2Walk [] d.2 d.1
        pass2Walk ctx dd.2 rest
  | .atrule name params (some body) :: rest =>
      let b := pass2Walk (ctx ++ [(name, params)]) seen body
      let r := pass2Walk ctx b.2 rest
      (.atrule name params (some b.1) :: r.1, r.2)
  | .atrule name params none :: rest =>
      let r := pass2Walk ctx seen rest
      (.atrule name params none :: r.1, r.2)
  | .decl p v i :: rest =>
      let r := pass2Walk ctx seen rest
      (.decl p v i :: r.1, r.2)
termination_by ns => sizeOf ns
decreasing_by
  all_goals simp_wf
  all_goals try omega
  · have := dedupDecls_sizeOf_le (gkey ctx sel) seen body; omega
  · have := dedupDecls_sizeOf_le (gkey ctx sel) seen body; omega

/-- One scan of `removeEmptyAtRules`'s `walkAtRules`: every at-rule whose
child list is present and empty is removed; the Boolean records whether
any removal happened (`changed`).  The scan is pre-order, so an at-rule
emptied by the removal of its own children in the same scan is only
caught by a later scan, as in the source. -/
def cleanOnce : List Node → (List Node × Bool)
  | [] => ([], false)
  | .atrule name params (some body) :: rest =>
      if body.isEmpty then
        let r := cleanOnce rest
        (r.1, true)
      else
        let b := cleanOnce body
        let r := cleanOnce rest
        (.atrule name params (some b.1) :: r.1, b.2 || r.2)
  | .rule sel body :: rest =>
      let b := cleanOnce body
      let r := cleanOnce rest
      (.rule sel b.1 :: r.1, b.2 || r.2)
  | .atrule name params none :: rest =>
      let r := cleanOnce rest
      (.atrule name params none :: r.1, r.2)
  | .decl p v i :: rest =>
      let r := cleanOnce rest
      (.decl p v i :: r.1, r.2)
termination_by ns => sizeOf ns
decreasing_by all_goals (simp_wf; try omega)

mutual
/-- Number of nodes in a tree (the auto-generated `sizeOf` of the nested
inductive has no executable code, so the cleanup fuel uses this count). -/
def nsize : Node → Nat
  | .decl _ _ _ => 1
  | .rule _ b => 1 + lsize b
  | .atrule _ _ none => 1
  | .atrule _ _ (some b) => 1 + lsize b
termination_by n => sizeOf n
decreasing_by all_goals (simp_wf; try omega)
def lsize : List Node → Nat
  | [] => 0
  | n :: r => nsize n + lsize r
termination_by ns => sizeOf ns
decreasing_by all_goals (simp_wf; try omega)
end

/-- The `while (changed)` loop of `removeEmptyAtRules`, driven by fuel. -/
def cleanupFuel : Nat → List Node → List Node
  | 0, ns => ns
  | Nat.succ f, ns =>
      let r := cleanOnce ns
      if r.2 then cleanupFuel f r.1 else r.1

/-- `removeEmptyAtRules`: scan until a scan produces no removal.  Each
changed scan strictly shrinks the tree, so `lsize ns + 1` scans always
reach the fixed point. -/
def removeEmptyAtRules (ns : List Node) : List Node :=
  cleanupFuel (lsize ns + 1) ns

/-- Pass 1 applied to a whole document (the `root.walk` of `Once` starts
with an empty seen set and an empty ancestor chain). -/
def pass1Forest (ns : List Node) : List Node :=
  (pass1Walk [] [] ns).1

/-- Pass 2 applied to a whole document. -/
def pass2Forest (ns : List Node) : List Node :=
  (pass2Walk [] [] ns).1

/-- The full `Once` pipeline: Pass 1, then Pass 2, then cleanup of empty
at-rule containers. -/
def dedupForest (ns : List Node) : List Node :=
  removeEmptyAtRules (pass2Forest (pass1Forest ns))

/-- The Pass-1 fingerprint of a node, when the node is eligible
(rules always are; at-rules only when nonempty and declaration-only). -/
def fingerprintOf (ctx : List (String × String)) : Node → Option String
  | .rule sel body => some (fingerprintRule ctx sel body)
  | .atrule n p (some body) =>
      if declOnlyEligible (some body) then some (fingerprintAtRule ctx n p body) else none
  | .atrule _ _ none => none
  | .decl _ _ _ => none

/-- A node that Pass 1 treats as an eligible unit and whose own children
are all declarations (the shape of Rules and declaration-only at-rules in
the spec's data model, where removing the node leaves nothing walkable
behind but declarations). -/
def flatEligible : Node → Bool
  | .rule _ body => body.all isDecl
  | .atrule _ _ (some body) => declOnlyEligible (some body)
  | .atrule _ _ none => false
  | .decl _ _ _ => false

/-- The chain of at-rule containers `C` wrapped around a node list:
`nest [(n₁,p₁),…,(nₖ,pₖ)] ns` is `@n₁ p₁ { … @nₖ pₖ { ns } … }`. -/
def nest : List (String × String) → List Node → List Node
  | [], ns => ns
  | (n, p) :: c, ns => [Node.atrule n p (some (nest c ns))]

/-- The declaration filter as the (amended) claim describes it: a
declaration is kept iff its serialized form is not among the previously
seen serials of the group, where "previously seen" covers both earlier
rules of the group (`prev`) and earlier declarations of the same rule. -/
def filterNewDecls (prev : List String) : List Node → List Node
  | [] => []
  | .decl p v i :: rest =>
      let s := serializeDecl p v i
      if s ∈ prev then filterNewDecls prev rest
      else .decl p v i :: filterNewDecls (s :: prev) rest
  | n :: rest => n :: filterNewDecls prev rest

/-- No at-rule anywhere in the forest has a present-but-empty child
list.  This is the postcondition of `removeEmptyAtRules`. -/
def noEmptyAtRules : List Node → Bool
  | [] => true
  | .atrule _ _ (some body) :: rest =>
      !body.isEmpty && noEmptyAtRules body && noEmptyAtRules rest
  | .atrule _ _ none :: rest => noEmptyAtRules rest
  | .rule _ body :: rest => noEmptyAtRules body && noEmptyAtRules rest
  | .decl _ _ _ :: rest => noEmptyAtRules rest
termination_by ns => sizeOf ns
decreasing_by all_goals (simp_wf; try omega)

/-- The `(name, params)` of every bodiless at-rule (child list absent,
e.g. `@import`) in document order, looking through at-rule bodies but not
into rules.  In the spec's data model a bodiless at-rule can only occur
at top level or under container at-rules, so this collects all of them. -/
def bodilessList : List Node → List (String × String)
  | [] => []
  | .atrule n p none :: rest => (n, p) :: bodilessList rest
  | .atrule _ _ (some body) :: rest => bodilessList body ++ bodilessList rest
  | .rule _ _ :: rest => bodilessList rest
  | .decl _ _ _ :: rest => bodilessList rest
termination_by ns => sizeOf ns
decreasing_by all_goals (simp_wf; try omega)

/-- The `(property, value, important)` triples of the direct-child
declarations of a node list, in document order. -/
def declTriples : List Node → List (String × String × Bool)
  | [] => []
  | .decl p v i :: r => (p, v, i) :: declTriples r
  | .rule _ _ :: r => declTriples r
  | .atrule _ _ _ :: r => declTriples r

/-- The idealized Pass 1 that the claim about detached nodes describes:
identical to `pass1Walk` except that the subtree of a removed node is
never visited, so no node below a removed ancestor is ever fingerprinted
or added to the seen set. -/
def pass1IdealWalk (ctx : List (String × String)) (seen : List String) :
    List Node → (List Node × List String)
  | [] => ([], seen)
  | .decl p v i :: rest =>
      let r := pass1IdealWalk ctx seen rest
      (.decl p v i :: r.1, r.2)
  | .rule sel body :: rest =>
      let key := hashStr (fingerprintRule ctx sel body)
      if key ∈ seen then
        pass1IdealWalk ctx seen rest
      else
        let b := pass1IdealWalk ctx (key :: seen) body
        let r := pass1IdealWalk ctx b.2 rest
        (.rule sel b.1 :: r.1, r.2)
  | .atrule name params none :: rest =>
      let r := pass1IdealWalk ctx seen rest
      (.atrule name params none :: r.1, r.2)
  | .atrule name params (some body) :: rest =>
      if declOnlyEligible (some body) then
        let key := hashStr (fingerprintAtRule ctx name params body)
        if key ∈ seen then
          pass1IdealWalk ctx seen rest
        else
          let b := pass1IdealWalk (ctx ++ [(name, params)]) (key :: seen) body
          let r := pass1IdealWalk ctx b.2 rest
          (.atrule name params (some b.1) :: r.1, r.2)
      else
        let b := pass1IdealWalk (ctx ++ [(name, params)]) seen body
        let r := pass1IdealWalk ctx b.2 rest
        (.atrule name params (some b.1) :: r.1, r.2)
termination_by ns => sizeOf ns
decreasing_by all_goals (simp_wf; try omega)

/-- The idealized Pass 1 applied to a whole document. -/
def pass1IdealForest (ns : List Node) : List Node :=
  (pass1IdealWalk [] [] ns).1

/-- The fingerprints Pass 1 computes for the eligible nodes of a forest,
in pre-order, under ancestor chain `ctx` (mirroring eligibility: every
rule, and every at-rule with a nonempty all-declaration body). -/
def fpList (ctx : List (String × String)) : List Node → List String
  | [] => []
  | .decl _ _ _ :: rest => fpList ctx rest
  | .rule sel body :: rest =>
      fingerprintRule ctx sel body :: (fpList ctx body ++ fpList ctx rest)
  | .atrule _ _ none :: rest => fpList ctx rest
  | .atrule n p (some body) :: rest =>
      if declOnlyEligible (some body) then
        fingerprintAtRule ctx n p body ::
          (fpList (ctx ++ [(n, p)]) body ++ fpList ctx rest)
      else fpList (ctx ++ [(n, p)]) body ++ fpList ctx rest
termination_by ns => sizeOf ns
decreasing_by all_goals (simp_wf; try omega)

/-- The `(group key, serialized declaration)` pairs Pass 2 consults, in
pre-order: one pair per direct-child declaration of every rule. -/
def groupPairs (ctx : List (String × String)) : List Node → List (String × String)
  | [] => []
  | .decl _ _ _ :: rest => groupPairs ctx rest
  | .rule sel body :: rest =>
      (declSerials body).map (fun t => (gkey ctx sel, t))
        ++ (groupPairs ctx body ++ groupPairs ctx rest)
  | .atrule _ _ none :: rest => groupPairs ctx rest
  | .atrule n p (some body) :: rest =>
      groupPairs (ctx ++ [(n, p)]) body ++ groupPairs ctx rest
termination_by ns => sizeOf ns
decreasing_by all_goals (simp_wf; try omega)

/-- Every rule anywhere in the forest has at least one direct-child
declaration (so Pass 2 does not delete it). -/
def rulesHaveDecls : List Node → Bool
  | [] => true
  | .rule _ body :: rest => body.any isDecl && rulesHaveDecls body && rulesHaveDecls rest
  | .atrule _ _ (some body) :: rest => rulesHaveDecls body && rulesHaveDecls rest
  | .atrule _ _ none :: rest => rulesHaveDecls rest
  | .decl _ _ _ :: rest => rulesHaveDecls rest
termination_by ns => sizeOf ns
decreasing_by all_goals (simp_wf; try omega)

/-- Every rule anywhere in the forest has only declaration children (the
spec's data model: a Rule holds a flat block of Declarations). -/
def rulesFlat : List Node → Bool
  | [] => true
  | .rule _ body :: rest => body.all isDecl && rulesFlat rest
  | .atrule _ _ (some body) :: rest => rulesFlat body && rulesFlat rest
  | .atrule _ _ none :: rest => rulesFlat rest
  | .decl _ _ _ :: rest => rulesFlat rest
termination_by ns => sizeOf ns
decreasing_by all_goals (simp_wf; try omega)

/-- CSS-shaped forests: every Rule holds only Declarations (the shape
PostCSS parses for plain CSS), and every at-rule body is either
declaration-only (`@property`, `@font-face`) or declaration-free
(`@media`, `@layer`, `@supports` containers). -/
def wfForest : List Node → Bool
  | [] => true
  | .decl _ _ _ :: rest => wfForest rest
  | .rule _ body :: rest => body.all isDecl && wfForest rest
  | .atrule _ _ none :: rest => wfForest rest
  | .atrule _ _ (some body) :: rest =>
      (body.all isDecl || (body.all (fun n => !isDecl n) && wfForest body)) && wfForest rest
termination_by ns => sizeOf ns
decreasing_by all_goals (simp_wf; try omega)

/-- A serialized declaration that uses neither the declaration join
character `';'` nor the fingerprint field separator `'|'` (real CSS
custom-property names and values do not contain them). -/
def cleanSerial (s : String) : Bool :=
  s.data.all (fun c => !(c = ';' || c = '|'))

/-- Every declaration anywhere in the forest serializes without `';'`
and `'|'`. -/
def cleanSerials : List Node → Bool
  | [] => true
  | .decl p v i :: rest => cleanSerial (serializeDecl p v i) && cleanSerials rest
  | .rule _ body :: rest => cleanSerials body && cleanSerials rest
  | .atrule _ _ none :: rest => cleanSerials rest
  | .atrule _ _ (some body) :: rest => cleanSerials body && cleanSerials rest
termination_by ns => sizeOf ns
decreasing_by all_goals (simp_wf; try omega)

/-- The sub-list of `fpList` contributed by declaration-only at-rules
(Pass 2 never touches those nodes, so this part of the fingerprint list
is invariant under Pass 2). -/
def atrFps (ctx : List (String × String)) : List Node → List String
  | [] => []
  | .decl _ _ _ :: rest => atrFps ctx rest
  | .rule _ body :: rest => atrFps ctx body ++ atrFps ctx rest
  | .atrule _ _ none :: rest => atrFps ctx rest
  | .atrule n p (some body) :: rest =>
      if declOnlyEligible (some body) then
        fingerprintAtRule ctx n p body :: (atrFps (ctx ++ [(n, p)]) body ++ atrFps ctx rest)
      else atrFps (ctx ++ [(n, p)]) body ++ atrFps ctx rest
termination_by ns => sizeOf ns
decreasing_by all_goals (simp_wf; try omega)

/-- A rule fingerprint written over its group key and the serials of its
declarations: `fingerprintRule` factors through this form. -/
def ruleFp (gk : String) (serials : List String) : String :=
  "rule|" ++ gk ++ "|" ++
    String.intercalate ";" (List.insertionSort (fun a b : String => a ≤ b) serials)

-- ─── Pass 1: traversal lemmas ───────────────────────────────────────

theorem pass1Walk_nil (ctx : List (String × String)) (s : List String) :
    pass1Walk ctx s [] = ([], s) := by
  simp [pass1Walk]

theorem pass1Walk_append : ∀ (ctx : List (String × String)) (s : List String)
    (xs ys : List Node),
    pass1Walk ctx s (xs ++ ys) =
      ((pass1Walk ctx s xs).1 ++ (pass1Walk ctx (pass1Walk ctx s xs).2 ys).1,
       (pass1Walk ctx (pass1Walk ctx s xs).2 ys).2)
  | ctx, s, [], ys => by simp [pass1Walk]
  | ctx, s, .decl p v i :: xs, ys => by
      simp only [List.cons_append, pass1Walk, pass1Walk_append ctx s xs ys]
  | ctx, s, .rule sel body :: xs, ys => by
      simp only [List.cons_append, pass1Walk]
      split
      · exact pass1Walk_append ctx _ xs ys
      · simp only [pass1Walk_append ctx _ xs ys, List.cons_append]
  | ctx, s, .atrule n p none :: xs, ys => by
      simp only [List.cons_append, pass1Walk, pass1Walk_append ctx s xs ys]
  | ctx, s, .atrule n p (some body) :: xs, ys => by
      simp only [List.cons_append, pass1Walk]
      split
      · split
        · exact pass1Walk_append ctx _ xs ys
        · simp only [pass1Walk_append ctx _ xs ys, List.cons_append]
      · simp only [pass1Walk_append ctx _ xs ys, List.cons_append]

theorem pass1Walk_seen_mono : ∀ (ctx : List (String × String)) (s : List String)
    (ns : List Node) (a : String), a ∈ s → a ∈ (pass1Walk ctx s ns).2
  | ctx, s, [], a, h => by simpa [pass1Walk] using h
  | ctx, s, .decl p v i :: rest, a, h => by
      simp only [pass1Walk]
      exact pass1Walk_seen_mono ctx s rest a h
  | ctx, s, .rule sel body :: rest, a, h => by
      simp only [pass1Walk]
      split
      · exact pass1Walk_seen_mono ctx _ rest a
          (pass1Walk_seen_mono [] s body a h)
      · exact pass1Walk_seen_mono ctx _ rest a
          (pass1Walk_seen_mono ctx _ body a (List.mem_cons_of_mem _ h))
  | ctx, s, .atrule n p none :: rest, a, h => by
      simp only [pass1Walk]
      exact pass1Walk_seen_mono ctx s rest a h
  | ctx, s, .atrule n p (some body) :: rest, a, h => by
      simp only [pass1Walk]
      split
      · split
        · exact pass1Walk_seen_mono ctx _ rest a
            (pass1Walk_seen_mono [(n, p)] s body a h)
        · exact pass1Walk_seen_mono ctx _ rest a
            (pass1Walk_seen_mono _ _ body a (List.mem_cons_of_mem _ h))
      · exact pass1Walk_seen_mono ctx _ rest a
          (pass1Walk_seen_mono _ s body a h)
termination_by ctx s ns => sizeOf ns
decreasing_by all_goals (simp_wf; try omega)

/-- Pass 1 leaves a pure declaration list (and the seen set) untouched. -/
theorem pass1Walk_decls : ∀ (ctx : List (String × String)) (s : List String)
    (ns : List Node), ns.all isDecl = true → pass1Walk ctx s ns = (ns, s)
  | ctx, s, [], _ => by simp [pass1Walk]
  | ctx, s, .decl p v i :: rest, h => by
      simp only [List.all_cons, Bool.and_eq_true] at h
      simp [pass1Walk, pass1Walk_decls ctx s rest h.2]
  | ctx, s, .rule sel body :: rest, h => by
      simp [List.all_cons, isDecl] at h
  | ctx, s, .atrule n p b :: rest, h => by
      simp [List.all_cons, isDecl] at h

/-- Processing one flat eligible node: it is dropped when its fingerprint
is already seen, otherwise it is kept unchanged and its fingerprint is
added; either way the rest of the list is processed with the updated
seen set. -/
theorem pass1Walk_flat_step (ctx : List (String × String)) (s : List String)
    (d : Node) (fp : String) (rest : List Node)
    (hflat : flatEligible d = true) (hfp : fingerprintOf ctx d = some fp) :
    pass1Walk ctx s (d :: rest) =
      if fp ∈ s then pass1Walk ctx s rest
      else (d :: (pass1Walk ctx (fp :: s) rest).1, (pass1Walk ctx (fp :: s) rest).2) := by
  match d with
  | .decl p v i => simp [fingerprintOf] at hfp
  | .atrule n p none => simp [fingerprintOf] at hfp
  | .rule sel body =>
      have hb : body.all isDecl = true := by simpa [flatEligible] using hflat
      have hkey : hashStr (fingerprintRule ctx sel body) = fp := by
        simpa [fingerprintOf, hashStr] using hfp
      simp only [pass1Walk, hkey]
      split
      · rw [pass1Walk_decls [] s body hb]
      · rw [pass1Walk_decls ctx (fp :: s) body hb]
  | .atrule n p (some body) =>
      have helig : declOnlyEligible (some body) = true := by
        simpa [flatEligible] using hflat
      have hb : body.all isDecl = true := by
        simp only [declOnlyEligible, Bool.and_eq_true] at helig
        exact helig.2
      have hkey : hashStr (fingerprintAtRule ctx n p body) = fp := by
        simpa [fingerprintOf, helig, hashStr] using hfp
      simp only [pass1Walk, helig, if_pos, hkey]
      split
      · rw [pass1Walk_decls [(n, p)] s body hb]
      · rw [pass1Walk_decls (ctx ++ [(n, p)]) (fp :: s) body hb]

/-- After processing a flat eligible node, its fingerprint is in the
seen set. -/
theorem pass1Walk_flat_step_seen (ctx : List (String × String)) (s : List String)
    (d : Node) (fp : String) (rest : List Node)
    (hflat : flatEligible d = true) (hfp : fingerprintOf ctx d = some fp) :
    fp ∈ (pass1Walk ctx s (d :: rest)).2 := by
  rw [pass1Walk_flat_step ctx s d fp rest hflat hfp]
  split
  · exact pass1Walk_seen_mono ctx s rest fp (by assumption)
  · exact pass1Walk_seen_mono ctx (fp :: s) rest fp (List.mem_cons_self fp s)

theorem nest_all_isDecl_false : ∀ (c : List (String × String)) (ns : List Node),
    ns.all isDecl = false → (nest c ns).all isDecl = false
  | [], ns, h => by simpa [nest] using h
  | (n, p) :: c, ns, _ => by simp [nest, isDecl]

/-- Pass 1 walks through a chain of container at-rules (whose bodies are
not declaration-only) by extending the ancestor context and keeping the
chain intact. -/
theorem pass1Walk_nest : ∀ (c ctx : List (String × String)) (s : List String)
    (ns : List Node), ns.all isDecl = false →
    pass1Walk ctx s (nest c ns) =
      (nest c (pass1Walk (ctx ++ c) s ns).1, (pass1Walk (ctx ++ c) s ns).2)
  | [], ctx, s, ns, _ => by simp [nest]
  | (n, p) :: c, ctx, s, ns, h => by
      have hne : (nest c ns).all isDecl = false := nest_all_isDecl_false c ns h
      have helig : declOnlyEligible (some (nest c ns)) = false := by
        simp only [declOnlyEligible, hne, Bool.and_false]
      simp only [nest, pass1Walk, helig, Bool.false_eq_true, if_false,
        pass1Walk_nil]
      rw [pass1Walk_nest c (ctx ++ [(n, p)]) s ns h]
      simp

-- ─── Pass 2: traversal lemmas ───────────────────────────────────────

theorem pass2Walk_nil (ctx : List (String × String)) (s : List (String × String)) :
    pass2Walk ctx s [] = ([], s) := by
  simp [pass2Walk]

theorem pass2Walk_append : ∀ (ctx : List (String × String))
    (s : List (String × String)) (xs ys : List Node),
    pass2Walk ctx s (xs ++ ys) =
      ((pass2Walk ctx s xs).1 ++ (pass2Walk ctx (pass2Walk ctx s xs).2 ys).1,
       (pass2Walk ctx (pass2Walk ctx s xs).2 ys).2)
  | ctx, s, [], ys => by simp [pass2Walk]
  | ctx, s, .decl p v i :: xs, ys => by
      simp only [List.cons_append, pass2Walk, pass2Walk_append ctx s xs ys]
  | ctx, s, .atrule n p none :: xs, ys => by
      simp only [List.cons_append, pass2Walk, pass2Walk_append ctx s xs ys]
  | ctx, s, .atrule n p (some body) :: xs, ys => by
      simp only [List.cons_append, pass2Walk, pass2Walk_append ctx _ xs ys,
        List.cons_append]
  | ctx, s, .rule sel body :: xs, ys => by
      simp only [List.cons_append, pass2Walk]
      split
      · simp only [pass2Walk_append ctx _ xs ys, List.cons_append]
      · exact pass2Walk_append ctx _ xs ys

/-- Pass 2 leaves a pure declaration list (and the seen map) untouched:
declarations are only ever removed through the rule that owns them. -/
theorem pass2Walk_decls : ∀ (ctx : List (String × String))
    (s : List (String × String)) (ns : List Node),
    ns.all isDecl = true → pass2Walk ctx s ns = (ns, s)
  | ctx, s, [], _ => by simp [pass2Walk]
  | ctx, s, .decl p v i :: rest, h => by
      simp only [List.all_cons, Bool.and_eq_true] at h
      simp [pass2Walk, pass2Walk_decls ctx s rest h.2]
  | ctx, s, .rule sel body :: rest, h => by
      simp [List.all_cons, isDecl] at h
  | ctx, s, .atrule n p b :: rest, h => by
      simp [List.all_cons, isDecl] at h

theorem pass2Walk_nest : ∀ (c ctx : List (String × String))
    (s : List (String × String)) (ns : List Node),
    pass2Walk ctx s (nest c ns) =
      (nest c (pass2Walk (ctx ++ c) s ns).1, (pass2Walk (ctx ++ c) s ns).2)
  | [], ctx, s, ns => by simp [nest]
  | (n, p) :: c, ctx, s, ns => by
      simp only [nest, pass2Walk, pass2Walk_nil]
      rw [pass2Walk_nest c (ctx ++ [(n, p)]) s ns]
      simp

/-- Bridge between the implementation's seen map and the claim-side
serial list: if membership for the group `gk` in `seen` matches `prev`,
then `dedupDecls` computes `filterNewDecls prev`; afterwards the group's
serials are `prev` plus all serials of the processed list, and every
other group's entries are untouched. -/
theorem dedupDecls_spec : ∀ (b : List Node) (gk : String)
    (seen : List (String × String)) (prev : List String),
    (∀ s, (gk, s) ∈ seen ↔ s ∈ prev) →
    (dedupDecls gk seen b).1 = filterNewDecls prev b
    ∧ (∀ s, (gk, s) ∈ (dedupDecls gk seen b).2 ↔ (s ∈ prev ∨ s ∈ declSerials b))
    ∧ (∀ gk' s, gk' ≠ gk → ((gk', s) ∈ (dedupDecls gk seen b).2 ↔ (gk', s) ∈ seen))
  | [], gk, seen, prev, hinv => by
      refine ⟨by simp [dedupDecls, filterNewDecls], ?_, ?_⟩
      · intro s; simp [dedupDecls, declSerials, hinv s]
      · intro gk' s _; simp [dedupDecls]
  | .decl p v i :: rest, gk, seen, prev, hinv => by
      simp only [dedupDecls, filterNewDecls, declSerials]
      by_cases hmem : serializeDecl p v i ∈ prev
      · rw [if_pos ((hinv _).mpr hmem), if_pos hmem]
        obtain ⟨h1, h2, h3⟩ := dedupDecls_spec rest gk seen prev hinv
        refine ⟨h1, ?_, h3⟩
        intro s
        rw [h2 s]
        constructor
        · rintro (h | h)
          · exact Or.inl h
          · exact Or.inr (List.mem_cons_of_mem _ h)
        · rintro (h | h)
          · exact Or.inl h
          · rcases List.mem_cons.mp h with h | h
            · exact Or.inl (h ▸ hmem)
            · exact Or.inr h
      · rw [if_neg (fun hc => hmem ((hinv _).mp hc)), if_neg hmem]
        have hinv' : ∀ s, (gk, s) ∈ (gk, serializeDecl p v i) :: seen ↔
            s ∈ serializeDecl p v i :: prev := by
          intro s
          simp only [List.mem_cons, Prod.mk.injEq, true_and, hinv s]
        obtain ⟨h1, h2, h3⟩ := dedupDecls_spec rest gk
          ((gk, serializeDecl p v i) :: seen) (serializeDecl p v i :: prev) hinv'
        refine ⟨by rw [h1], ?_, ?_⟩
        · intro s
          rw [h2 s]
          simp only [List.mem_cons]
          tauto
        · intro gk' s hne
          rw [h3 gk' s hne]
          simp only [List.mem_cons, Prod.mk.injEq]
          constructor
          · rintro (⟨h, _⟩ | h)
            · exact absurd h hne
            · exact h
          · exact fun h => Or.inr h
  | .rule sel body :: rest, gk, seen, prev, hinv => by
      simp only [dedupDecls, filterNewDecls, declSerials]
      obtain ⟨h1, h2, h3⟩ := dedupDecls_spec rest gk seen prev hinv
      exact ⟨by rw [h1], h2, h3⟩
  | .atrule n p ob :: rest, gk, seen, prev, hinv => by
      simp only [dedupDecls, filterNewDecls, declSerials]
      obtain ⟨h1, h2, h3⟩ := dedupDecls_spec rest gk seen prev hinv
      exact ⟨by rw [h1], h2, h3⟩

/-- When no serial of the list was seen before and the list has no
internal duplicate serials, the filter keeps everything. -/
theorem filterNewDecls_fresh : ∀ (b : List Node) (prev : List String),
    (∀ s ∈ declSerials b, s ∉ prev) → (declSerials b).Nodup →
    filterNewDecls prev b = b
  | [], prev, _, _ => by simp [filterNewDecls]
  | .decl p v i :: rest, prev, hfresh, hnd => by
      simp only [declSerials, List.nodup_cons] at hnd
      have hni : serializeDecl p v i ∉ prev :=
        hfresh _ (by simp [declSerials])
      simp only [filterNewDecls, if_neg hni]
      rw [filterNewDecls_fresh rest (serializeDecl p v i :: prev) ?_ hnd.2]
      intro s hs
      simp only [List.mem_cons]
      rintro (h | h)
      · exact hnd.1 (h ▸ hs)
      · exact hfresh s (by simp [declSerials, hs]) h
  | .rule sel body :: rest, prev, hfresh, hnd => by
      simp only [filterNewDecls]
      rw [filterNewDecls_fresh rest prev (by simpa [declSerials] using hfresh)
        (by simpa [declSerials] using hnd)]
  | .atrule n p ob :: rest, prev, hfresh, hnd => by
      simp only [filterNewDecls]
      rw [filterNewDecls_fresh rest prev (by simpa [declSerials] using hfresh)
        (by simpa [declSerials] using hnd)]

-- ─── Cleanup: fixed-point lemmas ────────────────────────────────────

theorem cleanOnce_lsize_le : ∀ ns : List Node, lsize (cleanOnce ns).1 ≤ lsize ns
  | [] => by simp [cleanOnce]
  | .atrule n p (some body) :: rest => by
      simp only [cleanOnce]
      split
      · have := cleanOnce_lsize_le rest
        simp only [lsize, nsize]; omega
      · have h1 := cleanOnce_lsize_le body
        have h2 := cleanOnce_lsize_le rest
        simp only [lsize, nsize]; omega
  | .atrule n p none :: rest => by
      have := cleanOnce_lsize_le rest
      simp only [cleanOnce, lsize, nsize]; omega
  | .rule sel body :: rest => by
      have h1 := cleanOnce_lsize_le body
      have h2 := cleanOnce_lsize_le rest
      simp only [cleanOnce, lsize, nsize]; omega
  | .decl p v i :: rest => by
      have := cleanOnce_lsize_le rest
      simp only [cleanOnce, lsize, nsize]; omega
termination_by ns => sizeOf ns
decreasing_by all_goals (simp_wf; try omega)

theorem cleanOnce_changed_lsize_lt : ∀ ns : List Node,
    (cleanOnce ns).2 = true → lsize (cleanOnce ns).1 < lsize ns
  | [] => by simp [cleanOnce]
  | .atrule n p (some body) :: rest => by
      simp only [cleanOnce]
      split
      · intro _
        have := cleanOnce_lsize_le rest
        simp only [lsize, nsize]; omega
      · simp only [Bool.or_eq_true]
        rintro (h | h)
        · have h1 := cleanOnce_changed_lsize_lt body h
          have h2 := cleanOnce_lsize_le rest
          simp only [lsize, nsize]; omega
        · have h1 := cleanOnce_lsize_le body
          have h2 := cleanOnce_changed_lsize_lt rest h
          simp only [lsize, nsize]; omega
  | .atrule n p none :: rest => by
      intro h
      have := cleanOnce_changed_lsize_lt rest (by simpa [cleanOnce] using h)
      simp only [cleanOnce, lsize, nsize]; omega
  | .rule sel body :: rest => by
      simp only [cleanOnce, Bool.or_eq_true]
      rintro (h | h)
      · have h1 := cleanOnce_changed_lsize_lt body h
        have h2 := cleanOnce_lsize_le rest
        simp only [lsize, nsize]; omega
      · have h1 := cleanOnce_lsize_le body
        have h2 := cleanOnce_changed_lsize_lt rest h
        simp only [lsize, nsize]; omega
  | .decl p v i :: rest => by
      intro h
      have := cleanOnce_changed_lsize_lt rest (by simpa [cleanOnce] using h)
      simp only [cleanOnce, lsize, nsize]; omega
termination_by ns => sizeOf ns
decreasing_by all_goals (simp_wf; try omega)

/-- A scan that reports no removal found no empty at-rule. -/
theorem cleanOnce_unchanged_noEmpty : ∀ ns : List Node,
    (cleanOnce ns).2 = false → noEmptyAtRules ns = true
  | [] => by simp [cleanOnce, noEmptyAtRules]
  | .atrule n p (some body) :: rest => by
      simp only [cleanOnce]
      split
      · intro h; exact absurd h (by simp)
      · simp only [Bool.or_eq_false_iff, noEmptyAtRules, Bool.and_eq_true,
          Bool.not_eq_true']
        intro h
        refine ⟨⟨by simp_all, cleanOnce_unchanged_noEmpty body h.1⟩,
          cleanOnce_unchanged_noEmpty rest h.2⟩
  | .atrule n p none :: rest => by
      simp only [cleanOnce, noEmptyAtRules]
      exact cleanOnce_unchanged_noEmpty rest
  | .rule sel body :: rest => by
      simp only [cleanOnce, Bool.or_eq_false_iff, noEmptyAtRules, Bool.and_eq_true]
      intro h
      exact ⟨cleanOnce_unchanged_noEmpty body h.1, cleanOnce_unchanged_noEmpty rest h.2⟩
  | .decl p v i :: rest => by
      simp only [cleanOnce, noEmptyAtRules]
      exact cleanOnce_unchanged_noEmpty rest
termination_by ns => sizeOf ns
decreasing_by all_goals (simp_wf; try omega)

/-- A scan that reports no removal also did not modify the forest. -/
theorem cleanOnce_unchanged_eq : ∀ ns : List Node,
    (cleanOnce ns).2 = false → (cleanOnce ns).1 = ns
  | [] => by simp [cleanOnce]
  | .atrule n p (some body) :: rest => by
      simp only [cleanOnce]
      split
      · intro h; exact absurd h (by simp)
      · simp only [Bool.or_eq_false_iff]
        intro h
        rw [cleanOnce_unchanged_eq body h.1, cleanOnce_unchanged_eq rest h.2]
  | .atrule n p none :: rest => by
      simp only [cleanOnce]
      intro h
      rw [cleanOnce_unchanged_eq rest h]
  | .rule sel body :: rest => by
      simp only [cleanOnce, Bool.or_eq_false_iff]
      intro h
      rw [cleanOnce_unchanged_eq body h.1, cleanOnce_unchanged_eq rest h.2]
  | .decl p v i :: rest => by
      simp only [cleanOnce]
      intro h
      rw [cleanOnce_unchanged_eq rest h]
termination_by ns => sizeOf ns
decreasing_by all_goals (simp_wf; try omega)

/-- Conversely, a scan over a forest without empty at-rules changes
nothing and reports no removal. -/
theorem cleanOnce_of_noEmpty : ∀ ns : List Node,
    noEmptyAtRules ns = true → cleanOnce ns = (ns, false)
  | [] => by simp [cleanOnce]
  | .atrule n p (some body) :: rest => by
      simp only [noEmptyAtRules, Bool.and_eq_true, Bool.not_eq_true']
      intro h
      simp only [cleanOnce, h.1.1, Bool.false_eq_true, if_false,
        cleanOnce_of_noEmpty body h.1.2, cleanOnce_of_noEmpty rest h.2]
      simp
  | .atrule n p none :: rest => by
      simp only [noEmptyAtRules, cleanOnce]
      intro h
      simp [cleanOnce_of_noEmpty rest h]
  | .rule sel body :: rest => by
      simp only [noEmptyAtRules, Bool.and_eq_true]
      intro h
      simp [cleanOnce, cleanOnce_of_noEmpty body h.1, cleanOnce_of_noEmpty rest h.2]
  | .decl p v i :: rest => by
      simp only [noEmptyAtRules, cleanOnce]
      intro h
      simp [cleanOnce_of_noEmpty rest h]
termination_by ns => sizeOf ns
decreasing_by all_goals (simp_wf; try omega)

theorem cleanupFuel_noEmpty : ∀ (fuel : Nat) (ns : List Node), lsize ns < fuel →
    noEmptyAtRules (cleanupFuel fuel ns) = true
  | 0, ns, h => by omega
  | Nat.succ f, ns, h => by
      simp only [cleanupFuel]
      by_cases hc : (cleanOnce ns).2
      · simp only [hc, if_true]
        exact cleanupFuel_noEmpty f (cleanOnce ns).1
          (by have := cleanOnce_changed_lsize_lt ns hc; omega)
      · simp only [hc]
        simp only [Bool.false_eq_true, if_false]
        rw [cleanOnce_unchanged_eq ns (by simpa using hc)]
        exact cleanOnce_unchanged_noEmpty ns (by simpa using hc)

theorem removeEmptyAtRules_noEmpty (ns : List Node) :
    noEmptyAtRules (removeEmptyAtRules ns) = true :=
  cleanupFuel_noEmpty (lsize ns + 1) ns (by omega)

/-- `removeEmptyAtRules` is the identity on forests that already have no
empty at-rules. -/
theorem removeEmptyAtRules_of_noEmpty (ns : List Node)
    (h : noEmptyAtRules ns = true) : removeEmptyAtRules ns = ns := by
  simp [removeEmptyAtRules, cleanupFuel, cleanOnce_of_noEmpty ns h]

-- ─── Declaration serialization ──────────────────────────────────────

theorem declSerials_eq_map_declTriples : ∀ ns : List Node,
    declSerials ns = (declTriples ns).map (fun t => serializeDecl t.1 t.2.1 t.2.2)
  | [] => by simp [declSerials, declTriples]
  | .decl p v i :: r => by
      simp [declSerials, declTriples, declSerials_eq_map_declTriples r]
  | .rule _ _ :: r => by
      simp [declSerials, declTriples, declSerials_eq_map_declTriples r]
  | .atrule _ _ _ :: r => by
      simp [declSerials, declTriples, declSerials_eq_map_declTriples r]

/-- Two node lists whose direct-child declaration multisets agree get
the same canonical declaration block: sorting makes the serialization
order-independent. -/
theorem serializeDeclarations_perm (b1 b2 : List Node)
    (h : (declTriples b1).Perm (declTriples b2)) :
    serializeDeclarations b1 = serializeDeclarations b2 := by
  have hs : (declSerials b1).Perm (declSerials b2) := by
    rw [declSerials_eq_map_declTriples, declSerials_eq_map_declTriples]
    exact h.map _
  unfold serializeDeclarations
  congr 1
  haveI : IsTotal String (fun a b : String => a ≤ b) := ⟨fun a b => le_total a b⟩
  haveI : IsTrans String (fun a b : String => a ≤ b) := ⟨fun _ _ _ => le_trans⟩
  haveI : IsAntisymm String (fun a b : String => a ≤ b) := ⟨fun _ _ => le_antisymm⟩
  refine List.eq_of_perm_of_sorted (r := fun a b : String => a ≤ b) ?_ ?_ ?_
  · exact ((List.perm_insertionSort _ _).trans hs).trans
      (List.perm_insertionSort _ _).symm
  · exact List.sorted_insertionSort _ _
  · exact List.sorted_insertionSort _ _

/-- After Pass 1 has processed a rule at the head of a sibling list, the
rule's fingerprint is in the seen set (whether the rule was kept or
removed as a duplicate). -/
theorem pass1Walk_rule_head_seen (ctx : List (String × String)) (s : List String)
    (sel : String) (body rest : List Node) :
    hashStr (fingerprintRule ctx sel body) ∈ (pass1Walk ctx s (.rule sel body :: rest)).2 := by
  simp only [pass1Walk]
  split
  · exact pass1Walk_seen_mono ctx _ rest _
      (pass1Walk_seen_mono [] s body _ (by assumption))
  · exact pass1Walk_seen_mono ctx _ rest _
      (pass1Walk_seen_mono ctx _ body _ (List.mem_cons_self _ _))

-- ─── Bodiless at-rules ──────────────────────────────────────────────

theorem bodilessList_decls : ∀ ns : List Node,
    ns.all isDecl = true → bodilessList ns = []
  | [], _ => by simp [bodilessList]
  | .decl p v i :: rest, h => by
      simp only [List.all_cons, Bool.and_eq_true] at h
      simp [bodilessList, bodilessList_decls rest h.2]
  | .rule _ _ :: rest, h => by simp [List.all_cons, isDecl] at h
  | .atrule _ _ _ :: rest, h => by simp [List.all_cons, isDecl] at h

theorem bodilessList_pass1 : ∀ (ctx : List (String × String)) (s : List String)
    (ns : List Node), bodilessList (pass1Walk ctx s ns).1 = bodilessList ns
  | ctx, s, [] => by simp [pass1Walk, bodilessList]
  | ctx, s, .decl p v i :: rest => by
      simp only [pass1Walk, bodilessList]
      exact bodilessList_pass1 ctx s rest
  | ctx, s, .rule sel body :: rest => by
      simp only [pass1Walk]
      split
      · simp only [bodilessList]
        exact bodilessList_pass1 ctx _ rest
      · simp only [bodilessList]
        exact bodilessList_pass1 ctx _ rest
  | ctx, s, .atrule n p none :: rest => by
      simp only [pass1Walk, bodilessList]
      rw [bodilessList_pass1 ctx s rest]
  | ctx, s, .atrule n p (some body) :: rest => by
      simp only [pass1Walk]
      split
      · split
        · rename_i helig _
          have hb : body.all isDecl = true := by
            simp only [declOnlyEligible, Bool.and_eq_true] at helig
            exact helig.2
          simp only [bodilessList, bodilessList_decls body hb, List.nil_append]
          exact bodilessList_pass1 ctx _ rest
        · simp only [bodilessList]
          rw [bodilessList_pass1 _ _ body, bodilessList_pass1 ctx _ rest]
      · simp only [bodilessList]
        rw [bodilessList_pass1 _ _ body, bodilessList_pass1 ctx _ rest]
termination_by ctx s ns => sizeOf ns
decreasing_by all_goals (simp_wf; try omega)

theorem bodilessList_pass2 : ∀ (ctx : List (String × String))
    (s : List (String × String)) (ns : List Node),
    bodilessList (pass2Walk ctx s ns).1 = bodilessList ns
  | ctx, s, [] => by simp [pass2Walk, bodilessList]
  | ctx, s, .decl p v i :: rest => by
      simp only [pass2Walk, bodilessList]
      exact bodilessList_pass2 ctx s rest
  | ctx, s, .rule sel body :: rest => by
      simp only [pass2Walk]
      split
      · simp only [bodilessList]
        exact bodilessList_pass2 ctx _ rest
      · simp only [bodilessList]
        exact bodilessList_pass2 ctx _ rest
  | ctx, s, .atrule n p none :: rest => by
      simp only [pass2Walk, bodilessList]
      rw [bodilessList_pass2 ctx s rest]
  | ctx, s, .atrule n p (some body) :: rest => by
      simp only [pass2Walk, bodilessList]
      rw [bodilessList_pass2 _ _ body, bodilessList_pass2 ctx _ rest]
termination_by ctx s ns => sizeOf ns
decreasing_by all_goals (simp_wf; try omega)

theorem bodilessList_cleanOnce : ∀ ns : List Node,
    bodilessList (cleanOnce ns).1 = bodilessList ns
  | [] => by simp [cleanOnce, bodilessList]
  | .atrule n p (some body) :: rest => by
      simp only [cleanOnce]
      split
      · rename_i hemp
        have : body = [] := List.isEmpty_iff.mp hemp
        subst this
        simp only [bodilessList, List.nil_append]
        exact bodilessList_cleanOnce rest
      · simp only [bodilessList]
        rw [bodilessList_cleanOnce body, bodilessList_cleanOnce rest]
  | .atrule n p none :: rest => by
      simp only [cleanOnce, bodilessList]
      rw [bodilessList_cleanOnce rest]
  | .rule sel body :: rest => by
      simp only [cleanOnce, bodilessList]
      exact bodilessList_cleanOnce rest
  | .decl p v i :: rest => by
      simp only [cleanOnce, bodilessList]
      exact bodilessList_cleanOnce rest
termination_by ns => sizeOf ns
decreasing_by all_goals (simp_wf; try omega)

theorem bodilessList_cleanupFuel : ∀ (fuel : Nat) (ns : List Node),
    bodilessList (cleanupFuel fuel ns) = bodilessList ns
  | 0, ns => by simp [cleanupFuel]
  | Nat.succ f, ns => by
      simp only [cleanupFuel]
      split
      · rw [bodilessList_cleanupFuel f (cleanOnce ns).1, bodilessList_cleanOnce ns]
      · exact bodilessList_cleanOnce ns

-- ─── The idealized Pass 1 on flat rules ─────────────────────────────

theorem pass1IdealWalk_decls : ∀ (ctx : List (String × String)) (s : List String)
    (ns : List Node), ns.all isDecl = true → pass1IdealWalk ctx s ns = (ns, s)
  | ctx, s, [], _ => by simp [pass1IdealWalk]
  | ctx, s, .decl p v i :: rest, h => by
      simp only [List.all_cons, Bool.and_eq_true] at h
      simp [pass1IdealWalk, pass1IdealWalk_decls ctx s rest h.2]
  | ctx, s, .rule sel body :: rest, h => by
      simp [List.all_cons, isDecl] at h
  | ctx, s, .atrule n p b :: rest, h => by
      simp [List.all_cons, isDecl] at h

theorem rulesFlat_of_decls : ∀ ns : List Node,
    ns.all isDecl = true → rulesFlat ns = true
  | [], _ => by simp [rulesFlat]
  | .decl p v i :: rest, h => by
      simp only [List.all_cons, Bool.and_eq_true] at h
      simp [rulesFlat, rulesFlat_of_decls rest h.2]
  | .rule _ _ :: rest, h => by simp [List.all_cons, isDecl] at h
  | .atrule _ _ _ :: rest, h => by simp [List.all_cons, isDecl] at h

/-- On forests whose rules hold only declarations, the real Pass 1 (which
still walks the subtree of a node it just removed) agrees with the
idealized Pass 1 (which never visits detached nodes): a removed node's
subtree holds only declarations, and declarations are never fingerprinted. -/
theorem pass1Walk_eq_ideal : ∀ (ctx : List (String × String)) (s : List String)
    (ns : List Node), rulesFlat ns = true →
    pass1Walk ctx s ns = pass1IdealWalk ctx s ns
  | ctx, s, [], _ => by simp [pass1Walk, pass1IdealWalk]
  | ctx, s, .decl p v i :: rest, h => by
      simp only [rulesFlat] at h
      simp only [pass1Walk, pass1IdealWalk,
        pass1Walk_eq_ideal ctx s rest h]
  | ctx, s, .rule sel body :: rest, h => by
      simp only [rulesFlat, Bool.and_eq_true] at h
      simp only [pass1Walk, pass1IdealWalk]
      split
      · rw [pass1Walk_decls [] s body h.1]
        exact pass1Walk_eq_ideal ctx s rest h.2
      · rw [pass1Walk_decls ctx _ body h.1,
          pass1IdealWalk_decls ctx _ body h.1,
          pass1Walk_eq_ideal ctx _ rest h.2]
  | ctx, s, .atrule n p none :: rest, h => by
      simp only [rulesFlat] at h
      simp only [pass1Walk, pass1IdealWalk, pass1Walk_eq_ideal ctx s rest h]
  | ctx, s, .atrule n p (some body) :: rest, h => by
      simp only [rulesFlat, Bool.and_eq_true] at h
      simp only [pass1Walk, pass1IdealWalk]
      split
      · rename_i helig
        have hb : body.all isDecl = true := by
          simp only [declOnlyEligible, Bool.and_eq_true] at helig
          exact helig.2
        split
        · rw [pass1Walk_decls [(n, p)] s body hb]
          exact pass1Walk_eq_ideal ctx s rest h.2
        · rw [pass1Walk_decls _ _ body hb, pass1IdealWalk_decls _ _ body hb,
            pass1Walk_eq_ideal ctx _ rest h.2]
      · rw [pass1Walk_eq_ideal _ s body h.1]
        rw [pass1Walk_eq_ideal ctx _ rest h.2]
termination_by ctx s ns => sizeOf ns
decreasing_by all_goals (simp_wf; try omega)

-- ─── Pass 2: step lemmas for flat rules ─────────────────────────────

theorem dedupDecls_all_decls : ∀ (gk : String) (seen : List (String × String))
    (ns : List Node), ns.all isDecl = true → (dedupDecls gk seen ns).1.all isDecl = true
  | gk, seen, [], _ => by simp [dedupDecls]
  | gk, seen, .decl p v i :: rest, h => by
      simp only [List.all_cons, Bool.and_eq_true] at h
      simp only [dedupDecls]
      split
      · exact dedupDecls_all_decls gk seen rest h.2
      · simp only [List.all_cons, Bool.and_eq_true]
        exact ⟨h.1, dedupDecls_all_decls gk _ rest h.2⟩
  | gk, seen, .rule _ _ :: rest, h => by simp [List.all_cons, isDecl] at h
  | gk, seen, .atrule _ _ _ :: rest, h => by simp [List.all_cons, isDecl] at h

theorem any_isDecl_of_all : ∀ ns : List Node, ns.all isDecl = true →
    ns.any isDecl = !ns.isEmpty
  | [], _ => by simp
  | n :: rest, h => by
      simp only [List.all_cons, Bool.and_eq_true] at h
      simp [List.any_cons, h.1]

/-- Pass 2 step on a rule whose children are all declarations: the rule
keeps its filtered declarations, or disappears when none are left. -/
theorem pass2Walk_flat_rule_step (ctx : List (String × String))
    (s : List (String × String)) (sel : String) (body rest : List Node)
    (hb : body.all isDecl = true) :
    pass2Walk ctx s (.rule sel body :: rest) =
      if (dedupDecls (gkey ctx sel) s body).1.isEmpty then
        pass2Walk ctx (dedupDecls (gkey ctx sel) s body).2 rest
      else
        (.rule sel (dedupDecls (gkey ctx sel) s body).1 ::
            (pass2Walk ctx (dedupDecls (gkey ctx sel) s body).2 rest).1,
         (pass2Walk ctx (dedupDecls (gkey ctx sel) s body).2 rest).2) := by
  have hd : (dedupDecls (gkey ctx sel) s body).1.all isDecl = true :=
    dedupDecls_all_decls _ s body hb
  have hany : (dedupDecls (gkey ctx sel) s body).1.any isDecl =
      !(dedupDecls (gkey ctx sel) s body).1.isEmpty :=
    any_isDecl_of_all _ hd
  simp only [pass2Walk, hany]
  by_cases hemp : (dedupDecls (gkey ctx sel) s body).1.isEmpty
  · simp only [hemp, Bool.not_true, Bool.false_eq_true, if_false, if_true]
    rw [pass2Walk_decls [] _ _ hd]
  · simp only [hemp, Bool.not_false, if_true, Bool.false_eq_true, if_false]
    rw [pass2Walk_decls ctx _ _ hd]

theorem noEmptyAtRules_decls : ∀ ns : List Node,
    ns.all isDecl = true → noEmptyAtRules ns = true
  | [], _ => by simp [noEmptyAtRules]
  | .decl p v i :: rest, h => by
      simp only [List.all_cons, Bool.and_eq_true] at h
      simp [noEmptyAtRules, noEmptyAtRules_decls rest h.2]
  | .rule _ _ :: rest, h => by simp [List.all_cons, isDecl] at h
  | .atrule _ _ _ :: rest, h => by simp [List.all_cons, isDecl] at h

-- ─── Identity of the passes on fresh, duplicate-free forests ────────

/-- Unfolding step for an at-rule container head that is not
declaration-only: Pass 1 keeps it and walks its body under the extended
context. -/
theorem pass1Walk_container_step (ctx : List (String × String)) (s : List String)
    (n p : String) (body rest : List Node)
    (h : declOnlyEligible (some body) = false) :
    pass1Walk ctx s (.atrule n p (some body) :: rest) =
      (.atrule n p (some (pass1Walk (ctx ++ [(n, p)]) s body).1) ::
          (pass1Walk ctx (pass1Walk (ctx ++ [(n, p)]) s body).2 rest).1,
       (pass1Walk ctx (pass1Walk (ctx ++ [(n, p)]) s body).2 rest).2) := by
  simp only [pass1Walk, h, Bool.false_eq_true, if_false]

/-- Unfolding step for an at-rule container head in Pass 2. -/
theorem pass2Walk_container_step (ctx : List (String × String))
    (s : List (String × String)) (n p : String) (body rest : List Node) :
    pass2Walk ctx s (.atrule n p (some body) :: rest) =
      (.atrule n p (some (pass2Walk (ctx ++ [(n, p)]) s body).1) ::
          (pass2Walk ctx (pass2Walk (ctx ++ [(n, p)]) s body).2 rest).1,
       (pass2Walk ctx (pass2Walk (ctx ++ [(n, p)]) s body).2 rest).2) := by
  simp only [pass2Walk]

/-- The declaration filter keeps everything when the list has no internal
duplicate serials and no serial of it is already seen for the group, and
its seen map then grows by exactly the group's new pairs. -/
theorem dedupDecls_fresh : ∀ (gk : String) (s : List (String × String)) (b : List Node),
    (declSerials b).Nodup → (∀ t ∈ declSerials b, (gk, t) ∉ s) →
    (dedupDecls gk s b).1 = b ∧
    (∀ q, q ∈ (dedupDecls gk s b).2 ↔
      (q ∈ s ∨ q ∈ (declSerials b).map (fun t => (gk, t))))
  | gk, s, [], _, _ => by simp [dedupDecls, declSerials]
  | gk, s, .decl p v i :: rest, hnd, hfresh => by
      simp only [declSerials, List.nodup_cons] at hnd
      have hni : (gk, serializeDecl p v i) ∉ s :=
        hfresh _ (by simp [declSerials])
      simp only [dedupDecls, if_neg hni]
      obtain ⟨h1, h2⟩ := dedupDecls_fresh gk ((gk, serializeDecl p v i) :: s) rest hnd.2
        (by
          intro t ht
          simp only [List.mem_cons, Prod.mk.injEq, true_and, not_or]
          exact ⟨fun hc => hnd.1 (hc ▸ ht),
            hfresh t (by simp [declSerials, ht])⟩)
      refine ⟨by rw [h1], ?_⟩
      intro q
      rw [h2 q]
      simp only [List.mem_cons, declSerials, List.map_cons]
      tauto
  | gk, s, .rule sel body :: rest, hnd, hfresh => by
      simp only [declSerials] at hnd hfresh ⊢
      simp only [dedupDecls]
      obtain ⟨h1, h2⟩ := dedupDecls_fresh gk s rest hnd hfresh
      exact ⟨by rw [h1], h2⟩
  | gk, s, .atrule n p ob :: rest, hnd, hfresh => by
      simp only [declSerials] at hnd hfresh ⊢
      simp only [dedupDecls]
      obtain ⟨h1, h2⟩ := dedupDecls_fresh gk s rest hnd hfresh
      exact ⟨by rw [h1], h2⟩

/-- Pass 1 changes nothing on a forest whose eligible fingerprints are
pairwise distinct and disjoint from the incoming seen set; the seen set
afterwards is the union of the old one and those fingerprints. -/
theorem pass1Walk_fresh : ∀ (ctx : List (String × String)) (s : List String)
    (ns : List Node), (fpList ctx ns).Nodup → (∀ f ∈ fpList ctx ns, f ∉ s) →
    (pass1Walk ctx s ns).1 = ns ∧
    (∀ a, a ∈ (pass1Walk ctx s ns).2 ↔ (a ∈ s ∨ a ∈ fpList ctx ns))
  | ctx, s, [], _, _ => by simp [pass1Walk, fpList]
  | ctx, s, .decl p v i :: rest, hnd, hfresh => by
      simp only [fpList] at hnd hfresh ⊢
      simp only [pass1Walk]
      obtain ⟨h1, h2⟩ := pass1Walk_fresh ctx s rest hnd hfresh
      exact ⟨by rw [h1], h2⟩
  | ctx, s, .rule sel body :: rest, hnd, hfresh => by
      have hstep : fpList ctx (Node.rule sel body :: rest)
          = fingerprintRule ctx sel body :: (fpList ctx body ++ fpList ctx rest) := by
        simp [fpList]
      rw [hstep] at hnd hfresh
      rw [List.nodup_cons, List.nodup_append] at hnd
      obtain ⟨hhead, hndb, hndr, hdisj⟩ := hnd
      have hheadb : fingerprintRule ctx sel body ∉ fpList ctx body := fun hc =>
        hhead (List.mem_append.mpr (Or.inl hc))
      have hheadr : fingerprintRule ctx sel body ∉ fpList ctx rest := fun hc =>
        hhead (List.mem_append.mpr (Or.inr hc))
      have hfp : fingerprintRule ctx sel body ∉ s :=
        hfresh _ (List.mem_cons_self _ _)
      have hfreshb : ∀ f ∈ fpList ctx body, f ∉ s := fun f hf =>
        hfresh f (List.mem_cons_of_mem _ (List.mem_append.mpr (Or.inl hf)))
      have hfreshr : ∀ f ∈ fpList ctx rest, f ∉ s := fun f hf =>
        hfresh f (List.mem_cons_of_mem _ (List.mem_append.mpr (Or.inr hf)))
      simp only [pass1Walk, hashStr]
      rw [if_neg hfp]
      obtain ⟨hb1, hb2⟩ := pass1Walk_fresh ctx (fingerprintRule ctx sel body :: s) body hndb
        (fun f hf => by
          simp only [List.mem_cons, not_or]
          exact ⟨fun hc => hheadb (hc ▸ hf), hfreshb f hf⟩)
      obtain ⟨hr1, hr2⟩ := pass1Walk_fresh ctx _ rest hndr
        (fun f hf => by
          rw [hb2 f]
          simp only [List.mem_cons, not_or]
          exact ⟨⟨fun hc => hheadr (hc ▸ hf), hfreshr f hf⟩,
            fun hc => (List.disjoint_right.mp hdisj hf) hc⟩)
      refine ⟨by rw [hb1, hr1], ?_⟩
      intro a
      rw [hr2 a, hb2 a, hstep]
      simp only [List.mem_cons, List.mem_append]
      tauto
  | ctx, s, .atrule n p none :: rest, hnd, hfresh => by
      simp only [fpList] at hnd hfresh ⊢
      simp only [pass1Walk]
      obtain ⟨h1, h2⟩ := pass1Walk_fresh ctx s rest hnd hfresh
      exact ⟨by rw [h1], h2⟩
  | ctx, s, .atrule n p (some body) :: rest, hnd, hfresh => by
      by_cases helig : declOnlyEligible (some body) = true
      · have hstep : fpList ctx (Node.atrule n p (some body) :: rest)
            = fingerprintAtRule ctx n p body ::
              (fpList (ctx ++ [(n, p)]) body ++ fpList ctx rest) := by
          simp [fpList, helig]
        rw [hstep] at hnd hfresh
        rw [List.nodup_cons, List.nodup_append] at hnd
        obtain ⟨hhead, hndb, hndr, hdisj⟩ := hnd
        have hheadb : fingerprintAtRule ctx n p body ∉ fpList (ctx ++ [(n, p)]) body :=
          fun hc => hhead (List.mem_append.mpr (Or.inl hc))
        have hheadr : fingerprintAtRule ctx n p body ∉ fpList ctx rest := fun hc =>
          hhead (List.mem_append.mpr (Or.inr hc))
        have hfp : fingerprintAtRule ctx n p body ∉ s :=
          hfresh _ (List.mem_cons_self _ _)
        have hfreshb : ∀ f ∈ fpList (ctx ++ [(n, p)]) body, f ∉ s := fun f hf =>
          hfresh f (List.mem_cons_of_mem _ (List.mem_append.mpr (Or.inl hf)))
        have hfreshr : ∀ f ∈ fpList ctx rest, f ∉ s := fun f hf =>
          hfresh f (List.mem_cons_of_mem _ (List.mem_append.mpr (Or.inr hf)))
        simp only [pass1Walk, helig, if_true, hashStr]
        rw [if_neg hfp]
        obtain ⟨hb1, hb2⟩ := pass1Walk_fresh (ctx ++ [(n, p)])
          (fingerprintAtRule ctx n p body :: s) body hndb
          (fun f hf => by
            simp only [List.mem_cons, not_or]
            exact ⟨fun hc => hheadb (hc ▸ hf), hfreshb f hf⟩)
        obtain ⟨hr1, hr2⟩ := pass1Walk_fresh ctx _ rest hndr
          (fun f hf => by
            rw [hb2 f]
            simp only [List.mem_cons, not_or]
            exact ⟨⟨fun hc => hheadr (hc ▸ hf), hfreshr f hf⟩,
              fun hc => (List.disjoint_right.mp hdisj hf) hc⟩)
        refine ⟨by rw [hb1, hr1], ?_⟩
        intro a
        rw [hr2 a, hb2 a, hstep]
        simp only [List.mem_cons, List.mem_append]
        tauto
      · have helig' : declOnlyEligible (some body) = false := by
          simpa using helig
        have hstep : fpList ctx (Node.atrule n p (some body) :: rest)
            = fpList (ctx ++ [(n, p)]) body ++ fpList ctx rest := by
          simp [fpList, helig']
        rw [hstep] at hnd hfresh
        rw [List.nodup_append] at hnd
        obtain ⟨hndb, hndr, hdisj⟩ := hnd
        rw [pass1Walk_container_step ctx s n p body rest helig']
        obtain ⟨hb1, hb2⟩ := pass1Walk_fresh (ctx ++ [(n, p)]) s body hndb
          (fun f hf => hfresh f (List.mem_append.mpr (Or.inl hf)))
        obtain ⟨hr1, hr2⟩ := pass1Walk_fresh ctx _ rest hndr
          (fun f hf => by
            rw [hb2 f]
            simp only [not_or]
            exact ⟨hfresh f (List.mem_append.mpr (Or.inr hf)),
              fun hc => (List.disjoint_right.mp hdisj hf) hc⟩)
        refine ⟨by rw [hb1, hr1], ?_⟩
        intro a
        rw [hr2 a, hb2 a, hstep]
        simp only [List.mem_append]
        tauto
termination_by ctx s ns => sizeOf ns
decreasing_by all_goals (simp_wf; try omega)

/-- Pass 2 changes nothing on a forest whose rules all have declarations
and whose `(group key, serial)` pairs are pairwise distinct and disjoint
from the incoming seen map. -/
theorem pass2Walk_fresh : ∀ (ctx : List (String × String))
    (s : List (String × String)) (ns : List Node),
    (groupPairs ctx ns).Nodup → (∀ q ∈ groupPairs ctx ns, q ∉ s) →
    rulesHaveDecls ns = true →
    (pass2Walk ctx s ns).1 = ns ∧
    (∀ q, q ∈ (pass2Walk ctx s ns).2 ↔ (q ∈ s ∨ q ∈ groupPairs ctx ns))
  | ctx, s, [], _, _, _ => by simp [pass2Walk, groupPairs]
  | ctx, s, .decl p v i :: rest, hnd, hfresh, hrd => by
      simp only [groupPairs] at hnd hfresh ⊢
      simp only [rulesHaveDecls] at hrd
      simp only [pass2Walk]
      obtain ⟨h1, h2⟩ := pass2Walk_fresh ctx s rest hnd hfresh hrd
      exact ⟨by rw [h1], h2⟩
  | ctx, s, .atrule n p none :: rest, hnd, hfresh, hrd => by
      simp only [groupPairs] at hnd hfresh ⊢
      simp only [rulesHaveDecls] at hrd
      simp only [pass2Walk]
      obtain ⟨h1, h2⟩ := pass2Walk_fresh ctx s rest hnd hfresh hrd
      exact ⟨by rw [h1], h2⟩
  | ctx, s, .atrule n p (some body) :: rest, hnd, hfresh, hrd => by
      have hstep : groupPairs ctx (Node.atrule n p (some body) :: rest)
          = groupPairs (ctx ++ [(n, p)]) body ++ groupPairs ctx rest := by
        simp [groupPairs]
      rw [hstep] at hnd hfresh
      rw [List.nodup_append] at hnd
      obtain ⟨hndb, hndr, hdisj⟩ := hnd
      simp only [rulesHaveDecls, Bool.and_eq_true] at hrd
      rw [pass2Walk_container_step ctx s n p body rest]
      obtain ⟨hb1, hb2⟩ := pass2Walk_fresh (ctx ++ [(n, p)]) s body hndb
        (fun q hq => hfresh q (List.mem_append.mpr (Or.inl hq))) hrd.1
      obtain ⟨hr1, hr2⟩ := pass2Walk_fresh ctx _ rest hndr
        (fun q hq => by
          rw [hb2 q]
          simp only [not_or]
          exact ⟨hfresh q (List.mem_append.mpr (Or.inr hq)),
            fun hc => (List.disjoint_right.mp hdisj hq) hc⟩) hrd.2
      refine ⟨by rw [hb1, hr1], ?_⟩
      intro q
      rw [hr2 q, hb2 q, hstep]
      simp only [List.mem_append]
      tauto
  | ctx, s, .rule sel body :: rest, hnd, hfresh, hrd => by
      have hstep : groupPairs ctx (Node.rule sel body :: rest)
          = (declSerials body).map (fun t => (gkey ctx sel, t))
            ++ (groupPairs ctx body ++ groupPairs ctx rest) := by
        simp [groupPairs]
      rw [hstep] at hnd hfresh
      rw [List.nodup_append] at hnd
      obtain ⟨hndm, hndrest, hdisjm⟩ := hnd
      rw [List.nodup_append] at hndrest
      obtain ⟨hndb, hndr, hdisj⟩ := hndrest
      simp only [rulesHaveDecls, Bool.and_eq_true] at hrd
      obtain ⟨⟨hany, hrdb⟩, hrdr⟩ := hrd
      have hndser : (declSerials body).Nodup :=
        hndm.of_map _
      obtain ⟨hd1, hd2⟩ := dedupDecls_fresh (gkey ctx sel) s body hndser
        (fun t ht =>
          hfresh (gkey ctx sel, t)
            (List.mem_append.mpr (Or.inl (List.mem_map.mpr ⟨t, ht, rfl⟩))))
      simp only [pass2Walk, hd1, hany, if_true]
      obtain ⟨hb1, hb2⟩ := pass2Walk_fresh ctx (dedupDecls (gkey ctx sel) s body).2 body hndb
        (fun q hq => by
          rw [hd2 q]
          simp only [not_or]
          refine ⟨hfresh q (List.mem_append.mpr (Or.inr (List.mem_append.mpr (Or.inl hq)))), ?_⟩
          intro hc
          exact (List.disjoint_right.mp hdisjm (List.mem_append.mpr (Or.inl hq))) hc)
        hrdb
      obtain ⟨hr1, hr2⟩ := pass2Walk_fresh ctx _ rest hndr
        (fun q hq => by
          rw [hb2 q, hd2 q]
          simp only [not_or]
          refine ⟨⟨hfresh q (List.mem_append.mpr (Or.inr (List.mem_append.mpr (Or.inr hq)))), ?_⟩, ?_⟩
          · intro hc
            exact (List.disjoint_right.mp hdisjm (List.mem_append.mpr (Or.inr hq))) hc
          · intro hc
            exact (List.disjoint_right.mp hdisj hq) hc)
        hrdr
      refine ⟨by rw [hb1, hr1], ?_⟩
      intro q
      rw [hr2 q, hb2 q, hd2 q, hstep]
      simp only [List.mem_append]
      tauto
termination_by ctx s ns => sizeOf ns
decreasing_by all_goals (simp_wf; try omega)

-- ─── String cancellation and fingerprint injectivity ────────────────

theorem string_append_cancel_right {s1 s2 t : String} (h : s1 ++ t = s2 ++ t) :
    s1 = s2 := by
  have hd : s1.data ++ t.data = s2.data ++ t.data := by
    have := congrArg String.data h
    simpa [String.data_append] using this
  exact congrArg String.mk (List.append_cancel_right hd)

theorem string_append_cancel_left {s t1 t2 : String} (h : s ++ t1 = s ++ t2) :
    t1 = t2 := by
  have hd : s.data ++ t1.data = s.data ++ t2.data := by
    have := congrArg String.data h
    simpa [String.data_append] using this
  exact congrArg String.mk (List.append_cancel_left hd)

/-- Rule fingerprints with the same selector and body but different
serialized contexts differ. -/
theorem fingerprintRule_ctx_ne (c1 c2 : List (String × String)) (sel : String)
    (b : List Node) (hctx : ctxString c1 ≠ ctxString c2) :
    fingerprintRule c1 sel b ≠ fingerprintRule c2 sel b := by
  intro h
  unfold fingerprintRule at h
  exact hctx (string_append_cancel_left
    (string_append_cancel_right (string_append_cancel_right
      (string_append_cancel_right (string_append_cancel_right h)))))

/-- Group keys with the same selector but different serialized contexts
differ. -/
theorem gkey_ctx_ne (c1 c2 : List (String × String)) (sel1 sel2 : String)
    (hctx : ctxString c1 ≠ ctxString c2) (hsel : sel1 = sel2) :
    gkey c1 sel1 ≠ gkey c2 sel2 := by
  intro h
  unfold gkey at h
  rw [hsel] at h
  exact hctx (string_append_cancel_right (string_append_cancel_right h))

-- ─── Distribution of the pre-order summaries over ++ and nest ───────

theorem fpList_append : ∀ (ctx : List (String × String)) (xs ys : List Node),
    fpList ctx (xs ++ ys) = fpList ctx xs ++ fpList ctx ys
  | ctx, [], ys => by simp [fpList]
  | ctx, .decl p v i :: xs, ys => by
      simp only [List.cons_append, fpList, fpList_append ctx xs ys]
  | ctx, .rule sel body :: xs, ys => by
      simp only [List.cons_append, fpList, fpList_append ctx xs ys]
      simp
  | ctx, .atrule n p none :: xs, ys => by
      simp only [List.cons_append, fpList, fpList_append ctx xs ys]
  | ctx, .atrule n p (some body) :: xs, ys => by
      simp only [List.cons_append, fpList, fpList_append ctx xs ys]
      split <;> simp

theorem fpList_decls : ∀ (ctx : List (String × String)) (ns : List Node),
    ns.all isDecl = true → fpList ctx ns = []
  | ctx, [], _ => by simp [fpList]
  | ctx, .decl p v i :: rest, h => by
      simp only [List.all_cons, Bool.and_eq_true] at h
      simp [fpList, fpList_decls ctx rest h.2]
  | ctx, .rule _ _ :: rest, h => by simp [List.all_cons, isDecl] at h
  | ctx, .atrule _ _ _ :: rest, h => by simp [List.all_cons, isDecl] at h

theorem fpList_nest : ∀ (c ctx : List (String × String)) (ns : List Node),
    ns.all isDecl = false →
    fpList ctx (nest c ns) = fpList (ctx ++ c) ns
  | [], ctx, ns, _ => by simp [nest]
  | (n, p) :: c, ctx, ns, h => by
      have hne : (nest c ns).all isDecl = false := nest_all_isDecl_false c ns h
      have helig : declOnlyEligible (some (nest c ns)) = false := by
        simp only [declOnlyEligible, hne, Bool.and_false]
      simp only [nest, fpList, helig, Bool.false_eq_true, if_false]
      rw [fpList_nest c (ctx ++ [(n, p)]) ns h]
      simp

theorem groupPairs_append : ∀ (ctx : List (String × String)) (xs ys : List Node),
    groupPairs ctx (xs ++ ys) = groupPairs ctx xs ++ groupPairs ctx ys
  | ctx, [], ys => by simp [groupPairs]
  | ctx, .decl p v i :: xs, ys => by
      simp only [List.cons_append, groupPairs, groupPairs_append ctx xs ys]
  | ctx, .rule sel body :: xs, ys => by
      simp only [List.cons_append, groupPairs, groupPairs_append ctx xs ys]
      simp
  | ctx, .atrule n p none :: xs, ys => by
      simp only [List.cons_append, groupPairs, groupPairs_append ctx xs ys]
  | ctx, .atrule n p (some body) :: xs, ys => by
      simp only [List.cons_append, groupPairs, groupPairs_append ctx xs ys]
      simp

theorem groupPairs_decls : ∀ (ctx : List (String × String)) (ns : List Node),
    ns.all isDecl = true → groupPairs ctx ns = []
  | ctx, [], _ => by simp [groupPairs]
  | ctx, .decl p v i :: rest, h => by
      simp only [List.all_cons, Bool.and_eq_true] at h
      simp [groupPairs, groupPairs_decls ctx rest h.2]
  | ctx, .rule _ _ :: rest, h => by simp [List.all_cons, isDecl] at h
  | ctx, .atrule _ _ _ :: rest, h => by simp [List.all_cons, isDecl] at h

theorem groupPairs_nest : ∀ (c ctx : List (String × String)) (ns : List Node),
    groupPairs ctx (nest c ns) = groupPairs (ctx ++ c) ns
  | [], ctx, ns => by simp [nest]
  | (n, p) :: c, ctx, ns => by
      simp only [nest, groupPairs]
      rw [groupPairs_nest c (ctx ++ [(n, p)]) ns]
      simp

theorem rulesHaveDecls_decls : ∀ ns : List Node,
    ns.all isDecl = true → rulesHaveDecls ns = true
  | [], _ => by simp [rulesHaveDecls]
  | .decl p v i :: rest, h => by
      simp only [List.all_cons, Bool.and_eq_true] at h
      simp [rulesHaveDecls, rulesHaveDecls_decls rest h.2]
  | .rule _ _ :: rest, h => by simp [List.all_cons, isDecl] at h
  | .atrule _ _ _ :: rest, h => by simp [List.all_cons, isDecl] at h

theorem rulesHaveDecls_append : ∀ xs ys : List Node,
    rulesHaveDecls (xs ++ ys) = (rulesHaveDecls xs && rulesHaveDecls ys)
  | [], ys => by simp [rulesHaveDecls]
  | .decl p v i :: xs, ys => by
      simp only [List.cons_append, rulesHaveDecls, rulesHaveDecls_append xs ys]
  | .rule sel body :: xs, ys => by
      simp only [List.cons_append, rulesHaveDecls, rulesHaveDecls_append xs ys]
      simp [Bool.and_assoc]
  | .atrule n p none :: xs, ys => by
      simp only [List.cons_append, rulesHaveDecls, rulesHaveDecls_append xs ys]
  | .atrule n p (some body) :: xs, ys => by
      simp only [List.cons_append, rulesHaveDecls, rulesHaveDecls_append xs ys]
      simp [Bool.and_assoc]

theorem rulesHaveDecls_nest : ∀ (c : List (String × String)) (ns : List Node),
    rulesHaveDecls (nest c ns) = rulesHaveDecls ns
  | [], ns => by simp [nest]
  | (n, p) :: c, ns => by
      simp only [nest, rulesHaveDecls, rulesHaveDecls_nest c ns]
      simp

theorem noEmptyAtRules_append : ∀ xs ys : List Node,
    noEmptyAtRules (xs ++ ys) = (noEmptyAtRules xs && noEmptyAtRules ys)
  | [], ys => by simp [noEmptyAtRules]
  | .decl p v i :: xs, ys => by
      simp only [List.cons_append, noEmptyAtRules, noEmptyAtRules_append xs ys]
  | .rule sel body :: xs, ys => by
      simp only [List.cons_append, noEmptyAtRules, noEmptyAtRules_append xs ys]
      simp [Bool.and_assoc]
  | .atrule n p none :: xs, ys => by
      simp only [List.cons_append, noEmptyAtRules, noEmptyAtRules_append xs ys]
  | .atrule n p (some body) :: xs, ys => by
      simp only [List.cons_append, noEmptyAtRules, noEmptyAtRules_append xs ys]
      simp [Bool.and_assoc]

theorem noEmptyAtRules_nest : ∀ (c : List (String × String)) (ns : List Node),
    ns ≠ [] → noEmptyAtRules ns = true → noEmptyAtRules (nest c ns) = true
  | [], ns, _, h => by simpa [nest] using h
  | (n, p) :: c, ns, hne, h => by
      have hrec := noEmptyAtRules_nest c ns hne h
      have hnest : (nest c ns).isEmpty = false := by
        cases c with
        | nil => simpa [nest, List.isEmpty_iff] using hne
        | cons hd tl => simp [nest]
      simp [nest, noEmptyAtRules, hnest, hrec]

-- ─── Idempotence machinery: string surgery ──────────────────────────

theorem string_append_assoc (a b c : String) : a ++ b ++ c = a ++ (b ++ c) :=
  congrArg String.mk (by simp [String.data_append, List.append_assoc])

theorem mem_data_append (c : Char) (a b : String) :
    c ∈ (a ++ b).data ↔ c ∈ a.data ∨ c ∈ b.data := by
  simp [String.data_append]

theorem intercalate_go_step : ∀ (l : List String) (acc s b : String),
    String.intercalate.go (acc ++ s ++ b) s l = acc ++ s ++ String.intercalate.go b s l
  | [], acc, s, b => by simp [String.intercalate.go]
  | c :: t, acc, s, b => by
      simp only [String.intercalate.go]
      have h : acc ++ s ++ b ++ s ++ c = acc ++ s ++ (b ++ s ++ c) := by
        simp only [string_append_assoc]
      rw [h, intercalate_go_step t acc s (b ++ s ++ c)]

theorem intercalate_cons_cons (s a b : String) (t : List String) :
    String.intercalate s (a :: b :: t) = a ++ s ++ String.intercalate s (b :: t) := by
  show String.intercalate.go a s (b :: t) = a ++ s ++ String.intercalate.go b s t
  simp only [String.intercalate.go]
  exact intercalate_go_step t a s b

theorem intercalate_single (s a : String) : String.intercalate s [a] = a := rfl

theorem intercalate_semi_chars : ∀ (l : List String) (c : Char),
    c ∈ (String.intercalate ";" l).data → c = ';' ∨ ∃ t ∈ l, c ∈ t.data
  | [], c, h => by simp [String.intercalate] at h
  | [a], c, h => by
      rw [intercalate_single] at h
      exact Or.inr ⟨a, by simp, h⟩
  | a :: b :: t, c, h => by
      rw [intercalate_cons_cons] at h
      rcases (mem_data_append c _ _).mp h with h1 | h2
      · rcases (mem_data_append c _ _).mp h1 with h3 | h4
        · exact Or.inr ⟨a, by simp, h3⟩
        · have hsemi : (";" : String).data = [';'] := rfl
          rw [hsemi, List.mem_singleton] at h4
          exact Or.inl h4
      · rcases intercalate_semi_chars (b :: t) c h2 with h5 | ⟨u, hu, hcu⟩
        · exact Or.inl h5
        · exact Or.inr ⟨u, List.mem_cons_of_mem _ hu, hcu⟩

theorem cleanSerial_no_semi {s : String} (h : cleanSerial s = true) : ';' ∉ s.data := by
  intro hc
  simp only [cleanSerial, List.all_eq_true] at h
  exact absurd (h ';' hc) (by decide)

theorem cleanSerial_no_bar {s : String} (h : cleanSerial s = true) : '|' ∉ s.data := by
  intro hc
  simp only [cleanSerial, List.all_eq_true] at h
  exact absurd (h '|' hc) (by decide)

theorem intercalate_semi_no_bar (l : List String)
    (h : ∀ t ∈ l, cleanSerial t = true) :
    '|' ∉ (String.intercalate ";" l).data := by
  intro hc
  rcases intercalate_semi_chars l '|' hc with h1 | ⟨t, ht, hct⟩
  · exact absurd h1 (by decide)
  · exact cleanSerial_no_bar (h t ht) hct

/-- Splitting at the last occurrence of a separator character is
unambiguous: the suffixes contain no separator. -/
theorem sep_split_last (sep : Char) : ∀ (x1 x2 y1 y2 : List Char), sep ∉ y1 → sep ∉ y2 →
    x1 ++ sep :: y1 = x2 ++ sep :: y2 → x1 = x2 ∧ y1 = y2
  | [], [], y1, y2, _, _, h => by
      simp only [List.nil_append, List.cons.injEq] at h
      exact ⟨rfl, h.2⟩
  | [], c :: x2, y1, y2, hy1, _, h => by
      simp only [List.nil_append, List.cons_append, List.cons.injEq] at h
      exact absurd (by
        rw [h.2]
        exact List.mem_append_right x2 (List.mem_cons_self _ _)) hy1
  | c :: x1, [], y1, y2, _, hy2, h => by
      simp only [List.nil_append, List.cons_append, List.cons.injEq] at h
      exact absurd (by
        rw [← h.2]
        exact List.mem_append_right x1 (List.mem_cons_self _ _)) hy2
  | c :: x1, d :: x2, y1, y2, hy1, hy2, h => by
      simp only [List.cons_append, List.cons.injEq] at h
      obtain ⟨hx, hy⟩ := sep_split_last sep x1 x2 y1 y2 hy1 hy2 h.2
      exact ⟨by rw [h.1, hx], hy⟩

/-- Splitting at the first occurrence of a separator character is
unambiguous: the prefixes contain no separator. -/
theorem sep_split_first (sep : Char) : ∀ (x1 x2 y1 y2 : List Char), sep ∉ x1 → sep ∉ x2 →
    x1 ++ sep :: y1 = x2 ++ sep :: y2 → x1 = x2 ∧ y1 = y2
  | [], [], y1, y2, _, _, h => by
      simp only [List.nil_append, List.cons.injEq] at h
      exact ⟨rfl, h.2⟩
  | [], c :: x2, y1, y2, _, hx2, h => by
      simp only [List.nil_append, List.cons_append, List.cons.injEq] at h
      exact absurd (by rw [h.1]; exact List.mem_cons_self c x2) hx2
  | c :: x1, [], y1, y2, hx1, _, h => by
      simp only [List.nil_append, List.cons_append, List.cons.injEq] at h
      exact absurd (by rw [← h.1]; exact List.mem_cons_self c x1) hx1
  | c :: x1, d :: x2, y1, y2, hx1, hx2, h => by
      simp only [List.cons_append, List.cons.injEq] at h
      obtain ⟨hx, hy⟩ := sep_split_first sep x1 x2 y1 y2
        (fun hc => hx1 (List.mem_cons_of_mem _ hc))
        (fun hc => hx2 (List.mem_cons_of_mem _ hc)) h.2
      exact ⟨by rw [h.1, hx], hy⟩

theorem string_bar_split (a1 a2 b1 b2 : String)
    (h1 : '|' ∉ b1.data) (h2 : '|' ∉ b2.data)
    (h : a1 ++ "|" ++ b1 = a2 ++ "|" ++ b2) : a1 = a2 ∧ b1 = b2 := by
  have hd := congrArg String.data h
  simp only [String.data_append] at hd
  rw [List.append_assoc, List.append_assoc, List.singleton_append,
    List.singleton_append] at hd
  obtain ⟨hx, hy⟩ := sep_split_last '|' a1.data a2.data b1.data b2.data h1 h2 hd
  exact ⟨congrArg String.mk hx, congrArg String.mk hy⟩

theorem string_semi_split (a1 a2 b1 b2 : String)
    (h1 : ';' ∉ a1.data) (h2 : ';' ∉ a2.data)
    (h : a1 ++ ";" ++ b1 = a2 ++ ";" ++ b2) : a1 = a2 ∧ b1 = b2 := by
  have hd := congrArg String.data h
  simp only [String.data_append] at hd
  rw [List.append_assoc, List.append_assoc, List.singleton_append,
    List.singleton_append] at hd
  obtain ⟨hx, hy⟩ := sep_split_first ';' a1.data a2.data b1.data b2.data h1 h2 hd
  exact ⟨congrArg String.mk hx, congrArg String.mk hy⟩

/-- `";".intercalate` is injective on nonempty lists of `';'`-free
strings. -/
theorem intercalate_semi_inj : ∀ (l1 l2 : List String),
    (∀ t ∈ l1, cleanSerial t = true) → (∀ t ∈ l2, cleanSerial t = true) →
    l1 ≠ [] → l2 ≠ [] →
    String.intercalate ";" l1 = String.intercalate ";" l2 → l1 = l2
  | [], _, _, _, hne1, _, _ => absurd rfl hne1
  | _ :: _, [], _, _, _, hne2, _ => absurd rfl hne2
  | [a], [b], _, _, _, _, h => by
      rw [intercalate_single, intercalate_single] at h
      rw [h]
  | [a], b :: c :: t, hc1, hc2, _, _, h => by
      rw [intercalate_single, intercalate_cons_cons] at h
      have hsemi : ';' ∈ (b ++ ";" ++ String.intercalate ";" (c :: t)).data := by
        rw [mem_data_append]
        exact Or.inl ((mem_data_append _ _ _).mpr (Or.inr (by
          have : (";" : String).data = [';'] := rfl
          rw [this]; exact List.mem_singleton.mpr rfl)))
      rw [← h] at hsemi
      exact absurd hsemi (cleanSerial_no_semi (hc1 a (by simp)))
  | a :: c :: t, [b], hc1, hc2, _, _, h => by
      rw [intercalate_single, intercalate_cons_cons] at h
      have hsemi : ';' ∈ (a ++ ";" ++ String.intercalate ";" (c :: t)).data := by
        rw [mem_data_append]
        exact Or.inl ((mem_data_append _ _ _).mpr (Or.inr (by
          have : (";" : String).data = [';'] := rfl
          rw [this]; exact List.mem_singleton.mpr rfl)))
      rw [h] at hsemi
      exact absurd hsemi (cleanSerial_no_semi (hc2 b (by simp)))
  | a :: c :: t1, b :: d :: t2, hc1, hc2, _, _, h => by
      rw [intercalate_cons_cons, intercalate_cons_cons] at h
      obtain ⟨hab, hrest⟩ := string_semi_split a b _ _
        (cleanSerial_no_semi (hc1 a (by simp)))
        (cleanSerial_no_semi (hc2 b (by simp))) h
      have := intercalate_semi_inj (c :: t1) (d :: t2)
        (fun u hu => hc1 u (List.mem_cons_of_mem _ hu))
        (fun u hu => hc2 u (List.mem_cons_of_mem _ hu))
        (by simp) (by simp) hrest
      rw [hab, this]

theorem atrule_ne_rule_prefix (x y : String) : "atrule|" ++ x ≠ "rule|" ++ y := by
  intro h
  have hd := congrArg String.data h
  have h1 : ("atrule|" ++ x).data = 'a' :: ("trule|" ++ x).data := rfl
  have h2 : ("rule|" ++ y).data = 'r' :: ("ule|" ++ y).data := rfl
  rw [h1, h2] at hd
  injection hd with hc _
  exact absurd hc (by decide)

theorem fingerprintRule_eq_ruleFp (ctx : List (String × String)) (sel : String)
    (body : List Node) :
    fingerprintRule ctx sel body = ruleFp (gkey ctx sel) (declSerials body) := by
  simp only [fingerprintRule, ruleFp, gkey, serializeDeclarations, string_append_assoc]

theorem fingerprintAtRule_ne_ruleFp (ctx : List (String × String)) (n p : String)
    (body : List Node) (gk : String) (l : List String) :
    fingerprintAtRule ctx n p body ≠ ruleFp gk l := by
  simp only [fingerprintAtRule, ruleFp, string_append_assoc]
  exact atrule_ne_rule_prefix _ _

/-- Two rule fingerprints over clean, nonempty serial lists agree only
when the group keys agree and the serial lists hold the same serials. -/
theorem ruleFp_inj (gk1 gk2 : String) (l1 l2 : List String)
    (hc1 : ∀ t ∈ l1, cleanSerial t = true) (hc2 : ∀ t ∈ l2, cleanSerial t = true)
    (hne1 : l1 ≠ []) (hne2 : l2 ≠ [])
    (h : ruleFp gk1 l1 = ruleFp gk2 l2) : gk1 = gk2 ∧ ∀ t, (t ∈ l1 ↔ t ∈ l2) := by
  unfold ruleFp at h
  have hs1 : ∀ t ∈ List.insertionSort (fun a b : String => a ≤ b) l1, cleanSerial t = true :=
    fun t ht => hc1 t ((List.perm_insertionSort _ l1).mem_iff.mp ht)
  have hs2 : ∀ t ∈ List.insertionSort (fun a b : String => a ≤ b) l2, cleanSerial t = true :=
    fun t ht => hc2 t ((List.perm_insertionSort _ l2).mem_iff.mp ht)
  have hb1 := intercalate_semi_no_bar _ hs1
  have hb2 := intercalate_semi_no_bar _ hs2
  obtain ⟨hgk, hJ⟩ := string_bar_split ("rule|" ++ gk1) ("rule|" ++ gk2) _ _ hb1 hb2 h
  have hsne1 : List.insertionSort (fun a b : String => a ≤ b) l1 ≠ [] := by
    intro hnil
    have hp := List.perm_insertionSort (fun a b : String => a ≤ b) l1
    rw [hnil] at hp
    exact hne1 (List.Perm.eq_nil hp.symm)
  have hsne2 : List.insertionSort (fun a b : String => a ≤ b) l2 ≠ [] := by
    intro hnil
    have hp := List.perm_insertionSort (fun a b : String => a ≤ b) l2
    rw [hnil] at hp
    exact hne2 (List.Perm.eq_nil hp.symm)
  have hls := intercalate_semi_inj _ _ hs1 hs2 hsne1 hsne2 hJ
  refine ⟨string_append_cancel_left hgk, fun t => ?_⟩
  rw [← (List.perm_insertionSort (fun a b : String => a ≤ b) l1).mem_iff, hls,
    (List.perm_insertionSort (fun a b : String => a ≤ b) l2).mem_iff]

-- ─── Idempotence machinery: node-level helpers ──────────────────────

theorem nodecl_not_eligible (ns : List Node)
    (h : ns.all (fun n => !isDecl n) = true) : declOnlyEligible (some ns) = false := by
  cases ns with
  | nil => simp [declOnlyEligible]
  | cons a t =>
      simp only [List.all_cons, Bool.and_eq_true] at h
      have ha : isDecl a = false := by
        cases hh : isDecl a
        · rfl
        · rw [hh] at h; simp at h
      simp [declOnlyEligible, List.all_cons, ha]

theorem alldecl_ineligible_nil (body : List Node) (hall : body.all isDecl = true)
    (he : declOnlyEligible (some body) = false) : body = [] := by
  cases body with
  | nil => rfl
  | cons a t => simp [declOnlyEligible, hall] at he

theorem atrFps_decls : ∀ (ctx : List (String × String)) (ns : List Node),
    ns.all isDecl = true → atrFps ctx ns = []
  | ctx, [], _ => by simp [atrFps]
  | ctx, .decl p v i :: rest, h => by
      simp only [List.all_cons, Bool.and_eq_true] at h
      simp [atrFps, atrFps_decls ctx rest h.2]
  | ctx, .rule _ _ :: rest, h => by simp [List.all_cons, isDecl] at h
  | ctx, .atrule _ _ _ :: rest, h => by simp [List.all_cons, isDecl] at h

theorem atrFps_sub : ∀ (ctx : List (String × String)) (ns : List Node) (f : String),
    f ∈ atrFps ctx ns → f ∈ fpList ctx ns
  | ctx, [], f, h => by simp [atrFps] at h
  | ctx, .decl p v i :: rest, f, h => by
      simp only [atrFps] at h
      simp only [fpList]
      exact atrFps_sub ctx rest f h
  | ctx, .rule sel body :: rest, f, h => by
      simp only [atrFps] at h
      simp only [fpList, List.mem_cons, List.mem_append]
      rcases List.mem_append.mp h with h1 | h2
      · exact Or.inr (Or.inl (atrFps_sub ctx body f h1))
      · exact Or.inr (Or.inr (atrFps_sub ctx rest f h2))
  | ctx, .atrule n p none :: rest, f, h => by
      simp only [atrFps] at h
      simp only [fpList]
      exact atrFps_sub ctx rest f h
  | ctx, .atrule n p (some body) :: rest, f, h => by
      simp only [atrFps] at h
      simp only [fpList]
      by_cases he : declOnlyEligible (some body) = true
      · rw [if_pos he] at h ⊢
        simp only [List.mem_cons, List.mem_append] at h ⊢
        rcases h with h0 | h1 | h2
        · exact Or.inl h0
        · exact Or.inr (Or.inl (atrFps_sub _ body f h1))
        · exact Or.inr (Or.inr (atrFps_sub ctx rest f h2))
      · rw [if_neg he] at h ⊢
        rcases List.mem_append.mp h with h1 | h2
        · exact List.mem_append_left _ (atrFps_sub _ body f h1)
        · exact List.mem_append_right _ (atrFps_sub ctx rest f h2)
termination_by ctx ns f => sizeOf ns
decreasing_by all_goals (simp_wf; try omega)

theorem atrFps_shape : ∀ (ctx : List (String × String)) (ns : List Node) (f : String),
    f ∈ atrFps ctx ns → ∃ c n p b, f = fingerprintAtRule c n p b
  | ctx, [], f, h => by simp [atrFps] at h
  | ctx, .decl p v i :: rest, f, h => by
      simp only [atrFps] at h
      exact atrFps_shape ctx rest f h
  | ctx, .rule sel body :: rest, f, h => by
      simp only [atrFps] at h
      rcases List.mem_append.mp h with h1 | h2
      · exact atrFps_shape ctx body f h1
      · exact atrFps_shape ctx rest f h2
  | ctx, .atrule n p none :: rest, f, h => by
      simp only [atrFps] at h
      exact atrFps_shape ctx rest f h
  | ctx, .atrule n p (some body) :: rest, f, h => by
      simp only [atrFps] at h
      by_cases he : declOnlyEligible (some body) = true
      · rw [if_pos he] at h
        rcases List.mem_cons.mp h with h0 | h12
        · exact ⟨ctx, n, p, body, h0⟩
        · rcases List.mem_append.mp h12 with h1 | h2
          · exact atrFps_shape _ body f h1
          · exact atrFps_shape ctx rest f h2
      · rw [if_neg he] at h
        rcases List.mem_append.mp h with h1 | h2
        · exact atrFps_shape _ body f h1
        · exact atrFps_shape ctx rest f h2
termination_by ctx ns f => sizeOf ns
decreasing_by all_goals (simp_wf; try omega)

theorem cleanSerials_declSerials : ∀ ns : List Node, cleanSerials ns = true →
    ∀ t ∈ declSerials ns, cleanSerial t = true
  | [], _, t, ht => by simp [declSerials] at ht
  | .decl p v i :: rest, h, t, ht => by
      simp only [cleanSerials, Bool.and_eq_true] at h
      simp only [declSerials, List.mem_cons] at ht
      rcases ht with h1 | h2
      · exact h1 ▸ h.1
      · exact cleanSerials_declSerials rest h.2 t h2
  | .rule sel body :: rest, h, t, ht => by
      simp only [cleanSerials, Bool.and_eq_true] at h
      simp only [declSerials] at ht
      exact cleanSerials_declSerials rest h.2 t ht
  | .atrule n p none :: rest, h, t, ht => by
      simp only [cleanSerials] at h
      simp only [declSerials] at ht
      exact cleanSerials_declSerials rest h t ht
  | .atrule n p (some body) :: rest, h, t, ht => by
      simp only [cleanSerials, Bool.and_eq_true] at h
      simp only [declSerials] at ht
      exact cleanSerials_declSerials rest h.2 t ht

theorem declSerials_ne_nil : ∀ ns : List Node, ns.any isDecl = true → declSerials ns ≠ []
  | [], h => by simp at h
  | .decl p v i :: rest, _ => by simp [declSerials]
  | .rule _ _ :: rest, h => by
      simp only [List.any_cons, isDecl, Bool.false_or] at h
      simp only [declSerials]
      exact declSerials_ne_nil rest h
  | .atrule _ _ _ :: rest, h => by
      simp only [List.any_cons, isDecl, Bool.false_or] at h
      simp only [declSerials]
      exact declSerials_ne_nil rest h

theorem dedupDecls_seen_mono : ∀ (gk : String) (s : List (String × String)) (b : List Node)
    (q : String × String), q ∈ s → q ∈ (dedupDecls gk s b).2
  | gk, s, [], q, h => by simpa [dedupDecls] using h
  | gk, s, .decl p v i :: rest, q, h => by
      simp only [dedupDecls]
      split
      · exact dedupDecls_seen_mono gk s rest q h
      · exact dedupDecls_seen_mono gk _ rest q (List.mem_cons_of_mem _ h)
  | gk, s, .rule sel body :: rest, q, h => by
      simp only [dedupDecls]
      exact dedupDecls_seen_mono gk s rest q h
  | gk, s, .atrule n p ob :: rest, q, h => by
      simp only [dedupDecls]
      exact dedupDecls_seen_mono gk s rest q h

/-- The declarations surviving the group filter have pairwise distinct
serials, none of which was seen before, and all of which are registered
in the group's seen set afterwards. -/
theorem dedupDecls_serials : ∀ (gk : String) (s : List (String × String)) (b : List Node),
    (declSerials (dedupDecls gk s b).1).Nodup
    ∧ (∀ t ∈ declSerials (dedupDecls gk s b).1,
        (gk, t) ∉ s ∧ (gk, t) ∈ (dedupDecls gk s b).2)
  | gk, s, [] => by simp [dedupDecls, declSerials]
  | gk, s, .decl p v i :: rest => by
      simp only [dedupDecls]
      split
      · exact dedupDecls_serials gk s rest
      · rename_i hni
        obtain ⟨hnd, hmem⟩ := dedupDecls_serials gk ((gk, serializeDecl p v i) :: s) rest
        constructor
        · simp only [declSerials, List.nodup_cons]
          exact ⟨fun hc => ((hmem _ hc).1) (List.mem_cons_self _ _), hnd⟩
        · intro t ht
          simp only [declSerials, List.mem_cons] at ht
          rcases ht with h1 | h2
          · subst h1
            exact ⟨hni, dedupDecls_seen_mono gk _ rest _ (List.mem_cons_self _ _)⟩
          · obtain ⟨hns, hin⟩ := hmem t h2
            exact ⟨fun hc => hns (List.mem_cons_of_mem _ hc), hin⟩
  | gk, s, .rule sel body :: rest => by
      simp only [dedupDecls, declSerials]
      exact dedupDecls_serials gk s rest
  | gk, s, .atrule n p ob :: rest => by
      simp only [dedupDecls, declSerials]
      exact dedupDecls_serials gk s rest

theorem dedupDecls_clean : ∀ (gk : String) (s : List (String × String)) (b : List Node),
    cleanSerials b = true → cleanSerials (dedupDecls gk s b).1 = true
  | gk, s, [], _ => by simp [dedupDecls, cleanSerials]
  | gk, s, .decl p v i :: rest, h => by
      simp only [cleanSerials, Bool.and_eq_true] at h
      simp only [dedupDecls]
      split
      · exact dedupDecls_clean gk s rest h.2
      · simp only [cleanSerials, Bool.and_eq_true]
        exact ⟨h.1, dedupDecls_clean gk _ rest h.2⟩
  | gk, s, .rule sel body :: rest, h => by
      simp only [cleanSerials, Bool.and_eq_true] at h
      simp only [dedupDecls, cleanSerials, Bool.and_eq_true]
      exact ⟨h.1, dedupDecls_clean gk s rest h.2⟩
  | gk, s, .atrule n p none :: rest, h => by
      simp only [cleanSerials] at h
      simp only [dedupDecls, cleanSerials]
      exact dedupDecls_clean gk s rest h
  | gk, s, .atrule n p (some body) :: rest, h => by
      simp only [cleanSerials, Bool.and_eq_true] at h
      simp only [dedupDecls, cleanSerials, Bool.and_eq_true]
      exact ⟨h.1, dedupDecls_clean gk s rest h.2⟩

theorem pass2Walk_seen_mono : ∀ (ctx : List (String × String))
    (s : List (String × String)) (ns : List Node) (q : String × String),
    q ∈ s → q ∈ (pass2Walk ctx s ns).2
  | ctx, s, [], q, h => by simpa [pass2Walk] using h
  | ctx, s, .decl p v i :: rest, q, h => by
      simp only [pass2Walk]
      exact pass2Walk_seen_mono ctx s rest q h
  | ctx, s, .atrule n p none :: rest, q, h => by
      simp only [pass2Walk]
      exact pass2Walk_seen_mono ctx s rest q h
  | ctx, s, .atrule n p (some body) :: rest, q, h => by
      simp only [pass2Walk]
      exact pass2Walk_seen_mono ctx _ rest q (pass2Walk_seen_mono _ s body q h)
  | ctx, s, .rule sel body :: rest, q, h => by
      simp only [pass2Walk]
      split
      · exact pass2Walk_seen_mono ctx _ rest q
          (pass2Walk_seen_mono ctx _ _ q (dedupDecls_seen_mono _ s body q h))
      · exact pass2Walk_seen_mono ctx _ rest q
          (pass2Walk_seen_mono [] _ _ q (dedupDecls_seen_mono _ s body q h))
termination_by ctx s ns q => sizeOf ns
decreasing_by
  all_goals simp_wf
  all_goals try omega
  · have := dedupDecls_sizeOf_le (gkey ctx sel) s body; omega
  · have := dedupDecls_sizeOf_le (gkey ctx sel) s body; omega

theorem pass1Walk_nodecl : ∀ (ctx : List (String × String)) (s : List String)
    (ns : List Node), ns.all (fun n => !isDecl n) = true →
    (pass1Walk ctx s ns).1.all (fun n => !isDecl n) = true
  | ctx, s, [], _ => by simp [pass1Walk]
  | ctx, s, .decl p v i :: rest, h => by
      simp [List.all_cons, isDecl] at h
  | ctx, s, .rule sel body :: rest, h => by
      simp only [List.all_cons, Bool.and_eq_true] at h
      simp only [pass1Walk]
      split
      · exact pass1Walk_nodecl ctx _ rest h.2
      · simp only [List.all_cons, Bool.and_eq_true]
        exact ⟨by simp [isDecl], pass1Walk_nodecl ctx _ rest h.2⟩
  | ctx, s, .atrule n p none :: rest, h => by
      simp only [List.all_cons, Bool.and_eq_true] at h
      simp only [pass1Walk, List.all_cons, Bool.and_eq_true]
      exact ⟨by simp [isDecl], pass1Walk_nodecl ctx s rest h.2⟩
  | ctx, s, .atrule n p (some body) :: rest, h => by
      simp only [List.all_cons, Bool.and_eq_true] at h
      simp only [pass1Walk]
      split
      · split
        · exact pass1Walk_nodecl ctx _ rest h.2
        · simp only [List.all_cons, Bool.and_eq_true]
          exact ⟨by simp [isDecl], pass1Walk_nodecl ctx _ rest h.2⟩
      · simp only [List.all_cons, Bool.and_eq_true]
        exact ⟨by simp [isDecl], pass1Walk_nodecl ctx _ rest h.2⟩
termination_by ctx s ns => sizeOf ns
decreasing_by all_goals (simp_wf; try omega)

theorem pass2Walk_nodecl : ∀ (ctx : List (String × String))
    (s : List (String × String)) (ns : List Node),
    ns.all (fun n => !isDecl n) = true →
    (pass2Walk ctx s ns).1.all (fun n => !isDecl n) = true
  | ctx, s, [], _ => by simp [pass2Walk]
  | ctx, s, .decl p v i :: rest, h => by
      simp [List.all_cons, isDecl] at h
  | ctx, s, .rule sel body :: rest, h => by
      simp only [List.all_cons, Bool.and_eq_true] at h
      simp only [pass2Walk]
      split
      · simp only [List.all_cons, Bool.and_eq_true]
        exact ⟨by simp [isDecl], pass2Walk_nodecl ctx _ rest h.2⟩
      · exact pass2Walk_nodecl ctx _ rest h.2
  | ctx, s, .atrule n p none :: rest, h => by
      simp only [List.all_cons, Bool.and_eq_true] at h
      simp only [pass2Walk, List.all_cons, Bool.and_eq_true]
      exact ⟨by simp [isDecl], pass2Walk_nodecl ctx s rest h.2⟩
  | ctx, s, .atrule n p (some body) :: rest, h => by
      simp only [List.all_cons, Bool.and_eq_true] at h
      simp only [pass2Walk, List.all_cons, Bool.and_eq_true]
      exact ⟨by simp [isDecl], pass2Walk_nodecl ctx _ rest h.2⟩
termination_by ctx s ns => sizeOf ns
decreasing_by all_goals (simp_wf; try omega)

theorem cleanOnce_decls : ∀ ns : List Node, ns.all isDecl = true → cleanOnce ns = (ns, false)
  | [], _ => by simp [cleanOnce]
  | .decl p v i :: rest, h => by
      simp only [List.all_cons, Bool.and_eq_true] at h
      simp [cleanOnce, cleanOnce_decls rest h.2]
  | .rule _ _ :: rest, h => by simp [List.all_cons, isDecl] at h
  | .atrule _ _ _ :: rest, h => by simp [List.all_cons, isDecl] at h

-- ─── Idempotence machinery: Pass 1 on CSS-shaped forests ────────────

theorem bool_or_elim {a b : Bool} (h : (a || b) = true) : a = true ∨ b = true := by
  cases a
  · exact Or.inr (by simpa using h)
  · exact Or.inl rfl

theorem bool_and_elim {a b : Bool} (h : (a && b) = true) : a = true ∧ b = true := by
  simpa using h

theorem pass1Walk_wf : ∀ (ctx : List (String × String)) (s : List String)
    (ns : List Node), wfForest ns = true → wfForest (pass1Walk ctx s ns).1 = true
  | ctx, s, [], _ => by simp [pass1Walk, wfForest]
  | ctx, s, .decl p v i :: rest, h => by
      simp only [wfForest] at h
      simp only [pass1Walk, wfForest]
      exact pass1Walk_wf ctx s rest h
  | ctx, s, .atrule n p none :: rest, h => by
      simp only [wfForest] at h
      simp only [pass1Walk, wfForest]
      exact pass1Walk_wf ctx s rest h
  | ctx, s, .rule sel body :: rest, h => by
      simp only [wfForest, Bool.and_eq_true] at h
      rw [pass1Walk_flat_step ctx s (.rule sel body) (fingerprintRule ctx sel body) rest
        (by simp [flatEligible, h.1]) rfl]
      split
      · exact pass1Walk_wf ctx s rest h.2
      · simp only [wfForest, Bool.and_eq_true]
        exact ⟨h.1, pass1Walk_wf ctx _ rest h.2⟩
  | ctx, s, .atrule n p (some body) :: rest, h => by
      simp only [wfForest, Bool.and_eq_true] at h
      by_cases he : declOnlyEligible (some body) = true
      · have hb : body.all isDecl = true := by
          simp only [declOnlyEligible, Bool.and_eq_true] at he
          exact he.2
        rw [pass1Walk_flat_step ctx s (.atrule n p (some body))
          (fingerprintAtRule ctx n p body) rest
          (by simpa [flatEligible] using he) (by simp [fingerprintOf, he])]
        split
        · exact pass1Walk_wf ctx s rest h.2
        · simp only [wfForest, Bool.and_eq_true]
          exact ⟨by simp [hb], pass1Walk_wf ctx _ rest h.2⟩
      · have he' : declOnlyEligible (some body) = false := by
          cases hx : declOnlyEligible (some body)
          · rfl
          · exact absurd hx he
        rw [pass1Walk_container_step ctx s n p body rest he']
        simp only [wfForest, Bool.and_eq_true]
        refine ⟨?_, pass1Walk_wf ctx _ rest h.2⟩
        rcases bool_or_elim h.1 with hall | hro
        · have hnil : body = [] := alldecl_ineligible_nil body hall he'
          subst hnil
          rw [pass1Walk_nil]
          simp
        · obtain ⟨hnodecl, hwfb⟩ := bool_and_elim hro
          have h1 := pass1Walk_wf (ctx ++ [(n, p)]) s body hwfb
          have h2 := pass1Walk_nodecl (ctx ++ [(n, p)]) s body hnodecl
          simp [h1, h2]
termination_by ctx s ns => sizeOf ns
decreasing_by all_goals (simp_wf; try omega)

theorem pass1Walk_clean : ∀ (ctx : List (String × String)) (s : List String)
    (ns : List Node), cleanSerials ns = true → cleanSerials (pass1Walk ctx s ns).1 = true
  | ctx, s, [], _ => by simp [pass1Walk, cleanSerials]
  | ctx, s, .decl p v i :: rest, h => by
      simp only [cleanSerials, Bool.and_eq_true] at h
      simp only [pass1Walk, cleanSerials, Bool.and_eq_true]
      exact ⟨h.1, pass1Walk_clean ctx s rest h.2⟩
  | ctx, s, .atrule n p none :: rest, h => by
      simp only [cleanSerials] at h
      simp only [pass1Walk, cleanSerials]
      exact pass1Walk_clean ctx s rest h
  | ctx, s, .rule sel body :: rest, h => by
      simp only [cleanSerials, Bool.and_eq_true] at h
      simp only [pass1Walk]
      split
      · exact pass1Walk_clean ctx _ rest h.2
      · simp only [cleanSerials, Bool.and_eq_true]
        exact ⟨pass1Walk_clean ctx _ body h.1, pass1Walk_clean ctx _ rest h.2⟩
  | ctx, s, .atrule n p (some body) :: rest, h => by
      simp only [cleanSerials, Bool.and_eq_true] at h
      simp only [pass1Walk]
      split
      · split
        · exact pass1Walk_clean ctx _ rest h.2
        · simp only [cleanSerials, Bool.and_eq_true]
          exact ⟨pass1Walk_clean _ _ body h.1, pass1Walk_clean ctx _ rest h.2⟩
      · simp only [cleanSerials, Bool.and_eq_true]
        exact ⟨pass1Walk_clean _ _ body h.1, pass1Walk_clean ctx _ rest h.2⟩
termination_by ctx s ns => sizeOf ns
decreasing_by all_goals (simp_wf; try omega)

/-- On a CSS-shaped forest, Pass 1's output has pairwise distinct
eligible fingerprints, disjoint from the incoming seen set and all
recorded in the outgoing seen set. -/
theorem pass1Walk_wf_fresh : ∀ (ctx : List (String × String)) (s : List String)
    (ns : List Node), wfForest ns = true →
    (fpList ctx (pass1Walk ctx s ns).1).Nodup
    ∧ (∀ f ∈ fpList ctx (pass1Walk ctx s ns).1, f ∉ s)
    ∧ (∀ f ∈ fpList ctx (pass1Walk ctx s ns).1, f ∈ (pass1Walk ctx s ns).2)
  | ctx, s, [], _ => by simp [pass1Walk, fpList]
  | ctx, s, .decl p v i :: rest, h => by
      simp only [wfForest] at h
      simp only [pass1Walk, fpList]
      exact pass1Walk_wf_fresh ctx s rest h
  | ctx, s, .atrule n p none :: rest, h => by
      simp only [wfForest] at h
      simp only [pass1Walk, fpList]
      exact pass1Walk_wf_fresh ctx s rest h
  | ctx, s, .rule sel body :: rest, h => by
      simp only [wfForest, Bool.and_eq_true] at h
      rw [pass1Walk_flat_step ctx s (.rule sel body) (fingerprintRule ctx sel body) rest
        (by simp [flatEligible, h.1]) rfl]
      by_cases hk : fingerprintRule ctx sel body ∈ s
      · rw [if_pos hk]
        exact pass1Walk_wf_fresh ctx s rest h.2
      · rw [if_neg hk]
        obtain ⟨hnd, hfr, hsn⟩ := pass1Walk_wf_fresh ctx
          (fingerprintRule ctx sel body :: s) rest h.2
        refine ⟨?_, ?_, ?_⟩
        · simp only [fpList, fpList_decls ctx body h.1, List.nil_append, List.nodup_cons]
          exact ⟨fun hc => (hfr _ hc) (List.mem_cons_self _ _), hnd⟩
        · intro f hf
          simp only [fpList, fpList_decls ctx body h.1, List.nil_append,
            List.mem_cons] at hf
          rcases hf with rfl | hf
          · exact hk
          · exact fun hc => (hfr f hf) (List.mem_cons_of_mem _ hc)
        · intro f hf
          simp only [fpList, fpList_decls ctx body h.1, List.nil_append,
            List.mem_cons] at hf
          rcases hf with rfl | hf
          · exact pass1Walk_seen_mono ctx _ rest _ (List.mem_cons_self _ _)
          · exact hsn f hf
  | ctx, s, .atrule n p (some body) :: rest, h => by
      simp only [wfForest, Bool.and_eq_true] at h
      by_cases he : declOnlyEligible (some body) = true
      · have hb : body.all isDecl = true := by
          simp only [declOnlyEligible, Bool.and_eq_true] at he
          exact he.2
        rw [pass1Walk_flat_step ctx s (.atrule n p (some body))
          (fingerprintAtRule ctx n p body) rest
          (by simpa [flatEligible] using he) (by simp [fingerprintOf, he])]
        by_cases hk : fingerprintAtRule ctx n p body ∈ s
        · rw [if_pos hk]
          exact pass1Walk_wf_fresh ctx s rest h.2
        · rw [if_neg hk]
          obtain ⟨hnd, hfr, hsn⟩ := pass1Walk_wf_fresh ctx
            (fingerprintAtRule ctx n p body :: s) rest h.2
          refine ⟨?_, ?_, ?_⟩
          · simp only [fpList, if_pos he, fpList_decls _ body hb, List.nil_append,
              List.nodup_cons]
            exact ⟨fun hc => (hfr _ hc) (List.mem_cons_self _ _), hnd⟩
          · intro f hf
            simp only [fpList, if_pos he, fpList_decls _ body hb, List.nil_append,
              List.mem_cons] at hf
            rcases hf with rfl | hf
            · exact hk
            · exact fun hc => (hfr f hf) (List.mem_cons_of_mem _ hc)
          · intro f hf
            simp only [fpList, if_pos he, fpList_decls _ body hb, List.nil_append,
              List.mem_cons] at hf
            rcases hf with rfl | hf
            · exact pass1Walk_seen_mono ctx _ rest _ (List.mem_cons_self _ _)
            · exact hsn f hf
      · have he' : declOnlyEligible (some body) = false := by
          cases hx : declOnlyEligible (some body)
          · rfl
          · exact absurd hx he
        rw [pass1Walk_container_step ctx s n p body rest he']
        have hwfb : wfForest body = true := by
          rcases bool_or_elim h.1 with hall | hro
          · rw [alldecl_ineligible_nil body hall he']
            simp [wfForest]
          · exact (bool_and_elim hro).2
        have hnodecl : (pass1Walk (ctx ++ [(n, p)]) s body).1.all
            (fun n => !isDecl n) = true := by
          rcases bool_or_elim h.1 with hall | hro
          · rw [alldecl_ineligible_nil body hall he', pass1Walk_nil]
            simp
          · exact pass1Walk_nodecl _ s body (bool_and_elim hro).1
        have heOut : declOnlyEligible (some (pass1Walk (ctx ++ [(n, p)]) s body).1) = false :=
          nodecl_not_eligible _ hnodecl
        obtain ⟨bnd, bfr, bsn⟩ := pass1Walk_wf_fresh (ctx ++ [(n, p)]) s body hwfb
        obtain ⟨rnd, rfr, rsn⟩ := pass1Walk_wf_fresh ctx
          (pass1Walk (ctx ++ [(n, p)]) s body).2 rest h.2
        refine ⟨?_, ?_, ?_⟩
        · simp only [fpList, heOut, Bool.false_eq_true, if_false]
          rw [List.nodup_append]
          exact ⟨bnd, rnd, fun f hfb hfr' => (rfr f hfr') (bsn f hfb)⟩
        · intro f hf
          simp only [fpList, heOut, Bool.false_eq_true, if_false,
            List.mem_append] at hf
          rcases hf with hf | hf
          · exact bfr f hf
          · exact fun hc => (rfr f hf) (pass1Walk_seen_mono _ s body f hc)
        · intro f hf
          simp only [fpList, heOut, Bool.false_eq_true, if_false,
            List.mem_append] at hf
          rcases hf with hf | hf
          · exact pass1Walk_seen_mono ctx _ rest f (bsn f hf)
          · exact rsn f hf
termination_by ctx s ns => sizeOf ns
decreasing_by all_goals (simp_wf; try omega)

-- ─── Idempotence machinery: Pass 2 on CSS-shaped forests ────────────

theorem pass2Walk_wf : ∀ (ctx : List (String × String)) (s : List (String × String))
    (ns : List Node), wfForest ns = true → wfForest (pass2Walk ctx s ns).1 = true
  | ctx, s, [], _ => by simp [pass2Walk, wfForest]
  | ctx, s, .decl p v i :: rest, h => by
      simp only [wfForest] at h
      simp only [pass2Walk, wfForest]
      exact pass2Walk_wf ctx s rest h
  | ctx, s, .atrule n p none :: rest, h => by
      simp only [wfForest] at h
      simp only [pass2Walk, wfForest]
      exact pass2Walk_wf ctx s rest h
  | ctx, s, .rule sel body :: rest, h => by
      simp only [wfForest, Bool.and_eq_true] at h
      rw [pass2Walk_flat_rule_step ctx s sel body rest h.1]
      split
      · exact pass2Walk_wf ctx _ rest h.2
      · simp only [wfForest, Bool.and_eq_true]
        exact ⟨dedupDecls_all_decls _ s body h.1, pass2Walk_wf ctx _ rest h.2⟩
  | ctx, s, .atrule n p (some body) :: rest, h => by
      simp only [wfForest, Bool.and_eq_true] at h
      rw [pass2Walk_container_step ctx s n p body rest]
      simp only [wfForest, Bool.and_eq_true]
      refine ⟨?_, pass2Walk_wf ctx _ rest h.2⟩
      rcases bool_or_elim h.1 with hall | hro
      · have hb := pass2Walk_decls (ctx ++ [(n, p)]) s body hall
        have hb1 : (pass2Walk (ctx ++ [(n, p)]) s body).1 = body := by rw [hb]
        rw [hb1]
        simp [hall]
      · obtain ⟨hnodecl, hwfb⟩ := bool_and_elim hro
        have h1 := pass2Walk_wf (ctx ++ [(n, p)]) s body hwfb
        have h2 := pass2Walk_nodecl (ctx ++ [(n, p)]) s body hnodecl
        simp [h1, h2]
termination_by ctx s ns => sizeOf ns
decreasing_by all_goals (simp_wf; try omega)

theorem pass2Walk_clean : ∀ (ctx : List (String × String)) (s : List (String × String))
    (ns : List Node), cleanSerials ns = true → cleanSerials (pass2Walk ctx s ns).1 = true
  | ctx, s, [], _ => by simp [pass2Walk, cleanSerials]
  | ctx, s, .decl p v i :: rest, h => by
      simp only [cleanSerials, Bool.and_eq_true] at h
      simp only [pass2Walk, cleanSerials, Bool.and_eq_true]
      exact ⟨h.1, pass2Walk_clean ctx s rest h.2⟩
  | ctx, s, .atrule n p none :: rest, h => by
      simp only [cleanSerials] at h
      simp only [pass2Walk, cleanSerials]
      exact pass2Walk_clean ctx s rest h
  | ctx, s, .rule sel body :: rest, h => by
      simp only [cleanSerials, Bool.and_eq_true] at h
      simp only [pass2Walk]
      split
      · simp only [cleanSerials, Bool.and_eq_true]
        exact ⟨pass2Walk_clean ctx _ _ (dedupDecls_clean _ s body h.1),
          pass2Walk_clean ctx _ rest h.2⟩
      · exact pass2Walk_clean ctx _ rest h.2
  | ctx, s, .atrule n p (some body) :: rest, h => by
      simp only [cleanSerials, Bool.and_eq_true] at h
      simp only [pass2Walk, cleanSerials, Bool.and_eq_true]
      exact ⟨pass2Walk_clean _ s body h.1, pass2Walk_clean ctx _ rest h.2⟩
termination_by ctx s ns => sizeOf ns
decreasing_by
  all_goals simp_wf
  all_goals try omega
  all_goals have hsz := dedupDecls_sizeOf_le (gkey ctx sel) s body
  all_goals omega

theorem pass2Walk_rhd : ∀ (ctx : List (String × String)) (s : List (String × String))
    (ns : List Node), wfForest ns = true → rulesHaveDecls (pass2Walk ctx s ns).1 = true
  | ctx, s, [], _ => by simp [pass2Walk, rulesHaveDecls]
  | ctx, s, .decl p v i :: rest, h => by
      simp only [wfForest] at h
      simp only [pass2Walk, rulesHaveDecls]
      exact pass2Walk_rhd ctx s rest h
  | ctx, s, .atrule n p none :: rest, h => by
      simp only [wfForest] at h
      simp only [pass2Walk, rulesHaveDecls]
      exact pass2Walk_rhd ctx s rest h
  | ctx, s, .rule sel body :: rest, h => by
      simp only [wfForest, Bool.and_eq_true] at h
      rw [pass2Walk_flat_rule_step ctx s sel body rest h.1]
      split
      · exact pass2Walk_rhd ctx _ rest h.2
      · rename_i hemp
        have hd1 := dedupDecls_all_decls (gkey ctx sel) s body h.1
        simp only [rulesHaveDecls, Bool.and_eq_true]
        refine ⟨⟨?_, rulesHaveDecls_decls _ hd1⟩, pass2Walk_rhd ctx _ rest h.2⟩
        rw [any_isDecl_of_all _ hd1]
        cases hx : (dedupDecls (gkey ctx sel) s body).1.isEmpty
        · simp
        · exact absurd hx hemp
  | ctx, s, .atrule n p (some body) :: rest, h => by
      simp only [wfForest, Bool.and_eq_true] at h
      rw [pass2Walk_container_step ctx s n p body rest]
      simp only [rulesHaveDecls, Bool.and_eq_true]
      refine ⟨?_, pass2Walk_rhd ctx _ rest h.2⟩
      rcases bool_or_elim h.1 with hall | hro
      · have hb := pass2Walk_decls (ctx ++ [(n, p)]) s body hall
        have hb1 : (pass2Walk (ctx ++ [(n, p)]) s body).1 = body := by rw [hb]
        rw [hb1]
        exact rulesHaveDecls_decls body hall
      · exact pass2Walk_rhd (ctx ++ [(n, p)]) s body (bool_and_elim hro).2
termination_by ctx s ns => sizeOf ns
decreasing_by all_goals (simp_wf; try omega)

/-- On a CSS-shaped forest, Pass 2's output has pairwise distinct
`(group key, serial)` pairs, disjoint from the incoming seen map and all
recorded in the outgoing seen map. -/
theorem pass2Walk_wf_groupFresh : ∀ (ctx : List (String × String))
    (s : List (String × String)) (ns : List Node), wfForest ns = true →
    (groupPairs ctx (pass2Walk ctx s ns).1).Nodup
    ∧ (∀ q ∈ groupPairs ctx (pass2Walk ctx s ns).1, q ∉ s)
    ∧ (∀ q ∈ groupPairs ctx (pass2Walk ctx s ns).1, q ∈ (pass2Walk ctx s ns).2)
  | ctx, s, [], _ => by simp [pass2Walk, groupPairs]
  | ctx, s, .decl p v i :: rest, h => by
      simp only [wfForest] at h
      simp only [pass2Walk, groupPairs]
      exact pass2Walk_wf_groupFresh ctx s rest h
  | ctx, s, .atrule n p none :: rest, h => by
      simp only [wfForest] at h
      simp only [pass2Walk, groupPairs]
      exact pass2Walk_wf_groupFresh ctx s rest h
  | ctx, s, .rule sel body :: rest, h => by
      simp only [wfForest, Bool.and_eq_true] at h
      rw [pass2Walk_flat_rule_step ctx s sel body rest h.1]
      obtain ⟨dnd, dmem⟩ := dedupDecls_serials (gkey ctx sel) s body
      split
      · obtain ⟨rnd, rfr, rsn⟩ := pass2Walk_wf_groupFresh ctx
          (dedupDecls (gkey ctx sel) s body).2 rest h.2
        exact ⟨rnd, fun q hq hqs => (rfr q hq) (dedupDecls_seen_mono _ s body q hqs), rsn⟩
      · obtain ⟨rnd, rfr, rsn⟩ := pass2Walk_wf_groupFresh ctx
          (dedupDecls (gkey ctx sel) s body).2 rest h.2
        have hd1 := dedupDecls_all_decls (gkey ctx sel) s body h.1
        refine ⟨?_, ?_, ?_⟩
        · simp only [groupPairs, groupPairs_decls ctx _ hd1, List.nil_append]
          rw [List.nodup_append]
          refine ⟨List.Nodup.map (fun a b hab => congrArg Prod.snd hab) dnd, rnd, ?_⟩
          intro q hq1 hq2
          obtain ⟨t, ht, rfl⟩ := List.mem_map.mp hq1
          exact (rfr _ hq2) (dmem t ht).2
        · intro q hq
          simp only [groupPairs, groupPairs_decls ctx _ hd1, List.nil_append,
            List.mem_append] at hq
          rcases hq with hq | hq
          · obtain ⟨t, ht, rfl⟩ := List.mem_map.mp hq
            exact (dmem t ht).1
          · exact fun hqs => (rfr q hq) (dedupDecls_seen_mono _ s body q hqs)
        · intro q hq
          simp only [groupPairs, groupPairs_decls ctx _ hd1, List.nil_append,
            List.mem_append] at hq
          rcases hq with hq | hq
          · obtain ⟨t, ht, rfl⟩ := List.mem_map.mp hq
            exact pass2Walk_seen_mono ctx _ rest _ (dmem t ht).2
          · exact rsn q hq
  | ctx, s, .atrule n p (some body) :: rest, h => by
      simp only [wfForest, Bool.and_eq_true] at h
      rw [pass2Walk_container_step ctx s n p body rest]
      rcases bool_or_elim h.1 with hall | hro
      · have hb := pass2Walk_decls (ctx ++ [(n, p)]) s body hall
        have hb1 : (pass2Walk (ctx ++ [(n, p)]) s body).1 = body := by rw [hb]
        have hb2 : (pass2Walk (ctx ++ [(n, p)]) s body).2 = s := by rw [hb]
        rw [hb1, hb2]
        obtain ⟨rnd, rfr, rsn⟩ := pass2Walk_wf_groupFresh ctx s rest h.2
        refine ⟨?_, ?_, ?_⟩
        · simp only [groupPairs]
          rw [groupPairs_decls _ body hall, List.nil_append]
          exact rnd
        · intro q hq
          simp only [groupPairs] at hq
          rw [groupPairs_decls _ body hall, List.nil_append] at hq
          exact rfr q hq
        · intro q hq
          simp only [groupPairs] at hq
          rw [groupPairs_decls _ body hall, List.nil_append] at hq
          exact rsn q hq
      · obtain ⟨hnodecl, hwfb⟩ := bool_and_elim hro
        obtain ⟨bnd, bfr, bsn⟩ := pass2Walk_wf_groupFresh (ctx ++ [(n, p)]) s body hwfb
        obtain ⟨rnd, rfr, rsn⟩ := pass2Walk_wf_groupFresh ctx
          (pass2Walk (ctx ++ [(n, p)]) s body).2 rest h.2
        refine ⟨?_, ?_, ?_⟩
        · simp only [groupPairs]
          rw [List.nodup_append]
          exact ⟨bnd, rnd, fun q hqb hqr => (rfr q hqr) (bsn q hqb)⟩
        · intro q hq
          simp only [groupPairs, List.mem_append] at hq
          rcases hq with hq | hq
          · exact bfr q hq
          · exact fun hqs => (rfr q hq) (pass2Walk_seen_mono _ s body q hqs)
        · intro q hq
          simp only [groupPairs, List.mem_append] at hq
          rcases hq with hq | hq
          · exact pass2Walk_seen_mono ctx _ rest q (bsn q hq)
          · exact rsn q hq
termination_by ctx s ns => sizeOf ns
decreasing_by all_goals (simp_wf; try omega)

/-- On a CSS-shaped forest with clean serials and pairwise distinct
eligible fingerprints, Pass 2's output again has pairwise distinct
fingerprints: declaration-only at-rules keep their fingerprints verbatim,
and every surviving rule fingerprint is a `ruleFp` over a nonempty, clean
serial list whose group pairs are fresh for the incoming seen map and
recorded in the outgoing one. -/
theorem pass2Walk_wf_fpfresh : ∀ (ctx : List (String × String))
    (s : List (String × String)) (ns : List Node),
    wfForest ns = true → cleanSerials ns = true → (fpList ctx ns).Nodup →
    (fpList ctx (pass2Walk ctx s ns).1).Nodup
    ∧ atrFps ctx (pass2Walk ctx s ns).1 = atrFps ctx ns
    ∧ (∀ f ∈ fpList ctx (pass2Walk ctx s ns).1,
        f ∈ atrFps ctx ns ∨
        ∃ gk l, f = ruleFp gk l ∧ l ≠ [] ∧ (∀ t ∈ l, cleanSerial t = true) ∧
          (∀ t ∈ l, (gk, t) ∈ (pass2Walk ctx s ns).2 ∧ (gk, t) ∉ s))
  | ctx, s, [], _, _, _ => by simp [pass2Walk, fpList, atrFps]
  | ctx, s, .decl p v i :: rest, hwf, hcl, hnd => by
      simp only [wfForest] at hwf
      simp only [cleanSerials, Bool.and_eq_true] at hcl
      simp only [fpList] at hnd
      simp only [pass2Walk, fpList, atrFps]
      exact pass2Walk_wf_fpfresh ctx s rest hwf hcl.2 hnd
  | ctx, s, .atrule n p none :: rest, hwf, hcl, hnd => by
      simp only [wfForest] at hwf
      simp only [cleanSerials] at hcl
      simp only [fpList] at hnd
      simp only [pass2Walk, fpList, atrFps]
      exact pass2Walk_wf_fpfresh ctx s rest hwf hcl hnd
  | ctx, s, .rule sel body :: rest, hwf, hcl, hnd => by
      simp only [wfForest, Bool.and_eq_true] at hwf
      simp only [cleanSerials, Bool.and_eq_true] at hcl
      simp only [fpList, fpList_decls ctx body hwf.1, List.nil_append,
        List.nodup_cons] at hnd
      rw [pass2Walk_flat_rule_step ctx s sel body rest hwf.1]
      obtain ⟨dnd, dmem⟩ := dedupDecls_serials (gkey ctx sel) s body
      split
      · obtain ⟨rnd, ratr, rchar⟩ := pass2Walk_wf_fpfresh ctx
          (dedupDecls (gkey ctx sel) s body).2 rest hwf.2 hcl.2 hnd.2
        refine ⟨rnd, ?_, ?_⟩
        · rw [ratr]
          simp only [atrFps, atrFps_decls ctx body hwf.1, List.nil_append]
        · intro f hf
          rcases rchar f hf with hfa | ⟨gk2, l2, hfp2, hlne2, hlcl2, hlp2⟩
          · left
            simp only [atrFps, atrFps_decls ctx body hwf.1, List.nil_append]
            exact hfa
          · right
            exact ⟨gk2, l2, hfp2, hlne2, hlcl2, fun t ht =>
              ⟨(hlp2 t ht).1, fun hc => (hlp2 t ht).2 (dedupDecls_seen_mono _ s body _ hc)⟩⟩
      · rename_i hemp
        obtain ⟨rnd, ratr, rchar⟩ := pass2Walk_wf_fpfresh ctx
          (dedupDecls (gkey ctx sel) s body).2 rest hwf.2 hcl.2 hnd.2
        have hd1 := dedupDecls_all_decls (gkey ctx sel) s body hwf.1
        have hl_ne : declSerials (dedupDecls (gkey ctx sel) s body).1 ≠ [] := by
          apply declSerials_ne_nil
          rw [any_isDecl_of_all _ hd1]
          cases hx : (dedupDecls (gkey ctx sel) s body).1.isEmpty
          · simp
          · exact absurd hx hemp
        have hl_cl : ∀ t ∈ declSerials (dedupDecls (gkey ctx sel) s body).1,
            cleanSerial t = true :=
          cleanSerials_declSerials _ (dedupDecls_clean _ s body hcl.1)
        have hfp' : fingerprintRule ctx sel (dedupDecls (gkey ctx sel) s body).1
            = ruleFp (gkey ctx sel) (declSerials (dedupDecls (gkey ctx sel) s body).1) :=
          fingerprintRule_eq_ruleFp ctx sel _
        refine ⟨?_, ?_, ?_⟩
        · simp only [fpList, fpList_decls ctx _ hd1, List.nil_append, List.nodup_cons]
          refine ⟨?_, rnd⟩
          intro hcmem
          rcases rchar _ hcmem with hfa | ⟨gk2, l2, hfp2, hlne2, hlcl2, hlp2⟩
          · obtain ⟨c, n', p', b', hshape⟩ := atrFps_shape ctx rest _ hfa
            exact fingerprintAtRule_ne_ruleFp c n' p' b' _ _ (hshape.symm.trans hfp')
          · obtain ⟨hgk, hmemiff⟩ := ruleFp_inj (gkey ctx sel) gk2 _ l2 hl_cl hlcl2
              hl_ne hlne2 (hfp'.symm.trans hfp2)
            obtain ⟨t0, ht0⟩ := List.exists_mem_of_ne_nil _ hl_ne
            have h1 : (gkey ctx sel, t0) ∈ (dedupDecls (gkey ctx sel) s body).2 :=
              (dmem t0 ht0).2
            have h2 : (gk2, t0) ∉ (dedupDecls (gkey ctx sel) s body).2 :=
              (hlp2 t0 ((hmemiff t0).mp ht0)).2
            rw [← hgk] at h2
            exact h2 h1
        · simp only [atrFps, atrFps_decls ctx _ hd1, atrFps_decls ctx body hwf.1,
            List.nil_append]
          exact ratr
        · intro f hf
          simp only [fpList, fpList_decls ctx _ hd1, List.nil_append, List.mem_cons] at hf
          rcases hf with rfl | hf
          · right
            refine ⟨gkey ctx sel, declSerials (dedupDecls (gkey ctx sel) s body).1,
              hfp', hl_ne, hl_cl, fun t ht => ⟨?_, (dmem t ht).1⟩⟩
            exact pass2Walk_seen_mono ctx _ rest _ (dmem t ht).2
          · rcases rchar f hf with hfa | ⟨gk2, l2, hfp2, hlne2, hlcl2, hlp2⟩
            · left
              simp only [atrFps, atrFps_decls ctx body hwf.1, List.nil_append]
              exact hfa
            · right
              exact ⟨gk2, l2, hfp2, hlne2, hlcl2, fun t ht =>
                ⟨(hlp2 t ht).1, fun hc => (hlp2 t ht).2 (dedupDecls_seen_mono _ s body _ hc)⟩⟩
  | ctx, s, .atrule n p (some body) :: rest, hwf, hcl, hnd => by
      simp only [wfForest, Bool.and_eq_true] at hwf
      simp only [cleanSerials, Bool.and_eq_true] at hcl
      rw [pass2Walk_container_step ctx s n p body rest]
      by_cases he : declOnlyEligible (some body) = true
      · have hb' : body.all isDecl = true := by
          simp only [declOnlyEligible, Bool.and_eq_true] at he
          exact he.2
        have hb := pass2Walk_decls (ctx ++ [(n, p)]) s body hb'
        have hb1 : (pass2Walk (ctx ++ [(n, p)]) s body).1 = body := by rw [hb]
        have hb2 : (pass2Walk (ctx ++ [(n, p)]) s body).2 = s := by rw [hb]
        rw [hb1, hb2]
        simp only [fpList, if_pos he, fpList_decls _ body hb', List.nil_append,
          List.nodup_cons] at hnd
        obtain ⟨rnd, ratr, rchar⟩ := pass2Walk_wf_fpfresh ctx s rest hwf.2 hcl.2 hnd.2
        refine ⟨?_, ?_, ?_⟩
        · simp only [fpList, if_pos he, fpList_decls _ body hb', List.nil_append,
            List.nodup_cons]
          refine ⟨?_, rnd⟩
          intro hcmem
          rcases rchar _ hcmem with hfa | ⟨gk2, l2, hfp2, _, _, _⟩
          · exact hnd.1 (atrFps_sub ctx rest _ hfa)
          · exact fingerprintAtRule_ne_ruleFp ctx n p body gk2 l2 hfp2
        · simp only [atrFps, if_pos he, atrFps_decls _ body hb', List.nil_append]
          rw [ratr]
        · intro f hf
          simp only [fpList, if_pos he, fpList_decls _ body hb', List.nil_append,
            List.mem_cons] at hf
          rcases hf with rfl | hf
          · left
            simp only [atrFps, if_pos he, atrFps_decls _ body hb', List.nil_append]
            exact List.mem_cons_self _ _
          · rcases rchar f hf with hfa | ⟨gk2, l2, hfp2, hlne2, hlcl2, hlp2⟩
            · left
              simp only [atrFps, if_pos he, atrFps_decls _ body hb', List.nil_append]
              exact List.mem_cons_of_mem _ hfa
            · right
              exact ⟨gk2, l2, hfp2, hlne2, hlcl2, hlp2⟩
      · have he' : declOnlyEligible (some body) = false := by
          cases hx : declOnlyEligible (some body)
          · rfl
          · exact absurd hx he
        simp only [fpList, he', Bool.false_eq_true, if_false] at hnd
        rw [List.nodup_append] at hnd
        obtain ⟨bnodup, rnodup, hdisj⟩ := hnd
        have hwfb : wfForest body = true := by
          rcases bool_or_elim hwf.1 with hall | hro
          · rw [alldecl_ineligible_nil body hall he']
            simp [wfForest]
          · exact (bool_and_elim hro).2
        have hnodecl' : (pass2Walk (ctx ++ [(n, p)]) s body).1.all
            (fun x => !isDecl x) = true := by
          rcases bool_or_elim hwf.1 with hall | hro
          · rw [alldecl_ineligible_nil body hall he', pass2Walk_nil]
            simp
          · exact pass2Walk_nodecl _ s body (bool_and_elim hro).1
        have heOut : declOnlyEligible (some (pass2Walk (ctx ++ [(n, p)]) s body).1) = false :=
          nodecl_not_eligible _ hnodecl'
        obtain ⟨bnd, batr, bchar⟩ := pass2Walk_wf_fpfresh (ctx ++ [(n, p)]) s body
          hwfb hcl.1 bnodup
        obtain ⟨rnd, ratr, rchar⟩ := pass2Walk_wf_fpfresh ctx
          (pass2Walk (ctx ++ [(n, p)]) s body).2 rest hwf.2 hcl.2 rnodup
        refine ⟨?_, ?_, ?_⟩
        · simp only [fpList, heOut, Bool.false_eq_true, if_false]
          rw [List.nodup_append]
          refine ⟨bnd, rnd, ?_⟩
          intro f hfb hfr
          rcases bchar f hfb with hba | ⟨gk1, l1, hfp1, hlne1, hlcl1, hlp1⟩
          · rcases rchar f hfr with hra | ⟨gk2, l2, hfp2, _, _, _⟩
            · exact hdisj (atrFps_sub _ body f hba) (atrFps_sub ctx rest f hra)
            · obtain ⟨c, n', p', b', hshape⟩ := atrFps_shape _ body f hba
              exact fingerprintAtRule_ne_ruleFp c n' p' b' gk2 l2 (hshape.symm.trans hfp2)
          · rcases rchar f hfr with hra | ⟨gk2, l2, hfp2, hlne2, hlcl2, hlp2⟩
            · obtain ⟨c, n', p', b', hshape⟩ := atrFps_shape ctx rest f hra
              exact fingerprintAtRule_ne_ruleFp c n' p' b' gk1 l1 (hshape.symm.trans hfp1)
            · obtain ⟨hgk, hmemiff⟩ := ruleFp_inj gk1 gk2 l1 l2 hlcl1 hlcl2 hlne1 hlne2
                (hfp1.symm.trans hfp2)
              obtain ⟨t0, ht0⟩ := List.exists_mem_of_ne_nil _ hlne1
              have h1 : (gk1, t0) ∈ (pass2Walk (ctx ++ [(n, p)]) s body).2 :=
                (hlp1 t0 ht0).1
              have h2 : (gk2, t0) ∉ (pass2Walk (ctx ++ [(n, p)]) s body).2 :=
                (hlp2 t0 ((hmemiff t0).mp ht0)).2
              rw [← hgk] at h2
              exact h2 h1
        · simp only [atrFps, heOut, he', Bool.false_eq_true, if_false]
          rw [batr, ratr]
        · intro f hf
          simp only [fpList, heOut, Bool.false_eq_true, if_false, List.mem_append] at hf
          rcases hf with hf | hf
          · rcases bchar f hf with hba | ⟨gk1, l1, hfp1, hlne1, hlcl1, hlp1⟩
            · left
              simp only [atrFps, he', Bool.false_eq_true, if_false, List.mem_append]
              exact Or.inl hba
            · right
              refine ⟨gk1, l1, hfp1, hlne1, hlcl1, fun t ht => ⟨?_, (hlp1 t ht).2⟩⟩
              exact pass2Walk_seen_mono ctx _ rest _ (hlp1 t ht).1
          · rcases rchar f hf with hra | ⟨gk2, l2, hfp2, hlne2, hlcl2, hlp2⟩
            · left
              simp only [atrFps, he', Bool.false_eq_true, if_false, List.mem_append]
              exact Or.inr hra
            · right
              refine ⟨gk2, l2, hfp2, hlne2, hlcl2, fun t ht => ⟨(hlp2 t ht).1, ?_⟩⟩
              exact fun hc => (hlp2 t ht).2 (pass2Walk_seen_mono _ s body _ hc)
termination_by ctx s ns => sizeOf ns
decreasing_by all_goals (simp_wf; try omega)

-- ─── Idempotence machinery: cleanup invariance ──────────────────────

theorem cleanOnce_nodecl : ∀ ns : List Node, ns.all (fun n => !isDecl n) = true →
    (cleanOnce ns).1.all (fun n => !isDecl n) = true
  | [], _ => by simp [cleanOnce]
  | .decl p v i :: rest, h => by simp [List.all_cons, isDecl] at h
  | .rule sel body :: rest, h => by
      simp only [List.all_cons, Bool.and_eq_true] at h
      simp only [cleanOnce, List.all_cons, Bool.and_eq_true]
      exact ⟨by simp [isDecl], cleanOnce_nodecl rest h.2⟩
  | .atrule n p none :: rest, h => by
      simp only [List.all_cons, Bool.and_eq_true] at h
      simp only [cleanOnce, List.all_cons, Bool.and_eq_true]
      exact ⟨by simp [isDecl], cleanOnce_nodecl rest h.2⟩
  | .atrule n p (some body) :: rest, h => by
      simp only [List.all_cons, Bool.and_eq_true] at h
      simp only [cleanOnce]
      split
      · exact cleanOnce_nodecl rest h.2
      · simp only [List.all_cons, Bool.and_eq_true]
        exact ⟨by simp [isDecl], cleanOnce_nodecl rest h.2⟩
termination_by ns => sizeOf ns
decreasing_by all_goals (simp_wf; try omega)

theorem cleanOnce_wf : ∀ ns : List Node, wfForest ns = true →
    wfForest (cleanOnce ns).1 = true
  | [], _ => by simp [cleanOnce, wfForest]
  | .decl p v i :: rest, h => by
      simp only [wfForest] at h
      simp only [cleanOnce, wfForest]
      exact cleanOnce_wf rest h
  | .atrule n p none :: rest, h => by
      simp only [wfForest] at h
      simp only [cleanOnce, wfForest]
      exact cleanOnce_wf rest h
  | .rule sel body :: rest, h => by
      simp only [wfForest, Bool.and_eq_true] at h
      have hb1 : (cleanOnce body).1 = body := by rw [cleanOnce_decls body h.1]
      simp only [cleanOnce, wfForest, Bool.and_eq_true]
      rw [hb1]
      exact ⟨h.1, cleanOnce_wf rest h.2⟩
  | .atrule n p (some body) :: rest, h => by
      simp only [wfForest, Bool.and_eq_true] at h
      simp only [cleanOnce]
      split
      · exact cleanOnce_wf rest h.2
      · simp only [wfForest, Bool.and_eq_true]
        refine ⟨?_, cleanOnce_wf rest h.2⟩
        rcases bool_or_elim h.1 with hall | hro
        · have hb1 : (cleanOnce body).1 = body := by rw [cleanOnce_decls body hall]
          rw [hb1]
          simp [hall]
        · obtain ⟨hnodecl, hwfb⟩ := bool_and_elim hro
          have h1 := cleanOnce_wf body hwfb
          have h2 := cleanOnce_nodecl body hnodecl
          simp [h1, h2]
termination_by ns => sizeOf ns
decreasing_by all_goals (simp_wf; try omega)

theorem cleanOnce_clean : ∀ ns : List Node, cleanSerials ns = true →
    cleanSerials (cleanOnce ns).1 = true
  | [], _ => by simp [cleanOnce, cleanSerials]
  | .decl p v i :: rest, h => by
      simp only [cleanSerials, Bool.and_eq_true] at h
      simp only [cleanOnce, cleanSerials, Bool.and_eq_true]
      exact ⟨h.1, cleanOnce_clean rest h.2⟩
  | .rule sel body :: rest, h => by
      simp only [cleanSerials, Bool.and_eq_true] at h
      simp only [cleanOnce, cleanSerials, Bool.and_eq_true]
      exact ⟨cleanOnce_clean body h.1, cleanOnce_clean rest h.2⟩
  | .atrule n p none :: rest, h => by
      simp only [cleanSerials] at h
      simp only [cleanOnce, cleanSerials]
      exact cleanOnce_clean rest h
  | .atrule n p (some body) :: rest, h => by
      simp only [cleanSerials, Bool.and_eq_true] at h
      simp only [cleanOnce]
      split
      · exact cleanOnce_clean rest h.2
      · simp only [cleanSerials, Bool.and_eq_true]
        exact ⟨cleanOnce_clean body h.1, cleanOnce_clean rest h.2⟩
termination_by ns => sizeOf ns
decreasing_by all_goals (simp_wf; try omega)

theorem cleanOnce_fp : ∀ (ctx : List (String × String)) (ns : List Node),
    wfForest ns = true → fpList ctx (cleanOnce ns).1 = fpList ctx ns
  | ctx, [], _ => by simp [cleanOnce]
  | ctx, .decl p v i :: rest, h => by
      simp only [wfForest] at h
      simp only [cleanOnce, fpList]
      exact cleanOnce_fp ctx rest h
  | ctx, .atrule n p none :: rest, h => by
      simp only [wfForest] at h
      simp only [cleanOnce, fpList]
      exact cleanOnce_fp ctx rest h
  | ctx, .rule sel body :: rest, h => by
      simp only [wfForest, Bool.and_eq_true] at h
      have hb1 : (cleanOnce body).1 = body := by rw [cleanOnce_decls body h.1]
      simp only [cleanOnce, fpList]
      rw [hb1, cleanOnce_fp ctx rest h.2]
  | ctx, .atrule n p (some body) :: rest, h => by
      simp only [wfForest, Bool.and_eq_true] at h
      simp only [cleanOnce]
      split
      · rename_i hempty
        have hnil : body = [] := List.isEmpty_iff.mp hempty
        subst hnil
        have he : declOnlyEligible (some ([] : List Node)) = false := by
          simp [declOnlyEligible]
        simp only [fpList, he, Bool.false_eq_true, if_false, List.nil_append]
        exact cleanOnce_fp ctx rest h.2
      · rcases bool_or_elim h.1 with hall | hro
        · have hb1 : (cleanOnce body).1 = body := by rw [cleanOnce_decls body hall]
          rw [hb1]
          simp only [fpList]
          split
          · rw [cleanOnce_fp ctx rest h.2]
          · rw [cleanOnce_fp ctx rest h.2]
        · obtain ⟨hnodecl, hwfb⟩ := bool_and_elim hro
          have heIn : declOnlyEligible (some body) = false := nodecl_not_eligible body hnodecl
          have heOut : declOnlyEligible (some (cleanOnce body).1) = false :=
            nodecl_not_eligible _ (cleanOnce_nodecl body hnodecl)
          simp only [fpList, heIn, heOut, Bool.false_eq_true, if_false]
          rw [cleanOnce_fp _ body hwfb, cleanOnce_fp ctx rest h.2]
termination_by ctx ns => sizeOf ns
decreasing_by all_goals (simp_wf; try omega)

theorem cleanOnce_gp : ∀ (ctx : List (String × String)) (ns : List Node),
    wfForest ns = true → groupPairs ctx (cleanOnce ns).1 = groupPairs ctx ns
  | ctx, [], _ => by simp [cleanOnce]
  | ctx, .decl p v i :: rest, h => by
      simp only [wfForest] at h
      simp only [cleanOnce, groupPairs]
      exact cleanOnce_gp ctx rest h
  | ctx, .atrule n p none :: rest, h => by
      simp only [wfForest] at h
      simp only [cleanOnce, groupPairs]
      exact cleanOnce_gp ctx rest h
  | ctx, .rule sel body :: rest, h => by
      simp only [wfForest, Bool.and_eq_true] at h
      have hb1 : (cleanOnce body).1 = body := by rw [cleanOnce_decls body h.1]
      simp only [cleanOnce, groupPairs]
      rw [hb1, cleanOnce_gp ctx rest h.2]
  | ctx, .atrule n p (some body) :: rest, h => by
      simp only [wfForest, Bool.and_eq_true] at h
      simp only [cleanOnce]
      split
      · rename_i hempty
        have hnil : body = [] := List.isEmpty_iff.mp hempty
        subst hnil
        simp only [groupPairs, List.nil_append]
        exact cleanOnce_gp ctx rest h.2
      · rcases bool_or_elim h.1 with hall | hro
        · have hb1 : (cleanOnce body).1 = body := by rw [cleanOnce_decls body hall]
          rw [hb1]
          simp only [groupPairs]
          rw [cleanOnce_gp ctx rest h.2]
        · obtain ⟨hnodecl, hwfb⟩ := bool_and_elim hro
          simp only [groupPairs]
          rw [cleanOnce_gp _ body hwfb, cleanOnce_gp ctx rest h.2]
termination_by ctx ns => sizeOf ns
decreasing_by all_goals (simp_wf; try omega)

theorem cleanOnce_rhd : ∀ ns : List Node, wfForest ns = true →
    rulesHaveDecls ns = true → rulesHaveDecls (cleanOnce ns).1 = true
  | [], _, _ => by simp [cleanOnce, rulesHaveDecls]
  | .decl p v i :: rest, hw, h => by
      simp only [wfForest] at hw
      simp only [rulesHaveDecls] at h
      simp only [cleanOnce, rulesHaveDecls]
      exact cleanOnce_rhd rest hw h
  | .atrule n p none :: rest, hw, h => by
      simp only [wfForest] at hw
      simp only [rulesHaveDecls] at h
      simp only [cleanOnce, rulesHaveDecls]
      exact cleanOnce_rhd rest hw h
  | .rule sel body :: rest, hw, h => by
      simp only [wfForest, Bool.and_eq_true] at hw
      simp only [rulesHaveDecls, Bool.and_eq_true] at h
      have hb1 : (cleanOnce body).1 = body := by rw [cleanOnce_decls body hw.1]
      simp only [cleanOnce, rulesHaveDecls, Bool.and_eq_true]
      rw [hb1]
      exact ⟨h.1, cleanOnce_rhd rest hw.2 h.2⟩
  | .atrule n p (some body) :: rest, hw, h => by
      simp only [wfForest, Bool.and_eq_true] at hw
      simp only [rulesHaveDecls, Bool.and_eq_true] at h
      simp only [cleanOnce]
      split
      · exact cleanOnce_rhd rest hw.2 h.2
      · simp only [rulesHaveDecls, Bool.and_eq_true]
        refine ⟨?_, cleanOnce_rhd rest hw.2 h.2⟩
        rcases bool_or_elim hw.1 with hall | hro
        · have hb1 : (cleanOnce body).1 = body := by rw [cleanOnce_decls body hall]
          rw [hb1]
          exact h.1
        · obtain ⟨hnodecl, hwfb⟩ := bool_and_elim hro
          exact cleanOnce_rhd body hwfb h.1
termination_by ns => sizeOf ns
decreasing_by all_goals (simp_wf; try omega)

/-- The full cleanup loop preserves shape, clean serials, the eligible
fingerprint list, the group pairs, and the rules-have-declarations
invariant, on CSS-shaped forests. -/
theorem cleanupFuel_inv : ∀ (fuel : Nat) (ctx : List (String × String)) (ns : List Node),
    wfForest ns = true → cleanSerials ns = true →
    wfForest (cleanupFuel fuel ns) = true
    ∧ cleanSerials (cleanupFuel fuel ns) = true
    ∧ fpList ctx (cleanupFuel fuel ns) = fpList ctx ns
    ∧ groupPairs ctx (cleanupFuel fuel ns) = groupPairs ctx ns
    ∧ (rulesHaveDecls ns = true → rulesHaveDecls (cleanupFuel fuel ns) = true)
  | 0, ctx, ns, hwf, hcl => by
      simp [cleanupFuel, hwf, hcl]
  | Nat.succ f, ctx, ns, hwf, hcl => by
      simp only [cleanupFuel]
      split
      · obtain ⟨w, c, fp, gp, rh⟩ := cleanupFuel_inv f ctx (cleanOnce ns).1
          (cleanOnce_wf ns hwf) (cleanOnce_clean ns hcl)
        exact ⟨w, c, fp.trans (cleanOnce_fp ctx ns hwf), gp.trans (cleanOnce_gp ctx ns hwf),
          fun h => rh (cleanOnce_rhd ns hwf h)⟩
      · exact ⟨cleanOnce_wf ns hwf, cleanOnce_clean ns hcl, cleanOnce_fp ctx ns hwf,
          cleanOnce_gp ctx ns hwf, cleanOnce_rhd ns hwf⟩

-- ─── Claim C1 ───────────────────────────────────────────────────────

/-- C1 (amended): among N exact duplicates of a flat eligible node
(a Rule or a declaration-only at-rule with only declaration children),
Pass 1 removes the N−1 later copies — the tree walks exactly as if they
were absent — and keeps the first copy in its original position relative
to surviving siblings whenever its fingerprint has not been seen before.
The full pipeline gives no such guarantee: Pass 2 may still shrink or
delete the surviving copy (see the counterexample). -/
theorem pass1_first_occurrence_stability :
    (∀ (ctx : List (String × String)) (s : List String) (d : Node) (fp : String)
        (l0 : List Node) (ls : List (List Node)),
        flatEligible d = true → fingerprintOf ctx d = some fp →
        pass1Walk ctx s (l0 ++ d :: (ls.map (fun li => li ++ [d])).flatten)
          = pass1Walk ctx s (l0 ++ d :: ls.flatten))
    ∧ (∀ (ctx : List (String × String)) (s : List String) (d : Node) (fp : String)
        (l0 rest : List Node),
        flatEligible d = true → fingerprintOf ctx d = some fp →
        fp ∉ (pass1Walk ctx s l0).2 →
        (pass1Walk ctx s (l0 ++ d :: rest)).1
          = (pass1Walk ctx s l0).1 ++ d ::
            (pass1Walk ctx (fp :: (pass1Walk ctx s l0).2) rest).1) := by
  constructor
  · intro ctx s d fp l0 ls hflat hfp
    have drop : ∀ (tl : List (List Node)) (s2 : List String), fp ∈ s2 →
        pass1Walk ctx s2 ((tl.map (fun li => li ++ [d])).flatten)
          = pass1Walk ctx s2 tl.flatten := by
      intro tl
      induction tl with
      | nil => intro s2 _; rfl
      | cons li tl2 ih =>
          intro s2 hs2
          simp only [List.map_cons, List.flatten_cons]
          rw [List.append_assoc li [d] _, List.singleton_append]
          rw [pass1Walk_append ctx s2 li
            (d :: (tl2.map (fun li => li ++ [d])).flatten)]
          rw [pass1Walk_append ctx s2 li tl2.flatten]
          have hmem : fp ∈ (pass1Walk ctx s2 li).2 :=
            pass1Walk_seen_mono _ _ _ _ hs2
          rw [pass1Walk_flat_step ctx _ d fp _ hflat hfp, if_pos hmem]
          rw [ih _ hmem]
    have key : ∀ s2 : List String,
        pass1Walk ctx s2 (d :: (ls.map (fun li => li ++ [d])).flatten)
          = pass1Walk ctx s2 (d :: ls.flatten) := by
      intro s2
      rw [pass1Walk_flat_step ctx s2 d fp _ hflat hfp,
        pass1Walk_flat_step ctx s2 d fp _ hflat hfp]
      by_cases hmem : fp ∈ s2
      · rw [if_pos hmem, if_pos hmem, drop ls s2 hmem]
      · rw [if_neg hmem, if_neg hmem, drop ls (fp :: s2) (List.mem_cons_self _ _)]
    rw [pass1Walk_append ctx s l0 (d :: (ls.map (fun li => li ++ [d])).flatten),
      pass1Walk_append ctx s l0 (d :: ls.flatten),
      key (pass1Walk ctx s l0).2]
  · intro ctx s d fp l0 rest hflat hfp hfresh
    rw [pass1Walk_append ctx s l0 (d :: rest)]
    rw [pass1Walk_flat_step ctx _ d fp rest hflat hfp, if_neg hfresh]

/-- Witness for C1 (amended): two copies of `.x {k:v}` separated by
`.y {m:n}` — Pass 1 behaves as if the second copy were absent, and the
first copy is kept in place. -/
theorem pass1_first_occurrence_stability_witness :
    pass1Walk [] [] ([] ++ Node.rule ".x" [Node.decl "k" "v" false] ::
        ([[Node.rule ".y" [Node.decl "m" "n" false]]].map
          (fun li => li ++ [Node.rule ".x" [Node.decl "k" "v" false]])).flatten)
      = pass1Walk [] [] ([] ++ Node.rule ".x" [Node.decl "k" "v" false] ::
        [[Node.rule ".y" [Node.decl "m" "n" false]]].flatten)
    ∧ (pass1Walk [] [] ([] ++ Node.rule ".x" [Node.decl "k" "v" false] ::
         [Node.rule ".y" [Node.decl "m" "n" false]])).1
      = (pass1Walk [] [] ([] : List Node)).1 ++ Node.rule ".x" [Node.decl "k" "v" false] ::
        (pass1Walk [] ("rule||.x|k:v" :: (pass1Walk [] [] ([] : List Node)).2)
          [Node.rule ".y" [Node.decl "m" "n" false]]).1 :=
  ⟨pass1_first_occurrence_stability.1 [] []
      (Node.rule ".x" [Node.decl "k" "v" false]) "rule||.x|k:v" []
      [[Node.rule ".y" [Node.decl "m" "n" false]]] (by decide) rfl,
   pass1_first_occurrence_stability.2 [] []
      (Node.rule ".x" [Node.decl "k" "v" false]) "rule||.x|k:v" []
      [Node.rule ".y" [Node.decl "m" "n" false]] (by decide) rfl
      (by rw [pass1Walk_nil]; exact List.not_mem_nil _)⟩

/-- Counterexample to C1 as stated: among the two exact duplicates
`.a {c:d}` (second and third siblings), the full pipeline keeps neither —
Pass 1 removes the later copy, but Pass 2 then strips `c:d` (already seen
in `.a {c:d; e:f}`) from the first copy and deletes the emptied rule, so
the first duplicate does not remain. -/
theorem dedup_duplicate_first_removed_cx :
    dedupForest [Node.rule ".a" [Node.decl "c" "d" false, Node.decl "e" "f" false],
        Node.rule ".a" [Node.decl "c" "d" false],
        Node.rule ".a" [Node.decl "c" "d" false]]
      = [Node.rule ".a" [Node.decl "c" "d" false, Node.decl "e" "f" false]]
    ∧ Node.rule ".a" [Node.decl "c" "d" false]
        ∉ dedupForest [Node.rule ".a" [Node.decl "c" "d" false, Node.decl "e" "f" false],
            Node.rule ".a" [Node.decl "c" "d" false],
            Node.rule ".a" [Node.decl "c" "d" false]] := by
  have h1 : pass1Forest [Node.rule ".a" [Node.decl "c" "d" false, Node.decl "e" "f" false],
        Node.rule ".a" [Node.decl "c" "d" false],
        Node.rule ".a" [Node.decl "c" "d" false]]
      = [Node.rule ".a" [Node.decl "c" "d" false, Node.decl "e" "f" false],
         Node.rule ".a" [Node.decl "c" "d" false]] := by
    unfold pass1Forest
    have hfp1 : fingerprintOf []
        (Node.rule ".a" [Node.decl "c" "d" false, Node.decl "e" "f" false])
        = some "rule||.a|c:d;e:f" := by
      simp only [fingerprintOf, fingerprintRule, ctxString, serializeDeclarations,
        declSerials, serializeDecl, List.insertionSort, List.orderedInsert,
        List.map_nil, List.map_cons, String.reduceAppend, String.intercalate,
        String.intercalate.go, String.reduceLE, reduceIte, Bool.false_eq_true,
        if_false, if_true, ite_true, ite_false]
    rw [pass1Walk_flat_step [] []
        (Node.rule ".a" [Node.decl "c" "d" false, Node.decl "e" "f" false])
        "rule||.a|c:d;e:f"
        [Node.rule ".a" [Node.decl "c" "d" false], Node.rule ".a" [Node.decl "c" "d" false]]
        (by decide) hfp1,
      if_neg (List.not_mem_nil _)]
    rw [pass1Walk_flat_step [] ["rule||.a|c:d;e:f"]
        (Node.rule ".a" [Node.decl "c" "d" false]) "rule||.a|c:d"
        [Node.rule ".a" [Node.decl "c" "d" false]] (by decide) rfl,
      if_neg (by decide)]
    rw [pass1Walk_flat_step [] ["rule||.a|c:d", "rule||.a|c:d;e:f"]
        (Node.rule ".a" [Node.decl "c" "d" false]) "rule||.a|c:d" []
        (by decide) rfl,
      if_pos (by decide), pass1Walk_nil]
  have e1 : dedupDecls (gkey [] ".a") []
        [Node.decl "c" "d" false, Node.decl "e" "f" false]
      = ([Node.decl "c" "d" false, Node.decl "e" "f" false],
         [("|.a", "e:f"), ("|.a", "c:d")]) := rfl
  have e2 : dedupDecls (gkey [] ".a") [("|.a", "e:f"), ("|.a", "c:d")]
        [Node.decl "c" "d" false]
      = ([], [("|.a", "e:f"), ("|.a", "c:d")]) := rfl
  have h2 : pass2Forest [Node.rule ".a" [Node.decl "c" "d" false, Node.decl "e" "f" false],
        Node.rule ".a" [Node.decl "c" "d" false]]
      = [Node.rule ".a" [Node.decl "c" "d" false, Node.decl "e" "f" false]] := by
    unfold pass2Forest
    rw [pass2Walk_flat_rule_step [] [] ".a"
        [Node.decl "c" "d" false, Node.decl "e" "f" false]
        [Node.rule ".a" [Node.decl "c" "d" false]] (by decide), e1]
    simp only [List.isEmpty_cons, Bool.false_eq_true, if_false]
    rw [pass2Walk_flat_rule_step [] _ ".a" [Node.decl "c" "d" false] [] (by decide), e2]
    simp only [List.isEmpty_nil, if_true, pass2Walk_nil]
  have hmain : dedupForest [Node.rule ".a" [Node.decl "c" "d" false, Node.decl "e" "f" false],
        Node.rule ".a" [Node.decl "c" "d" false],
        Node.rule ".a" [Node.decl "c" "d" false]]
      = [Node.rule ".a" [Node.decl "c" "d" false, Node.decl "e" "f" false]] := by
    unfold dedupForest
    rw [h1, h2]
    exact removeEmptyAtRules_of_noEmpty _ (by
      simp only [noEmptyAtRules, Bool.and_self, Bool.and_true, Bool.true_and])
  refine ⟨hmain, ?_⟩
  rw [hmain]
  intro hc
  simp only [List.mem_singleton, Node.rule.injEq] at hc
  simp at hc

-- ─── Claim C4: counterexample ───────────────────────────────────────

/-- Counterexample to C4 as stated: `@media x` blocks where the third
holds both a rule and a declaration.  On the first run the at-rule is not
declaration-only, so Pass 1 skips it; Pass 2 then removes its duplicated
rule, leaving it declaration-only.  The second run fingerprints it and
removes it as a duplicate of the second block, so the pipeline is not
idempotent. -/
theorem dedup_not_idempotent_cx :
    dedupForest (dedupForest
        [Node.atrule "media" "x" (some [Node.rule ".s" [Node.decl "c" "d" false]]),
         Node.atrule "media" "x" (some [Node.decl "q" "w" false]),
         Node.atrule "media" "x" (some [Node.rule ".s" [Node.decl "c" "d" false],
           Node.decl "q" "w" false])])
      ≠ dedupForest
        [Node.atrule "media" "x" (some [Node.rule ".s" [Node.decl "c" "d" false]]),
         Node.atrule "media" "x" (some [Node.decl "q" "w" false]),
         Node.atrule "media" "x" (some [Node.rule ".s" [Node.decl "c" "d" false],
           Node.decl "q" "w" false])] := by
  have e1 : pass1Walk [("media", "x")] [] [Node.rule ".s" [Node.decl "c" "d" false]]
      = ([Node.rule ".s" [Node.decl "c" "d" false]], ["rule|media:x|.s|c:d"]) := by
    rw [pass1Walk_flat_step [("media", "x")] []
        (Node.rule ".s" [Node.decl "c" "d" false]) "rule|media:x|.s|c:d" []
        (by decide) rfl,
      if_neg (List.not_mem_nil _), pass1Walk_nil]
  have e2 : pass1Walk [("media", "x")] ["atrule||media:x|q:w", "rule|media:x|.s|c:d"]
        [Node.rule ".s" [Node.decl "c" "d" false], Node.decl "q" "w" false]
      = ([Node.decl "q" "w" false], ["atrule||media:x|q:w", "rule|media:x|.s|c:d"]) := by
    rw [pass1Walk_flat_step [("media", "x")] ["atrule||media:x|q:w", "rule|media:x|.s|c:d"]
        (Node.rule ".s" [Node.decl "c" "d" false]) "rule|media:x|.s|c:d"
        [Node.decl "q" "w" false] (by decide) rfl,
      if_pos (by decide),
      pass1Walk_decls _ _ _ (by decide)]
  have h1 : pass1Forest
        [Node.atrule "media" "x" (some [Node.rule ".s" [Node.decl "c" "d" false]]),
         Node.atrule "media" "x" (some [Node.decl "q" "w" false]),
         Node.atrule "media" "x" (some [Node.rule ".s" [Node.decl "c" "d" false],
           Node.decl "q" "w" false])]
      = [Node.atrule "media" "x" (some [Node.rule ".s" [Node.decl "c" "d" false]]),
         Node.atrule "media" "x" (some [Node.decl "q" "w" false]),
         Node.atrule "media" "x" (some [Node.decl "q" "w" false])] := by
    unfold pass1Forest
    rw [pass1Walk_container_step [] [] "media" "x" _ _ (by decide)]
    simp only [List.nil_append]
    rw [e1]
    rw [pass1Walk_flat_step [] ["rule|media:x|.s|c:d"]
        (Node.atrule "media" "x" (some [Node.decl "q" "w" false])) "atrule||media:x|q:w"
        [Node.atrule "media" "x" (some [Node.rule ".s" [Node.decl "c" "d" false],
          Node.decl "q" "w" false])] (by decide) rfl,
      if_neg (by decide)]
    rw [pass1Walk_container_step [] _ "media" "x" _ _ (by decide)]
    simp only [List.nil_append]
    rw [e2, pass1Walk_nil]
  have h2 : pass2Forest
        [Node.atrule "media" "x" (some [Node.rule ".s" [Node.decl "c" "d" false]]),
         Node.atrule "media" "x" (some [Node.decl "q" "w" false]),
         Node.atrule "media" "x" (some [Node.decl "q" "w" false])]
      = [Node.atrule "media" "x" (some [Node.rule ".s" [Node.decl "c" "d" false]]),
         Node.atrule "media" "x" (some [Node.decl "q" "w" false]),
         Node.atrule "media" "x" (some [Node.decl "q" "w" false])] := by
    unfold pass2Forest
    refine (pass2Walk_fresh [] [] _ ?_ (by simp) ?_).1
    · simp only [groupPairs, declSerials, List.map_nil, List.map_cons,
        List.nil_append, List.cons_append, List.append_nil]
      decide
    · simp only [rulesHaveDecls, List.any_cons, List.any_nil, isDecl,
        Bool.or_false, Bool.false_or, Bool.and_true, Bool.true_and, Bool.and_self]
  have hrun1 : dedupForest
        [Node.atrule "media" "x" (some [Node.rule ".s" [Node.decl "c" "d" false]]),
         Node.atrule "media" "x" (some [Node.decl "q" "w" false]),
         Node.atrule "media" "x" (some [Node.rule ".s" [Node.decl "c" "d" false],
           Node.decl "q" "w" false])]
      = [Node.atrule "media" "x" (some [Node.rule ".s" [Node.decl "c" "d" false]]),
         Node.atrule "media" "x" (some [Node.decl "q" "w" false]),
         Node.atrule "media" "x" (some [Node.decl "q" "w" false])] := by
    unfold dedupForest
    rw [h1, h2]
    exact removeEmptyAtRules_of_noEmpty _ (by
      simp only [noEmptyAtRules, List.isEmpty_cons, Bool.not_false, Bool.and_true,
        Bool.true_and, Bool.and_self])
  have h1' : pass1Forest
        [Node.atrule "media" "x" (some [Node.rule ".s" [Node.decl "c" "d" false]]),
         Node.atrule "media" "x" (some [Node.decl "q" "w" false]),
         Node.atrule "media" "x" (some [Node.decl "q" "w" false])]
      = [Node.atrule "media" "x" (some [Node.rule ".s" [Node.decl "c" "d" false]]),
         Node.atrule "media" "x" (some [Node.decl "q" "w" false])] := by
    unfold pass1Forest
    rw [pass1Walk_container_step [] [] "media" "x" _ _ (by decide)]
    simp only [List.nil_append]
    rw [e1]
    rw [pass1Walk_flat_step [] ["rule|media:x|.s|c:d"]
        (Node.atrule "media" "x" (some [Node.decl "q" "w" false])) "atrule||media:x|q:w"
        [Node.atrule "media" "x" (some [Node.decl "q" "w" false])] (by decide) rfl,
      if_neg (by decide)]
    rw [pass1Walk_flat_step [] ["atrule||media:x|q:w", "rule|media:x|.s|c:d"]
        (Node.atrule "media" "x" (some [Node.decl "q" "w" false])) "atrule||media:x|q:w"
        [] (by decide) rfl,
      if_pos (by decide), pass1Walk_nil]
  have h2' : pass2Forest
        [Node.atrule "media" "x" (some [Node.rule ".s" [Node.decl "c" "d" false]]),
         Node.atrule "media" "x" (some [Node.decl "q" "w" false])]
      = [Node.atrule "media" "x" (some [Node.rule ".s" [Node.decl "c" "d" false]]),
         Node.atrule "media" "x" (some [Node.decl "q" "w" false])] := by
    unfold pass2Forest
    refine (pass2Walk_fresh [] [] _ ?_ (by simp) ?_).1
    · simp only [groupPairs, declSerials, List.map_nil, List.map_cons,
        List.nil_append, List.cons_append, List.append_nil]
      decide
    · simp only [rulesHaveDecls, List.any_cons, List.any_nil, isDecl,
        Bool.or_false, Bool.false_or, Bool.and_true, Bool.true_and, Bool.and_self]
  have hrun2 : dedupForest
        [Node.atrule "media" "x" (some [Node.rule ".s" [Node.decl "c" "d" false]]),
         Node.atrule "media" "x" (some [Node.decl "q" "w" false]),
         Node.atrule "media" "x" (some [Node.decl "q" "w" false])]
      = [Node.atrule "media" "x" (some [Node.rule ".s" [Node.decl "c" "d" false]]),
         Node.atrule "media" "x" (some [Node.decl "q" "w" false])] := by
    unfold dedupForest
    rw [h1', h2']
    exact removeEmptyAtRules_of_noEmpty _ (by
      simp only [noEmptyAtRules, List.isEmpty_cons, Bool.not_false, Bool.and_true,
        Bool.true_and, Bool.and_self])
  rw [hrun1, hrun2]
  simp

/-- C4 (amended): the pipeline is not idempotent on arbitrary trees —
a mixed at-rule holding both a rule and a declaration becomes
declaration-only when Pass 2 removes its duplicated rule, and only the
second run fingerprints and removes it (see the counterexample).  On
CSS-shaped forests — every Rule holds only Declarations, every at-rule
body is declaration-only or declaration-free, and serialized
declarations contain neither `';'` nor `'|'` — a single run reaches a
fixed point: `dedup (dedup t) = dedup t`. -/
theorem dedup_idempotent (ns : List Node)
    (hwf : wfForest ns = true) (hcl : cleanSerials ns = true) :
    dedupForest (dedupForest ns) = dedupForest ns := by
  have hwf1 : wfForest (pass1Forest ns) = true := pass1Walk_wf [] [] ns hwf
  have hcl1 : cleanSerials (pass1Forest ns) = true := pass1Walk_clean [] [] ns hcl
  have hnd1 : (fpList [] (pass1Forest ns)).Nodup := (pass1Walk_wf_fresh [] [] ns hwf).1
  have hwf2 : wfForest (pass2Forest (pass1Forest ns)) = true :=
    pass2Walk_wf [] [] (pass1Forest ns) hwf1
  have hcl2 : cleanSerials (pass2Forest (pass1Forest ns)) = true :=
    pass2Walk_clean [] [] (pass1Forest ns) hcl1
  have hnd2 : (fpList [] (pass2Forest (pass1Forest ns))).Nodup :=
    (pass2Walk_wf_fpfresh [] [] (pass1Forest ns) hwf1 hcl1 hnd1).1
  have hgp2 : (groupPairs [] (pass2Forest (pass1Forest ns))).Nodup :=
    (pass2Walk_wf_groupFresh [] [] (pass1Forest ns) hwf1).1
  have hrh2 : rulesHaveDecls (pass2Forest (pass1Forest ns)) = true :=
    pass2Walk_rhd [] [] (pass1Forest ns) hwf1
  obtain ⟨ow, oc, ofp, ogp, orh⟩ := cleanupFuel_inv
    (lsize (pass2Forest (pass1Forest ns)) + 1) [] (pass2Forest (pass1Forest ns)) hwf2 hcl2
  have hfpo : (fpList [] (dedupForest ns)).Nodup := by
    show (fpList [] (removeEmptyAtRules (pass2Forest (pass1Forest ns)))).Nodup
    unfold removeEmptyAtRules
    rw [ofp]
    exact hnd2
  have hgpo : (groupPairs [] (dedupForest ns)).Nodup := by
    show (groupPairs [] (removeEmptyAtRules (pass2Forest (pass1Forest ns)))).Nodup
    unfold removeEmptyAtRules
    rw [ogp]
    exact hgp2
  have hrho : rulesHaveDecls (dedupForest ns) = true := by
    show rulesHaveDecls (removeEmptyAtRules (pass2Forest (pass1Forest ns))) = true
    unfold removeEmptyAtRules
    exact orh hrh2
  have hne : noEmptyAtRules (dedupForest ns) = true :=
    removeEmptyAtRules_noEmpty (pass2Forest (pass1Forest ns))
  have hp1 : pass1Forest (dedupForest ns) = dedupForest ns :=
    (pass1Walk_fresh [] [] (dedupForest ns) hfpo (by simp)).1
  have hp2 : pass2Forest (dedupForest ns) = dedupForest ns :=
    (pass2Walk_fresh [] [] (dedupForest ns) hgpo (by simp) hrho).1
  show removeEmptyAtRules (pass2Forest (pass1Forest (dedupForest ns))) = dedupForest ns
  rw [hp1, hp2]
  exact removeEmptyAtRules_of_noEmpty _ hne

/-- Witness: a CSS-shaped single-rule document satisfies the shape
hypotheses and the pipeline fixes its own output on it. -/
theorem dedup_idempotent_witness :
    wfForest [Node.rule ".a" [Node.decl "c" "d" false]] = true
    ∧ cleanSerials [Node.rule ".a" [Node.decl "c" "d" false]] = true
    ∧ dedupForest (dedupForest [Node.rule ".a" [Node.decl "c" "d" false]])
        = dedupForest [Node.rule ".a" [Node.decl "c" "d" false]] := by
  have h1 : wfForest [Node.rule ".a" [Node.decl "c" "d" false]] = true := by
    simp only [wfForest]
    decide
  have h2 : cleanSerials [Node.rule ".a" [Node.decl "c" "d" false]] = true := by
    simp only [cleanSerials]
    decide
  exact ⟨h1, h2, dedup_idempotent _ h1 h2⟩

-- ─── Claim C2 ───────────────────────────────────────────────────────

/-- C2 (amended): a Rule with selector `sel` and declarations `b` under
container chain `c1`, and an identical Rule under chain `c2`, both
survive the full pipeline unchanged whenever the serialized context
strings differ; contexts are compared only by exact string equality of
the serialized chain (the `name:params` entries joined with `"|"`), with
no semantic equivalence attempted.  (Distinct chains whose
serializations coincide are conflated — see the counterexample.) -/
theorem dedup_context_sensitivity (c1 c2 : List (String × String)) (sel : String)
    (b : List Node) (hb : b.all isDecl = true) (hne : b ≠ [])
    (hnd : (declSerials b).Nodup) (hctx : ctxString c1 ≠ ctxString c2) :
    dedupForest (nest c1 [Node.rule sel b] ++ nest c2 [Node.rule sel b])
      = nest c1 [Node.rule sel b] ++ nest c2 [Node.rule sel b] := by
  have hflat : ([Node.rule sel b] : List Node).all isDecl = false := by
    simp [isDecl]
  have hfpl : fpList [] (nest c1 [Node.rule sel b] ++ nest c2 [Node.rule sel b])
      = [fingerprintRule c1 sel b, fingerprintRule c2 sel b] := by
    rw [fpList_append, fpList_nest c1 [] _ hflat, fpList_nest c2 [] _ hflat]
    simp [fpList, fpList_decls _ b hb]
  have h1 : pass1Forest (nest c1 [Node.rule sel b] ++ nest c2 [Node.rule sel b])
      = nest c1 [Node.rule sel b] ++ nest c2 [Node.rule sel b] := by
    unfold pass1Forest
    refine (pass1Walk_fresh [] [] _ ?_ (by simp)).1
    rw [hfpl]
    exact List.nodup_cons.mpr
      ⟨by simpa using fingerprintRule_ctx_ne c1 c2 sel b hctx,
       List.nodup_singleton _⟩
  have hgpl : groupPairs [] (nest c1 [Node.rule sel b] ++ nest c2 [Node.rule sel b])
      = (declSerials b).map (fun t => (gkey c1 sel, t))
        ++ (declSerials b).map (fun t => (gkey c2 sel, t)) := by
    rw [groupPairs_append, groupPairs_nest c1 [], groupPairs_nest c2 []]
    simp [groupPairs, groupPairs_decls _ b hb]
  have hany : b.any isDecl = true := by
    rw [any_isDecl_of_all b hb]
    simpa [List.isEmpty_iff] using hne
  have hrhd : rulesHaveDecls (nest c1 [Node.rule sel b] ++ nest c2 [Node.rule sel b])
      = true := by
    rw [rulesHaveDecls_append, rulesHaveDecls_nest c1, rulesHaveDecls_nest c2]
    simp [rulesHaveDecls, hany, rulesHaveDecls_decls b hb]
  have h2 : pass2Forest (nest c1 [Node.rule sel b] ++ nest c2 [Node.rule sel b])
      = nest c1 [Node.rule sel b] ++ nest c2 [Node.rule sel b] := by
    unfold pass2Forest
    refine (pass2Walk_fresh [] [] _ ?_ (by simp) hrhd).1
    rw [hgpl]
    rw [List.nodup_append]
    have hgk : gkey c1 sel ≠ gkey c2 sel := gkey_ctx_ne c1 c2 sel sel hctx rfl
    refine ⟨hnd.map (fun a b h => (Prod.ext_iff.mp h).2),
      hnd.map (fun a b h => (Prod.ext_iff.mp h).2), ?_⟩
    intro q hq1 hq2
    obtain ⟨t1, -, hq1'⟩ := List.mem_map.mp hq1
    obtain ⟨t2, -, hq2'⟩ := List.mem_map.mp hq2
    exact hgk ((Prod.ext_iff.mp hq1').1.trans (Prod.ext_iff.mp hq2').1.symm)
  have h3 : noEmptyAtRules (nest c1 [Node.rule sel b] ++ nest c2 [Node.rule sel b])
      = true := by
    rw [noEmptyAtRules_append]
    have hh : noEmptyAtRules [Node.rule sel b] = true := by
      simp [noEmptyAtRules, noEmptyAtRules_decls b hb]
    rw [noEmptyAtRules_nest c1 _ (List.cons_ne_nil _ _) hh,
      noEmptyAtRules_nest c2 _ (List.cons_ne_nil _ _) hh]
    rfl
  unfold dedupForest
  rw [h1, h2]
  exact removeEmptyAtRules_of_noEmpty _ h3

/-- Witness for C2 (amended): `.a {color:red}` under `@layer base` and
under `@layer utils`. -/
theorem dedup_context_sensitivity_witness :
    dedupForest (nest [("layer", "base")] [Node.rule ".a" [Node.decl "color" "red" false]]
        ++ nest [("layer", "utils")] [Node.rule ".a" [Node.decl "color" "red" false]])
      = nest [("layer", "base")] [Node.rule ".a" [Node.decl "color" "red" false]]
        ++ nest [("layer", "utils")] [Node.rule ".a" [Node.decl "color" "red" false]] :=
  dedup_context_sensitivity [("layer", "base")] [("layer", "utils")] ".a" _
    (by decide) (List.cons_ne_nil _ _) (by decide) (by decide)

/-- Counterexample to C2 as stated: the chains `[@a b|c:d]` and
`[@a b > @c d]` have different name/parameter sequences but serialize to
the same context string `a:b|c:d`, so the second `.s {p:v}` is removed as
a duplicate instead of being kept. -/
theorem dedup_context_string_collision_cx :
    dedupForest [Node.atrule "a" "b|c:d" (some [Node.rule ".s" [Node.decl "p" "v" false]]),
        Node.atrule "a" "b" (some [Node.atrule "c" "d"
          (some [Node.rule ".s" [Node.decl "p" "v" false],
                 Node.rule ".t" [Node.decl "q" "w" false]])])]
      = [Node.atrule "a" "b|c:d" (some [Node.rule ".s" [Node.decl "p" "v" false]]),
         Node.atrule "a" "b" (some [Node.atrule "c" "d"
          (some [Node.rule ".t" [Node.decl "q" "w" false]])])] := by
  have e1 : pass1Walk [("a", "b|c:d")] [] [Node.rule ".s" [Node.decl "p" "v" false]]
      = ([Node.rule ".s" [Node.decl "p" "v" false]], ["rule|a:b|c:d|.s|p:v"]) := by
    rw [pass1Walk_flat_step [("a", "b|c:d")] []
        (Node.rule ".s" [Node.decl "p" "v" false]) "rule|a:b|c:d|.s|p:v" []
        (by decide) rfl,
      if_neg (List.not_mem_nil _), pass1Walk_nil]
  have e2 : pass1Walk [("a", "b"), ("c", "d")] ["rule|a:b|c:d|.s|p:v"]
        [Node.rule ".s" [Node.decl "p" "v" false], Node.rule ".t" [Node.decl "q" "w" false]]
      = ([Node.rule ".t" [Node.decl "q" "w" false]],
         ["rule|a:b|c:d|.t|q:w", "rule|a:b|c:d|.s|p:v"]) := by
    rw [pass1Walk_flat_step [("a", "b"), ("c", "d")] ["rule|a:b|c:d|.s|p:v"]
        (Node.rule ".s" [Node.decl "p" "v" false]) "rule|a:b|c:d|.s|p:v"
        [Node.rule ".t" [Node.decl "q" "w" false]] (by decide) rfl,
      if_pos (by decide)]
    rw [pass1Walk_flat_step [("a", "b"), ("c", "d")] ["rule|a:b|c:d|.s|p:v"]
        (Node.rule ".t" [Node.decl "q" "w" false]) "rule|a:b|c:d|.t|q:w" []
        (by decide) rfl,
      if_neg (by decide), pass1Walk_nil]
  have e3 : pass1Walk [("a", "b")] ["rule|a:b|c:d|.s|p:v"]
        [Node.atrule "c" "d" (some [Node.rule ".s" [Node.decl "p" "v" false],
          Node.rule ".t" [Node.decl "q" "w" false]])]
      = ([Node.atrule "c" "d" (some [Node.rule ".t" [Node.decl "q" "w" false]])],
         ["rule|a:b|c:d|.t|q:w", "rule|a:b|c:d|.s|p:v"]) := by
    rw [pass1Walk_container_step _ _ "c" "d" _ _ (by decide)]
    simp only [List.cons_append, List.nil_append]
    rw [e2, pass1Walk_nil]
  have h1 : pass1Forest [Node.atrule "a" "b|c:d"
          (some [Node.rule ".s" [Node.decl "p" "v" false]]),
        Node.atrule "a" "b" (some [Node.atrule "c" "d"
          (some [Node.rule ".s" [Node.decl "p" "v" false],
                 Node.rule ".t" [Node.decl "q" "w" false]])])]
      = [Node.atrule "a" "b|c:d" (some [Node.rule ".s" [Node.decl "p" "v" false]]),
         Node.atrule "a" "b" (some [Node.atrule "c" "d"
          (some [Node.rule ".t" [Node.decl "q" "w" false]])])] := by
    unfold pass1Forest
    rw [pass1Walk_container_step [] [] "a" "b|c:d" _ _ (by decide)]
    simp only [List.nil_append]
    rw [e1]
    rw [pass1Walk_container_step [] _ "a" "b" _ _ (by decide)]
    simp only [List.nil_append]
    rw [e3, pass1Walk_nil]
  have hgp : groupPairs [] [Node.atrule "a" "b|c:d"
          (some [Node.rule ".s" [Node.decl "p" "v" false]]),
        Node.atrule "a" "b" (some [Node.atrule "c" "d"
          (some [Node.rule ".t" [Node.decl "q" "w" false]])])]
      = [("a:b|c:d|.s", "p:v"), ("a:b|c:d|.t", "q:w")] := by
    simp only [groupPairs, declSerials, serializeDecl, gkey, ctxString,
      List.map_nil, List.map_cons, List.nil_append, List.cons_append, List.append_nil,
      String.reduceAppend, String.intercalate, String.intercalate.go,
      Bool.false_eq_true, if_false, if_true, ite_true, ite_false]
  have h2 : pass2Forest [Node.atrule "a" "b|c:d"
          (some [Node.rule ".s" [Node.decl "p" "v" false]]),
        Node.atrule "a" "b" (some [Node.atrule "c" "d"
          (some [Node.rule ".t" [Node.decl "q" "w" false]])])]
      = [Node.atrule "a" "b|c:d" (some [Node.rule ".s" [Node.decl "p" "v" false]]),
         Node.atrule "a" "b" (some [Node.atrule "c" "d"
          (some [Node.rule ".t" [Node.decl "q" "w" false]])])] := by
    unfold pass2Forest
    refine (pass2Walk_fresh [] [] _ ?_ (by simp) ?_).1
    · rw [hgp]; decide
    · simp only [rulesHaveDecls, List.any_cons, List.any_nil, isDecl,
        Bool.or_false, Bool.false_or, Bool.and_true, Bool.true_and, Bool.and_self]
  unfold dedupForest
  rw [h1, h2]
  exact removeEmptyAtRules_of_noEmpty _ (by
    simp only [noEmptyAtRules, List.isEmpty_cons, Bool.not_false, Bool.and_true,
      Bool.true_and, Bool.and_self])

-- ─── Claim C3 ───────────────────────────────────────────────────────

/-- C3: the Pass-1 fingerprint of a Rule is invariant under any
permutation of its direct-child declaration multiset — for any two Rules
with the same context and selector whose `(property, value, important)`
multisets agree, the fingerprints are equal (only direct children
contribute; nested nodes are ignored by the fingerprint), and Pass 1
removes the later of the two as an exact duplicate wherever the two
occur among siblings, leaving the rest of the traversal unchanged. -/
theorem pass1_fingerprint_multiset_invariant :
    (∀ (ctx : List (String × String)) (sel : String) (b1 b2 : List Node),
      (declTriples b1).Perm (declTriples b2) →
      fingerprintRule ctx sel b1 = fingerprintRule ctx sel b2)
    ∧ (∀ (ctx : List (String × String)) (s : List String)
        (pre mid post : List Node) (sel : String) (b1 b2 : List Node),
        b2.all isDecl = true →
        (declTriples b1).Perm (declTriples b2) →
        pass1Walk ctx s (pre ++ Node.rule sel b1 :: (mid ++ Node.rule sel b2 :: post))
          = pass1Walk ctx s (pre ++ Node.rule sel b1 :: (mid ++ post))) := by
  constructor
  · intro ctx sel b1 b2 h
    unfold fingerprintRule
    rw [serializeDeclarations_perm b1 b2 h]
  · intro ctx s pre mid post sel b1 b2 hb2 hperm
    have hfp : fingerprintRule ctx sel b2 = fingerprintRule ctx sel b1 := by
      unfold fingerprintRule
      rw [serializeDeclarations_perm b2 b1 hperm.symm]
    have hA : ∀ X : List Node,
        pre ++ Node.rule sel b1 :: (mid ++ X) = (pre ++ Node.rule sel b1 :: mid) ++ X := by
      intro X; simp
    rw [hA (Node.rule sel b2 :: post), hA post,
      pass1Walk_append ctx s (pre ++ Node.rule sel b1 :: mid) (Node.rule sel b2 :: post),
      pass1Walk_append ctx s (pre ++ Node.rule sel b1 :: mid) post]
    have hseen : fingerprintRule ctx sel b2
        ∈ (pass1Walk ctx s (pre ++ Node.rule sel b1 :: mid)).2 := by
      rw [hfp, pass1Walk_append ctx s pre (Node.rule sel b1 :: mid)]
      have := pass1Walk_rule_head_seen ctx (pass1Walk ctx s pre).2 sel b1 mid
      simpa [hashStr] using this
    rw [pass1Walk_flat_step ctx _ (Node.rule sel b2) (fingerprintRule ctx sel b2) post
      (by simpa [flatEligible] using hb2) (by simp [fingerprintOf])]
    rw [if_pos hseen]

/-- Witness for C3: `{margin:0; color:red}` and `{color:red; margin:0}`
for selector `.a` at top level — equal fingerprints, later rule removed. -/
theorem pass1_fingerprint_multiset_invariant_witness :
    fingerprintRule [] ".a" [Node.decl "margin" "0" false, Node.decl "color" "red" false]
      = fingerprintRule [] ".a" [Node.decl "color" "red" false, Node.decl "margin" "0" false]
    ∧ pass1Walk [] []
        ([] ++ Node.rule ".a" [Node.decl "margin" "0" false, Node.decl "color" "red" false] ::
          ([] ++ Node.rule ".a" [Node.decl "color" "red" false, Node.decl "margin" "0" false] :: []))
      = pass1Walk [] []
        ([] ++ Node.rule ".a" [Node.decl "margin" "0" false, Node.decl "color" "red" false] ::
          ([] ++ [])) :=
  ⟨pass1_fingerprint_multiset_invariant.1 [] ".a" _ _ (by decide),
   pass1_fingerprint_multiset_invariant.2 [] [] [] [] [] ".a" _ _ (by decide) (by decide)⟩

-- ─── Claim C8 ───────────────────────────────────────────────────────

/-- C8: after the full pipeline, the output contains no at-rule whose
child list is present but empty, at any nesting depth — the cleanup
stage rescans until a scan removes nothing. -/
theorem dedup_no_empty_containers (ns : List Node) :
    noEmptyAtRules (dedupForest ns) = true := by
  unfold dedupForest
  exact removeEmptyAtRules_noEmpty _

-- ─── Claim C10 ──────────────────────────────────────────────────────

/-- C10 (amended): a bodiless at-rule (absent child list, e.g. `@import`)
is never itself fingerprinted, stripped or cleaned up: the sequence of
bodiless at-rules not enclosed by a Rule is preserved exactly, duplicates
included, by the full pipeline.  (One nested inside a Rule can still
disappear with that Rule, which is what the counterexample shows.) -/
theorem dedup_preserves_bodiless_atrules (ns : List Node) :
    bodilessList (dedupForest ns) = bodilessList ns := by
  unfold dedupForest removeEmptyAtRules pass2Forest pass1Forest
  rw [bodilessList_cleanupFuel, bodilessList_pass2, bodilessList_pass1]

/-- Counterexample to C10 as stated: a bodiless `@import` nested inside a
Rule with no declarations is dropped by Pass 2 together with its parent
Rule, so not every bodiless at-rule survives every input tree. -/
theorem dedup_bodiless_in_rule_removed_cx :
    dedupForest [Node.rule ".a" [Node.atrule "import" "\"a.css\"" none]] = [] := by
  simp only [dedupForest, pass1Forest, pass2Forest, pass1Walk, pass2Walk, dedupDecls,
    removeEmptyAtRules, cleanupFuel, cleanOnce, lsize, nsize, gkey,
    fingerprintRule, fingerprintAtRule, ctxString, serializeDeclarations,
    declSerials, hashStr, serializeDecl, declOnlyEligible, isDecl,
    List.insertionSort, List.orderedInsert, List.map_nil, List.map_cons,
    String.reduceAppend, String.intercalate, String.intercalate.go,
    List.mem_cons, List.mem_singleton, List.not_mem_nil,
    String.reduceEq, reduceIte, String.reduceLE, decide_eq_true_eq,
    Bool.false_eq_true, Bool.true_eq_false, if_false, if_true, ite_true, ite_false,
    or_false, false_or, or_true, true_or, not_false_iff,
    List.any_cons, List.any_nil, List.isEmpty_cons, List.isEmpty_nil,
    Bool.or_false, Bool.or_true, Bool.false_or, Bool.true_or]

-- ─── Claim C9 ───────────────────────────────────────────────────────

/-- C9 (amended): on forests whose Rules hold only Declarations (the
spec's data model), no node below a removed ancestor is ever
fingerprinted or added to the seen set: the real Pass 1, which does walk
into removed subtrees, coincides with the idealized pass that skips
them.  (On general forests the two differ — see the counterexample.) -/
theorem pass1_ideal_on_flat_rules (ns : List Node) (h : rulesFlat ns = true) :
    pass1Forest ns = pass1IdealForest ns := by
  unfold pass1Forest pass1IdealForest
  rw [pass1Walk_eq_ideal [] [] ns h]

/-- Witness for C9 (amended) on a flat two-rule forest. -/
theorem pass1_ideal_on_flat_rules_witness :
    pass1Forest [Node.rule ".a" [Node.decl "c" "d" false],
        Node.rule ".b" [Node.decl "c" "d" false]]
      = pass1IdealForest [Node.rule ".a" [Node.decl "c" "d" false],
        Node.rule ".b" [Node.decl "c" "d" false]] :=
  pass1_ideal_on_flat_rules _
    (by simp only [rulesFlat, List.all_cons, List.all_nil, isDecl,
          Bool.and_true, Bool.and_self, Bool.true_and])

/-- Counterexample to C9 as stated: a Rule nested inside a Rule that
Pass 1 removes still has its parent link, so it is fingerprinted (with a
truncated context) and added to the seen set, and that stray fingerprint
then removes the attached first occurrence of `.b {x:y}` — the idealized
pass that never touches detached nodes keeps it. -/
theorem pass1_detached_fingerprinted_cx :
    pass1Forest [Node.rule ".a" [Node.decl "c" "d" false],
        Node.rule ".a" [Node.decl "c" "d" false, Node.rule ".b" [Node.decl "x" "y" false]],
        Node.rule ".b" [Node.decl "x" "y" false]]
      = [Node.rule ".a" [Node.decl "c" "d" false]]
    ∧ pass1IdealForest [Node.rule ".a" [Node.decl "c" "d" false],
        Node.rule ".a" [Node.decl "c" "d" false, Node.rule ".b" [Node.decl "x" "y" false]],
        Node.rule ".b" [Node.decl "x" "y" false]]
      = [Node.rule ".a" [Node.decl "c" "d" false],
         Node.rule ".b" [Node.decl "x" "y" false]] := by
  constructor <;>
    simp only [pass1Forest, pass1IdealForest, pass1Walk, pass1IdealWalk,
      fingerprintRule, fingerprintAtRule, ctxString, serializeDeclarations,
      declSerials, hashStr, serializeDecl, declOnlyEligible, isDecl,
      List.insertionSort, List.orderedInsert, List.map_nil, List.map_cons,
      String.reduceAppend, String.intercalate, String.intercalate.go,
      List.mem_cons, List.mem_singleton, List.not_mem_nil,
      String.reduceEq, reduceIte, String.reduceLE, decide_eq_true_eq,
      Bool.false_eq_true, Bool.true_eq_false, if_false, if_true, ite_true, ite_false,
      or_false, false_or, or_true, true_or, not_false_iff]

-- ─── Claim C7 ───────────────────────────────────────────────────────

/-- C7 (amended): the pipeline is total (every Lean function here is) and
degenerate inputs pass through: the empty tree maps to the empty tree,
and a single Rule with a nonempty, duplicate-free declaration list is
returned unchanged.  (A Rule with an empty declaration list is removed by
Pass 2 — see the counterexample — so "one node ⇒ unchanged" does not hold
unconditionally.) -/
theorem dedup_degenerate_inputs :
    dedupForest [] = []
    ∧ (∀ (sel : String) (b : List Node), b ≠ [] → b.all isDecl = true →
        (declSerials b).Nodup → dedupForest [Node.rule sel b] = [Node.rule sel b]) := by
  constructor
  · simp [dedupForest, pass1Forest, pass2Forest, pass1Walk_nil, pass2Walk_nil,
      removeEmptyAtRules, cleanupFuel, lsize, cleanOnce]
  · intro sel b hne hb hnd
    have h1 : pass1Forest [Node.rule sel b] = [Node.rule sel b] := by
      unfold pass1Forest
      rw [pass1Walk_flat_step [] [] (Node.rule sel b) (fingerprintRule [] sel b) []
        (by simpa [flatEligible] using hb) (by simp [fingerprintOf])]
      rw [if_neg (List.not_mem_nil _), pass1Walk_nil]
    have hdd : (dedupDecls (gkey [] sel) [] b).1 = b := by
      obtain ⟨hfil, -, -⟩ := dedupDecls_spec b (gkey [] sel) [] [] (by simp)
      rw [hfil, filterNewDecls_fresh b [] (by simp) hnd]
    have h2 : pass2Forest [Node.rule sel b] = [Node.rule sel b] := by
      unfold pass2Forest
      rw [pass2Walk_flat_rule_step [] [] sel b [] hb, hdd]
      rw [if_neg (by simpa [List.isEmpty_iff] using hne), pass2Walk_nil]
    unfold dedupForest
    rw [h1, h2]
    exact removeEmptyAtRules_of_noEmpty _ (by
      simp only [noEmptyAtRules, Bool.and_eq_true]
      exact ⟨noEmptyAtRules_decls b hb, trivial⟩)

/-- Witness for C7 (amended) on `.a { color: red }`. -/
theorem dedup_degenerate_inputs_witness :
    dedupForest [Node.rule ".a" [Node.decl "color" "red" false]]
      = [Node.rule ".a" [Node.decl "color" "red" false]] :=
  dedup_degenerate_inputs.2 ".a" _ (List.cons_ne_nil _ _) (by decide) (by decide)

/-- Counterexample to C7 as stated: a tree holding one single Rule with
an empty declaration list is not returned unchanged — Pass 2 deletes any
rule without declaration children, including this one. -/
theorem dedup_single_empty_rule_cx :
    dedupForest [Node.rule ".a" []] = [] := by
  simp only [dedupForest, pass1Forest, pass2Forest, pass1Walk, pass2Walk, dedupDecls,
    removeEmptyAtRules, cleanupFuel, cleanOnce, lsize, nsize, gkey,
    fingerprintRule, fingerprintAtRule, ctxString, serializeDeclarations,
    declSerials, hashStr, serializeDecl, declOnlyEligible, isDecl,
    List.insertionSort, List.orderedInsert, List.map_nil, List.map_cons,
    String.reduceAppend, String.intercalate, String.intercalate.go,
    List.mem_cons, List.mem_singleton, List.not_mem_nil,
    String.reduceEq, reduceIte, String.reduceLE, decide_eq_true_eq,
    Bool.false_eq_true, Bool.true_eq_false, if_false, if_true, ite_true, ite_false,
    or_false, false_or, or_true, true_or, not_false_iff,
    List.any_cons, List.any_nil, List.isEmpty_cons, List.isEmpty_nil,
    Bool.or_false, Bool.or_true, Bool.false_or, Bool.true_or]

-- ─── Claim C5 ───────────────────────────────────────────────────────

/-- C5 (amended): for two Rules with the same context chain and selector,
Pass 2 removes from the later Rule exactly those declarations whose
serialized form was seen earlier in the group — in the earlier Rule or
earlier among the later Rule's own declarations — and keeps the rest;
either Rule is removed entirely iff no declaration of it remains.  The
earlier Rule itself keeps exactly its first occurrence of each serial. -/
theorem pass2_group_decl_dedup (c : List (String × String)) (sel : String)
    (b1 b2 : List Node) (hb1 : b1.all isDecl = true) (hb2 : b2.all isDecl = true) :
    pass2Forest (nest c [Node.rule sel b1, Node.rule sel b2]) =
      nest c
        ((if (filterNewDecls [] b1).isEmpty then []
          else [Node.rule sel (filterNewDecls [] b1)]) ++
         (if (filterNewDecls (declSerials b1) b2).isEmpty then []
          else [Node.rule sel (filterNewDecls (declSerials b1) b2)])) := by
  unfold pass2Forest
  rw [pass2Walk_nest c [] [] _]
  simp only [List.nil_append]
  congr 1
  obtain ⟨h1, h2, -⟩ := dedupDecls_spec b1 (gkey c sel) [] [] (by simp)
  have hinv2 : ∀ t, (gkey c sel, t) ∈ (dedupDecls (gkey c sel) [] b1).2 ↔
      t ∈ declSerials b1 := by
    intro t; rw [h2 t]; simp
  obtain ⟨g1, -, -⟩ := dedupDecls_spec b2 (gkey c sel) _ (declSerials b1) hinv2
  rw [pass2Walk_flat_rule_step c [] sel b1 [Node.rule sel b2] hb1, h1]
  by_cases he1 : (filterNewDecls [] b1).isEmpty
  · simp only [he1, if_true]
    rw [pass2Walk_flat_rule_step c _ sel b2 [] hb2, g1]
    by_cases he2 : (filterNewDecls (declSerials b1) b2).isEmpty
    · simp only [he2, if_true, pass2Walk_nil, List.nil_append]
    · simp only [he2, Bool.false_eq_true, if_false, pass2Walk_nil, List.nil_append]
  · simp only [he1, Bool.false_eq_true, if_false]
    rw [pass2Walk_flat_rule_step c _ sel b2 [] hb2, g1]
    by_cases he2 : (filterNewDecls (declSerials b1) b2).isEmpty
    · simp only [he2, if_true, pass2Walk_nil, List.append_nil]
    · simp only [he2, Bool.false_eq_true, if_false, pass2Walk_nil,
        List.singleton_append]

/-- Witness for C5 (amended): `.a {c:d}` then `.a {c:d; e:f}` in an
`@media x` chain. -/
theorem pass2_group_decl_dedup_witness :
    pass2Forest (nest [("media", "x")] [Node.rule ".a" [Node.decl "c" "d" false],
        Node.rule ".a" [Node.decl "c" "d" false, Node.decl "e" "f" false]]) =
      nest [("media", "x")]
        ((if (filterNewDecls [] [Node.decl "c" "d" false]).isEmpty then []
          else [Node.rule ".a" (filterNewDecls [] [Node.decl "c" "d" false])]) ++
         (if (filterNewDecls (declSerials [Node.decl "c" "d" false])
              [Node.decl "c" "d" false, Node.decl "e" "f" false]).isEmpty then []
          else [Node.rule ".a" (filterNewDecls (declSerials [Node.decl "c" "d" false])
              [Node.decl "c" "d" false, Node.decl "e" "f" false])])) :=
  pass2_group_decl_dedup [("media", "x")] ".a" _ _ (by decide) (by decide)

/-- Counterexample to C5 as stated: in the later Rule `.a {e:f; e:f}` the
second `e:f` is removed although no earlier Rule of the group contains
`e:f` — the seen set also grows from earlier declarations of the same
Rule. -/
theorem pass2_within_rule_duplicate_cx :
    pass2Forest [Node.rule ".a" [Node.decl "c" "d" false],
        Node.rule ".a" [Node.decl "e" "f" false, Node.decl "e" "f" false]]
      = [Node.rule ".a" [Node.decl "c" "d" false],
         Node.rule ".a" [Node.decl "e" "f" false]] := by
  simp only [pass2Forest, pass2Walk, dedupDecls, gkey, ctxString, serializeDecl, isDecl,
    List.map_nil, List.map_cons,
    String.reduceAppend, String.intercalate, String.intercalate.go,
    List.mem_cons, List.mem_singleton, List.not_mem_nil,
    String.reduceEq, reduceIte, String.reduceLE, decide_eq_true_eq,
    Bool.false_eq_true, Bool.true_eq_false, if_false, if_true, ite_true, ite_false,
    or_false, false_or, or_true, true_or, not_false_iff,
    List.any_cons, List.any_nil, Prod.mk.injEq, and_false, false_and, and_true, true_and,
    Bool.or_false, Bool.or_true, Bool.false_or, Bool.true_or]

-- ─── Claim C6 ───────────────────────────────────────────────────────

/-- C6 (amended): Pass 2 never strips a declaration across two groups
whose serialized group-key strings differ: a Rule under chain `c2` with
selector `sel2` whose declarations are pairwise distinct survives
unchanged regardless of what an earlier Rule under `c1`/`sel1` with a
different group-key string contained.  (Group keys are compared as the
single string `context|selector`, which can conflate distinct
(context, selector) pairs — see the counterexample.) -/
theorem pass2_no_cross_group_leakage (c1 c2 : List (String × String))
    (sel1 sel2 : String) (b1 b2 : List Node)
    (hb1 : b1.all isDecl = true) (hb2 : b2.all isDecl = true)
    (hne2 : b2 ≠ []) (hnd : (declSerials b2).Nodup)
    (hgk : gkey c1 sel1 ≠ gkey c2 sel2) :
    pass2Forest (nest c1 [Node.rule sel1 b1] ++ nest c2 [Node.rule sel2 b2])
      = pass2Forest (nest c1 [Node.rule sel1 b1]) ++ nest c2 [Node.rule sel2 b2] := by
  unfold pass2Forest
  rw [pass2Walk_append [] [] (nest c1 [Node.rule sel1 b1]) (nest c2 [Node.rule sel2 b2])]
  congr 1
  have hX2 : ∀ t, (gkey c2 sel2, t) ∈ (pass2Walk [] [] (nest c1 [Node.rule sel1 b1])).2 ↔ False := by
    intro t
    rw [pass2Walk_nest c1 [] [] _]
    simp only [List.nil_append]
    rw [pass2Walk_flat_rule_step c1 [] sel1 b1 [] hb1]
    obtain ⟨-, -, h3⟩ := dedupDecls_spec b1 (gkey c1 sel1) [] [] (by simp)
    have : (gkey c2 sel2, t) ∈ (dedupDecls (gkey c1 sel1) [] b1).2 ↔ False := by
      rw [h3 (gkey c2 sel2) t (fun hc => hgk hc.symm)]
      simp
    split <;> simpa [pass2Walk_nil] using this
  rw [pass2Walk_nest c2 _ _ _]
  simp only [List.nil_append]
  rw [pass2Walk_flat_rule_step c2 _ sel2 b2 [] hb2]
  obtain ⟨g1, -, -⟩ := dedupDecls_spec b2 (gkey c2 sel2) _ [] (by
    intro t; simp only [List.not_mem_nil, iff_false]
    exact fun hc => (hX2 t).mp hc)
  rw [g1, filterNewDecls_fresh b2 [] (by simp) hnd]
  rw [if_neg (by simpa [List.isEmpty_iff] using hne2), pass2Walk_nil]

/-- Witness for C6 (amended): identical declaration text `p:v` under
`@media x` and at top level — the top-level Rule keeps its declaration. -/
theorem pass2_no_cross_group_leakage_witness :
    pass2Forest (nest [("media", "x")] [Node.rule ".a" [Node.decl "p" "v" false]]
        ++ nest [] [Node.rule ".a" [Node.decl "p" "v" false]])
      = pass2Forest (nest [("media", "x")] [Node.rule ".a" [Node.decl "p" "v" false]])
        ++ nest [] [Node.rule ".a" [Node.decl "p" "v" false]] :=
  pass2_no_cross_group_leakage [("media", "x")] [] ".a" ".a" _ _
    (by decide) (by decide) (List.cons_ne_nil _ _) (by decide) (by decide)

/-- Counterexample to C6 as stated: the chains `[@a b|c:d]` with selector
`x` and `[@a b] > [@c d]`-free chain `[@a b]` with selector `c:d|x` have
different (context, selector) pairs but the same serialized group key
`a:b|c:d|x`, so Pass 2 strips `p:v` from the second Rule although it
never appeared under the second Rule's (context, selector) pair. -/
theorem pass2_group_string_collision_cx :
    dedupForest [Node.atrule "a" "b|c:d"
          (some [Node.rule "x" [Node.decl "p" "v" false, Node.decl "q" "w" false]]),
        Node.atrule "a" "b"
          (some [Node.rule "c:d|x" [Node.decl "p" "v" false, Node.decl "r" "s" false]])]
      = [Node.atrule "a" "b|c:d"
          (some [Node.rule "x" [Node.decl "p" "v" false, Node.decl "q" "w" false]]),
         Node.atrule "a" "b"
          (some [Node.rule "c:d|x" [Node.decl "r" "s" false]])] := by
  have h1 : pass1Forest [Node.atrule "a" "b|c:d"
          (some [Node.rule "x" [Node.decl "p" "v" false, Node.decl "q" "w" false]]),
        Node.atrule "a" "b"
          (some [Node.rule "c:d|x" [Node.decl "p" "v" false, Node.decl "r" "s" false]])]
      = [Node.atrule "a" "b|c:d"
          (some [Node.rule "x" [Node.decl "p" "v" false, Node.decl "q" "w" false]]),
        Node.atrule "a" "b"
          (some [Node.rule "c:d|x" [Node.decl "p" "v" false, Node.decl "r" "s" false]])] := by
    unfold pass1Forest
    refine (pass1Walk_fresh [] [] _ ?_ (by simp)).1
    have he : fpList [] [Node.atrule "a" "b|c:d"
          (some [Node.rule "x" [Node.decl "p" "v" false, Node.decl "q" "w" false]]),
        Node.atrule "a" "b"
          (some [Node.rule "c:d|x" [Node.decl "p" "v" false, Node.decl "r" "s" false]])]
        = ["rule|a:b|c:d|x|p:v;q:w", "rule|a:b|c:d|x|p:v;r:s"] := by
      simp only [fpList, fingerprintRule, fingerprintAtRule, ctxString,
        serializeDeclarations, declSerials, serializeDecl, declOnlyEligible, isDecl,
        List.insertionSort, List.orderedInsert, List.map_nil, List.map_cons,
        List.all_cons, List.all_nil, List.isEmpty_cons, List.isEmpty_nil,
        String.reduceAppend, String.intercalate, String.intercalate.go, String.reduceLE,
        reduceIte, Bool.false_eq_true, Bool.true_eq_false, if_false, if_true,
        ite_true, ite_false, List.nil_append, List.cons_append, List.append_nil,
        Bool.and_true, Bool.true_and, Bool.and_false, Bool.false_and,
        Bool.not_false, Bool.not_true]
    rw [he]
    decide
  have e1 : dedupDecls (gkey [("a", "b|c:d")] "x") []
        [Node.decl "p" "v" false, Node.decl "q" "w" false]
      = ([Node.decl "p" "v" false, Node.decl "q" "w" false],
         [("a:b|c:d|x", "q:w"), ("a:b|c:d|x", "p:v")]) := rfl
  have e2 : dedupDecls (gkey [("a", "b")] "c:d|x")
        [("a:b|c:d|x", "q:w"), ("a:b|c:d|x", "p:v")]
        [Node.decl "p" "v" false, Node.decl "r" "s" false]
      = ([Node.decl "r" "s" false],
         [("a:b|c:d|x", "r:s"), ("a:b|c:d|x", "q:w"), ("a:b|c:d|x", "p:v")]) := rfl
  have h2 : pass2Forest [Node.atrule "a" "b|c:d"
          (some [Node.rule "x" [Node.decl "p" "v" false, Node.decl "q" "w" false]]),
        Node.atrule "a" "b"
          (some [Node.rule "c:d|x" [Node.decl "p" "v" false, Node.decl "r" "s" false]])]
      = [Node.atrule "a" "b|c:d"
          (some [Node.rule "x" [Node.decl "p" "v" false, Node.decl "q" "w" false]]),
         Node.atrule "a" "b"
          (some [Node.rule "c:d|x" [Node.decl "r" "s" false]])] := by
    unfold pass2Forest
    rw [pass2Walk_container_step [] [] "a" "b|c:d"
      [Node.rule "x" [Node.decl "p" "v" false, Node.decl "q" "w" false]] _]
    rw [List.nil_append]
    rw [pass2Walk_flat_rule_step [("a", "b|c:d")] [] "x"
      [Node.decl "p" "v" false, Node.decl "q" "w" false] [] (by decide), e1]
    simp only [List.isEmpty_cons, Bool.false_eq_true, if_false, pass2Walk_nil]
    rw [pass2Walk_container_step [] _ "a" "b"
      [Node.rule "c:d|x" [Node.decl "p" "v" false, Node.decl "r" "s" false]] []]
    rw [List.nil_append]
    rw [pass2Walk_flat_rule_step [("a", "b")] _ "c:d|x"
      [Node.decl "p" "v" false, Node.decl "r" "s" false] [] (by decide), e2]
    simp only [List.isEmpty_cons, Bool.false_eq_true, if_false, pass2Walk_nil]
  unfold dedupForest
  rw [h1, h2]
  exact removeEmptyAtRules_of_noEmpty _ (by
    simp only [noEmptyAtRules, List.isEmpty_cons, Bool.not_false, Bool.and_true,
      Bool.true_and, Bool.and_self])

end Dedup
